import Mathlib

/-!
Priority cache (`cache.go`): shallow embedding and verification.

The Go cache is a doubly linked list (`container/list`) of `*Entry` values
together with a map from key to list element.  Pointers are modelled as
handles into a heap:

* a `Handle` stands for one `*list.Element` together with the `*Entry` stored
  in its `Value` field (each element holds exactly one entry for its whole
  life, so one handle names both);
* `heap` gives the current contents of the entry behind a handle;
* `l` is the list, front to back, as the sequence of its elements;
* `m` is the Go map `map[string]*list.Element`;
* `next` is the allocator: the handle the next `&Entry{...}` receives.

`counter` is a `uint64` and wraps modulo `2^64`; `length` and `maxLength` are
Go `int`s.  Byte slices are modelled as immutable sequences of bytes (sharing
of backing arrays between slices is not represented).  The mutex is not
modelled: operations are atomic steps of a sequential machine.
-/

namespace Whatever

/-- A pointer to a list element (and to the entry it carries). -/
abbrev Handle := Nat

/-- A Go byte slice `[]byte`. -/
abbrev Bytes := List UInt8

/-- Modulus of `uint64` arithmetic. -/
def u64 : Nat := 2 ^ 64

/-- The Go struct `Entry`. -/
structure Entry where
  key : String
  value : Bytes
  priority : Nat
  flags : Nat
  casid : Nat
deriving DecidableEq, Repr

/-- The Go struct `Cache` (without the mutex), with the heap of entries made
explicit. -/
structure Cache where
  maxLength : Int
  l : List Handle
  m : String → Option Handle
  heap : Handle → Entry
  next : Handle
  counter : Nat
  length : Int

/-- Zero value of `Entry`, the contents of unallocated heap cells. -/
def Entry.zero : Entry := ⟨"", [], 0, 0, 0⟩

/-- Constructor `NewCache(maxLength)`: empty list, empty map, `counter = 0`, `length = 0`. -/
def NewCache (maxLength : Int) : Cache :=
  { maxLength := maxLength, l := [], m := fun _ => none, heap := fun _ => Entry.zero,
    next := 0, counter := 0, length := 0 }

/-! ## `container/list` operations used by the cache -/

/-- List method `l.Front()`. -/
def listFront (l : List Handle) : Option Handle := l.head?

/-- Element method `e.Next()`: the element after `e`; `nil` when `e` is the last element or
is not (any longer) an element of the list. -/
def listNext : List Handle → Handle → Option Handle
  | [], _ => none
  | x :: xs, e => if x = e then xs.head? else listNext xs e

/-- List method `l.Remove(e)`: afterwards `e` is not an element of the list. -/
def listRemove (l : List Handle) (e : Handle) : List Handle :=
  l.filter (fun x => x != e)

/-- List method `l.PushFront(v)` with `e` the freshly allocated element. -/
def listPushFront (l : List Handle) (e : Handle) : List Handle := e :: l

/-- List method `l.InsertAfter(v, mark)` with `e` the freshly allocated element: `e` is
placed immediately after `mark`. -/
def listInsertAfter (e : Handle) (mark : Handle) : List Handle → List Handle
  | [] => []
  | x :: xs => if x = mark then x :: e :: xs else x :: listInsertAfter e mark xs

/-! ## Map and heap updates -/

/-- Map assignment `m[key] = e`. -/
def mapStore (m : String → Option Handle) (key : String) (e : Handle) :
    String → Option Handle :=
  fun k => if k = key then some e else m k

/-- Map deletion `delete(m, key)`. -/
def mapDelete (m : String → Option Handle) (key : String) : String → Option Handle :=
  fun k => if k = key then none else m k

/-- Assignment through an entry pointer. -/
def heapStore (heap : Handle → Entry) (e : Handle) (v : Entry) : Handle → Entry :=
  fun h => if h = e then v else heap h

/-! ## The eviction pass -/

/-- Body of the `for` loop of `evict` at iterator `i`: remove `i` from the
list, subtract its value length, delete its key from the map. -/
def evictBody (s : Cache) (i : Handle) : Cache :=
  { s with
    l := listRemove s.l i
    length := s.length - ((s.heap i).value.length : Int)
    m := mapDelete s.m (s.heap i).key }

/-- The `for` loop of `evict`: `i` is the loop variable, the first argument
bounds the number of iterations. -/
def evictLoop : Nat → Option Handle → Cache → Cache
  | 0, _, s => s
  | _ + 1, none, s => s
  | fuel + 1, some i, s =>
    if s.length > s.maxLength then
      let s1 := evictBody s i
      evictLoop fuel (listNext s1.l i) s1
    else s

/-- Method `Cache.evict`. -/
def evict (s : Cache) : Cache :=
  evictLoop (s.l.length + 1) (listFront s.l) s

/-! ## Write operations

Every write operation defers `evict`, so each is its body followed by the
eviction pass; results are computed by the body. -/

/-- The placement scan shared by `Set` and `Add`: walk from the front while
the entry priority is `< priority`, remembering the last element passed. -/
def findPosition (heap : Handle → Entry) (priority : Nat) :
    List Handle → Option Handle → Option Handle
  | [], position => position
  | i :: rest, position =>
    if (heap i).priority < priority then findPosition heap priority rest (some i)
    else position

/-- The insertion branch shared by `Set` and `Add` (key absent): allocate the
entry, link it at the scanned position, record it in the map, add its size. -/
def insertNew (s : Cache) (key : String) (value : Bytes) (priority flags : Nat) : Cache :=
  let e := s.next
  let heap := heapStore s.heap e
    { key := key, value := value, priority := priority, flags := flags, casid := s.counter }
  let l := match findPosition s.heap priority s.l none with
    | none => listPushFront s.l e
    | some position => listInsertAfter e position s.l
  { s with heap := heap, l := l, m := mapStore s.m key e, next := e + 1,
           length := s.length + (value.length : Int) }

/-- The in-place branch of `Set`, `Replace` and `CheckAndStore`: replace the
value, set priority and casid; `flags` and the position are untouched. -/
def overwrite (s : Cache) (e : Handle) (value : Bytes) (priority : Nat) : Cache :=
  let entry := s.heap e
  { s with
    heap := heapStore s.heap e { entry with value := value, priority := priority, casid := s.counter }
    length := s.length - (entry.value.length : Int) + (value.length : Int) }

/-- Statement `this.counter++` on a `uint64`. -/
def bump (s : Cache) : Cache := { s with counter := (s.counter + 1) % u64 }

/-- Body of `Set` (everything before the deferred eviction pass). -/
def setBody (s : Cache) (key : String) (value : Bytes) (priority flags _exptime : Nat) : Cache :=
  match s.m key with
  | some element => bump (overwrite s element value priority)
  | none => bump (insertNew s key value priority flags)

/-- Method `Cache.Set`. -/
def Set (s : Cache) (key : String) (value : Bytes) (priority flags exptime : Nat) : Cache :=
  evict (setBody s key value priority flags exptime)

/-- Body of `Add`; the result is `!ok`. -/
def addBody (s : Cache) (key : String) (value : Bytes) (priority flags _exptime : Nat) :
    Cache × Bool :=
  match s.m key with
  | some _ => (s, false)
  | none => (bump (insertNew s key value priority flags), true)

/-- Method `Cache.Add`. -/
def Add (s : Cache) (key : String) (value : Bytes) (priority flags exptime : Nat) :
    Cache × Bool :=
  let r := addBody s key value priority flags exptime
  (evict r.1, r.2)

/-- Body of `Replace`. -/
def replaceBody (s : Cache) (key : String) (value : Bytes) (priority _flags _exptime : Nat) :
    Cache × Bool :=
  match s.m key with
  | some element => (bump (overwrite s element value priority), true)
  | none => (s, false)

/-- Method `Cache.Replace`. -/
def Replace (s : Cache) (key : String) (value : Bytes) (priority flags exptime : Nat) :
    Cache × Bool :=
  let r := replaceBody s key value priority flags exptime
  (evict r.1, r.2)

/-- The in-place branch of `Append`/`Prepend`: the entry value becomes
`newValue` (the concatenation), `length` grows by the size of the argument.
Values are byte strings here; that the built-in `append` may write the new
bytes into a backing array another value shares is told in the section on
values as slices (`appendBodySlice`, `prependBodySlice`). -/
def grow (s : Cache) (e : Handle) (newValue : Bytes) (added : Bytes) (priority : Nat) : Cache :=
  let entry := s.heap e
  { s with
    heap := heapStore s.heap e { entry with value := newValue, priority := priority, casid := s.counter }
    length := s.length + (added.length : Int) }

/-- Body of `Append`: `entry.value = append(entry.value, value...)`. -/
def appendBody (s : Cache) (key : String) (value : Bytes) (priority _flags _exptime : Nat) :
    Cache × Bool :=
  match s.m key with
  | some element => (bump (grow s element ((s.heap element).value ++ value) value priority), true)
  | none => (s, false)

/-- Method `Cache.Append`. -/
def Append (s : Cache) (key : String) (value : Bytes) (priority flags exptime : Nat) :
    Cache × Bool :=
  let r := appendBody s key value priority flags exptime
  (evict r.1, r.2)

/-- Body of `Prepend`: `entry.value = append(value, entry.value...)`. -/
def prependBody (s : Cache) (key : String) (value : Bytes) (priority _flags _exptime : Nat) :
    Cache × Bool :=
  match s.m key with
  | some element => (bump (grow s element (value ++ (s.heap element).value) value priority), true)
  | none => (s, false)

/-- Method `Cache.Prepend`. -/
def Prepend (s : Cache) (key : String) (value : Bytes) (priority flags exptime : Nat) :
    Cache × Bool :=
  let r := prependBody s key value priority flags exptime
  (evict r.1, r.2)

/-- Body of `CheckAndStore`; the result is the pair `(entry, ok)` where
`entry` is the pointer to the entry found under `key` (`none` for `nil`). -/
def checkAndStoreBody (s : Cache) (key : String) (value : Bytes)
    (priority _flags _exptime casid : Nat) : Cache × Option Handle × Bool :=
  match s.m key with
  | some element =>
    if (s.heap element).casid = casid then
      (bump (overwrite s element value priority), some element, true)
    else (s, some element, false)
  | none => (s, none, false)

/-- Method `Cache.CheckAndStore`. -/
def CheckAndStore (s : Cache) (key : String) (value : Bytes)
    (priority flags exptime casid : Nat) : Cache × Option Handle × Bool :=
  let r := checkAndStoreBody s key value priority flags exptime casid
  (evict r.1, r.2.1, r.2.2)

/-! ## Reads and `Delete` -/

/-- Result tuple of `Get`. -/
structure GetResult where
  value : Bytes
  flags : Nat
  size : Nat
  ok : Bool
deriving DecidableEq, Repr

/-- Result tuple of `Gets`. -/
structure GetsResult where
  value : Bytes
  flags : Nat
  size : Nat
  casid : Nat
  ok : Bool
deriving DecidableEq, Repr

/-- Method `Cache.Get`.  `size = uint64(len(value))`, exact because `len` is a
non-negative `int`. -/
def Get (s : Cache) (key : String) : GetResult :=
  match s.m key with
  | some element =>
    let entry := s.heap element
    { value := entry.value, flags := entry.flags, size := entry.value.length, ok := true }
  | none => { value := [], flags := 0, size := 0, ok := false }

/-- Method `Cache.Gets`. -/
def Gets (s : Cache) (key : String) : GetsResult :=
  match s.m key with
  | some element =>
    let entry := s.heap element
    { value := entry.value, flags := entry.flags, size := entry.value.length,
      casid := entry.casid, ok := true }
  | none => { value := [], flags := 0, size := 0, casid := 0, ok := false }

/-- Method `Cache.Delete`. -/
def Delete (s : Cache) (key : String) : Cache × Bool :=
  match s.m key with
  | some element =>
    ({ s with
        l := listRemove s.l element
        length := s.length - ((s.heap element).value.length : Int)
        m := mapDelete s.m key }, true)
  | none => (s, false)

/-! ## Sequences of public operations -/

/-- One call of a public operation with its arguments. -/
inductive Op where
  | set (key : String) (value : Bytes) (priority flags exptime : Nat)
  | add (key : String) (value : Bytes) (priority flags exptime : Nat)
  | replace (key : String) (value : Bytes) (priority flags exptime : Nat)
  | append (key : String) (value : Bytes) (priority flags exptime : Nat)
  | prepend (key : String) (value : Bytes) (priority flags exptime : Nat)
  | cas (key : String) (value : Bytes) (priority flags exptime casid : Nat)
  | get (key : String)
  | gets (key : String)
  | delete (key : String)
deriving DecidableEq, Repr

/-- The state after one operation. -/
def step (s : Cache) : Op → Cache
  | .set k v p f e => Set s k v p f e
  | .add k v p f e => (Add s k v p f e).1
  | .replace k v p f e => (Replace s k v p f e).1
  | .append k v p f e => (Append s k v p f e).1
  | .prepend k v p f e => (Prepend s k v p f e).1
  | .cas k v p f e c => (CheckAndStore s k v p f e c).1
  | .get _ => s
  | .gets _ => s
  | .delete k => (Delete s k).1

/-- The state after a sequence of operations. -/
def run (s : Cache) (ops : List Op) : Cache := ops.foldl step s

/-- Priorities met when iterating the list from front to back. -/
def priorities (s : Cache) : List Nat := s.l.map (fun h => (s.heap h).priority)

/-- Sum of `len(value)` over the entries in the list. -/
def valueSum (s : Cache) : Int := (s.l.map (fun h => ((s.heap h).value.length : Int))).sum

/-- Keys met when iterating the list from front to back. -/
def keys (s : Cache) : List String := s.l.map (fun h => (s.heap h).key)

/-- Whether operation `op`, called in state `s`, leaves the priority of the
entry it writes in place as it is: a write that finds its key present (and,
for `CheckAndStore`, the casid matching) passes that entry's current
priority.  Insertions, reads, `Delete` and failing writes always qualify. -/
def keepsPriority (s : Cache) : Op → Bool
  | .set k _ p _ _ | .replace k _ p _ _ | .append k _ p _ _ | .prepend k _ p _ _ =>
    match s.m k with
    | some h => (s.heap h).priority == p
    | none => true
  | .cas k _ p _ _ c =>
    match s.m k with
    | some h => (s.heap h).casid != c || (s.heap h).priority == p
    | none => true
  | _ => true

/-- Whether every operation of the sequence, called in the state the previous
ones produced, satisfies `keepsPriority`. -/
def runKeepsPriority : Cache → List Op → Bool
  | _, [] => true
  | s, op :: ops => keepsPriority s op && runKeepsPriority (step s op) ops

/-- The record of insert-time flags after operation `op` is called in state
`s`: a `Set` or `Add` executed while its key is absent records its `flags`
argument under that key; no other call changes the record. -/
def recordInsert (s : Cache) (g : String → Option Nat) : Op → String → Option Nat
  | .set k _ _ f _ | .add k _ _ f _ =>
    match s.m k with
    | none => fun k2 => if k2 = k then some f else g k2
    | some _ => g
  | _ => g

/-- For each key, the `flags` argument of the operation of the sequence that
most recently inserted it (starting from the record `g`). -/
def insertedFlags : Cache → (String → Option Nat) → List Op → String → Option Nat
  | _, g, [] => g
  | s, g, op :: ops => insertedFlags (step s op) (recordInsert s g op) ops

/-- A reachable state whose length exceeds its bound: with `max_length = 10`,
`Set k` (5 bytes), `Set a` (5 bytes, same priority, so linked in front of
`k`), `Set b` (10 bytes, higher priority).  The eviction pass of the third
`Set` removes `a` only, leaving `[k, b]` with `length = 15`. -/
def overfull : Cache :=
  run (NewCache 10)
    [.set "k" [118, 118, 118, 118, 118] 1 0 0,
     .set "a" [120, 120, 120, 120, 120] 1 0 0,
     .set "b" [121, 121, 121, 121, 121, 121, 121, 121, 121, 121] 9 0 0]

/-- Whether operation `op`, called in state `t`, is a successful write to
key `k`: a `Set` of `k`, an `Add` of `k` while absent, a `Replace`, `Append`
or `Prepend` of `k` while present, or a `CheckAndStore` of `k` with the
matching casid. -/
def writesKey (t : Cache) (k : String) : Op → Bool
  | .set k2 _ _ _ _ => k2 == k
  | .add k2 _ _ _ _ => k2 == k && (t.m k).isNone
  | .replace k2 _ _ _ _ | .append k2 _ _ _ _ | .prepend k2 _ _ _ _ => k2 == k && (t.m k).isSome
  | .cas k2 _ _ _ _ c =>
    k2 == k && (match t.m k with
      | some h => (t.heap h).casid == c
      | none => false)
  | _ => false

/-- Whether the sequence, run from state `t`, contains a successful write to
key `k`. -/
def runWritesKey : Cache → String → List Op → Bool
  | _, _, [] => false
  | t, k, op :: ops => writesKey t k op || runWritesKey (step t op) k ops

/-! ## Closed forms and invariants used in the proofs -/

/-- One step of the eviction pass, as a closed form. -/
def evictStep (s : Cache) : Cache :=
  match s.l with
  | [] => s
  | i :: _ => if s.length > s.maxLength then evictBody s i else s

/-- The list after linking element `e` at the position found by the scan. -/
def place (heap : Handle → Entry) (priority : Nat) (e : Handle) (l : List Handle) : List Handle :=
  match findPosition heap priority l none with
  | none => listPushFront l e
  | some position => listInsertAfter e position l

/-- The scan condition as a predicate on handles. -/
def below (heap : Handle → Entry) (priority : Nat) (i : Handle) : Bool :=
  decide ((heap i).priority < priority)

/-- What holds of every cache between two public operations: the list has no
repeated element, every linked element was allocated, the map and the list
name the same entries under the same keys, and `length` is the sum of the
value sizes. -/
structure Inv (s : Cache) : Prop where
  nodup : s.l.Nodup
  fresh : ∀ h ∈ s.l, h < s.next
  mapIn : ∀ k h, s.m k = some h → h ∈ s.l ∧ (s.heap h).key = k
  listIn : ∀ h ∈ s.l, s.m (s.heap h).key = some h
  size : s.length = valueSum s

/-- The list is non-decreasing in priority. -/
def Ordered (s : Cache) : Prop :=
  s.l.Pairwise (fun a b => (s.heap a).priority ≤ (s.heap b).priority)

/-- Every entry reachable through the map carries the flags recorded for its
key. -/
def FlagsAgree (s : Cache) (g : String → Option Nat) : Prop :=
  ∀ k h, s.m k = some h → g k = some (s.heap h).flags

/-- The shapes the body of a write operation can take: nothing changes, an
entry found under its key is rewritten in place and stamped with the counter,
or a new entry is inserted; in the last two cases the counter is bumped. -/
inductive BodyOf (s : Cache) : Cache → Prop
  | same : BodyOf s s
  | inplace (k : String) (h : Handle) (ent : Entry) (len : Int) :
      s.m k = some h → ent.casid = s.counter →
      BodyOf s (bump { s with heap := heapStore s.heap h ent, length := len })
  | insert (k : String) (v : Bytes) (p f : Nat) :
      s.m k = none → BodyOf s (bump (insertNew s k v p f))

/-- After at most `n` operations the counter is at most `n`, and as long as
`n` stays below `2^64` (no wraparound) it exceeds the casid of every entry in
the list. -/
def CasInv (n : Nat) (s : Cache) : Prop :=
  s.counter ≤ n ∧ (n < u64 → ∀ h ∈ s.l, (s.heap h).casid < s.counter)

/-- If key `k` is present, its entry was stamped at or after counter `c0`. -/
def CasAtLeast (c0 : Nat) (k : String) (t : Cache) : Prop :=
  ∀ h, t.m k = some h → c0 ≤ (t.heap h).casid

/-- The state a public operation leaves before its deferred eviction pass
runs (for `Get`, `Gets` and `Delete`, which defer none, the final state). -/
def body (s : Cache) : Op → Cache
  | .set k v p f e => setBody s k v p f e
  | .add k v p f e => (addBody s k v p f e).1
  | .replace k v p f e => (replaceBody s k v p f e).1
  | .append k v p f e => (appendBody s k v p f e).1
  | .prepend k v p f e => (prependBody s k v p f e).1
  | .cas k v p f e c => (checkAndStoreBody s k v p f e c).1
  | .get _ => s
  | .gets _ => s
  | .delete k => (Delete s k).1

/-- Whether the operation defers the eviction pass (the six write
operations do). -/
def evicts : Op → Bool
  | .get _ | .gets _ | .delete _ => false
  | _ => true

/-! ## The parser (`parser.go`)

The byte-string constants are written out as lists of ASCII codes.

Go strings and byte slices that travel on the wire are modelled as `Bytes`.
A slice expression out of range panics in Go; `slice` returns `none` for it
and every parser function propagates that `none`, so that "the function
returns `some …`" means "no out-of-range access happened".  The cursor
`position` is a Go `int`; the entry points only ever put lengths and indices
in it, and it is kept as a natural number.  The one place where `int`
arithmetic differs from the natural numbers is the increment `first += 1` at
the largest `int`, which `getNextTokenInt` further down spells out.  Slices are values: that a token is a window on the
reader buffer is not represented. -/

/-- The bytes of an ASCII string literal. -/
def ascii (s : String) : Bytes := s.toList.map (fun c => UInt8.ofNat c.toNat)

/-- Conversion `string(b)` of a byte slice to a Go string used as cache key:
one character per byte. -/
def goString (b : Bytes) : String := String.mk (b.map (fun x => Char.ofNat x.toNat))

/-- Command name `set`. -/
def cmdSet : Bytes := [115, 101, 116]
/-- Command name `add`. -/
def cmdAdd : Bytes := [97, 100, 100]
/-- Command name `replace`. -/
def cmdReplace : Bytes := [114, 101, 112, 108, 97, 99, 101]
/-- Command name `append`. -/
def cmdAppend : Bytes := [97, 112, 112, 101, 110, 100]
/-- Command name `prepend`. -/
def cmdPrepend : Bytes := [112, 114, 101, 112, 101, 110, 100]
/-- Command name `cas`. -/
def cmdCas : Bytes := [99, 97, 115]
/-- Command name `get`. -/
def cmdGet : Bytes := [103, 101, 116]
/-- Command name `gets`. -/
def cmdGets : Bytes := [103, 101, 116, 115]
/-- Command name `delete`. -/
def cmdDelete : Bytes := [100, 101, 108, 101, 116, 101]
/-- Reply keyword `VALUE`. -/
def strValue : Bytes := [86, 65, 76, 85, 69]
/-- Reply terminator `END\r\n`. -/
def strEnd : Bytes := [69, 78, 68, 13, 10]
/-- Reply `STORED\r\n`. -/
def msgStored : Bytes := [83, 84, 79, 82, 69, 68, 13, 10]
/-- Reply `NOT_STORED\r\n`. -/
def msgNotStored : Bytes := [78, 79, 84, 95, 83, 84, 79, 82, 69, 68, 13, 10]
/-- Reply `DELETED\r\n`. -/
def msgDeleted : Bytes := [68, 69, 76, 69, 84, 69, 68, 13, 10]
/-- Reply `NOT_FOUND\r\n`. -/
def msgNotFound : Bytes := [78, 79, 84, 95, 70, 79, 85, 78, 68, 13, 10]
/-- Reply `EXISTS\r\n`. -/
def msgExists : Bytes := [69, 88, 73, 83, 84, 83, 13, 10]
/-- Reply `ERROR\r\n`. -/
def msgError : Bytes := [69, 82, 82, 79, 82, 13, 10]

/-- The space byte. -/
def space : UInt8 := 32

/-- The Go struct `Parser`. -/
structure Parser where
  cmd : Bytes
  failedToken : Bytes
  position : Nat
deriving DecidableEq, Repr

/-- Slice expression `b[lo:hi]`; `none` stands for the run-time panic raised
when the bounds are out of range.  The upper bound is checked against
`len(b)`; Go checks it against `cap(b) >= len(b)`, so a slice that is in
range here is in range in Go. -/
def slice (b : Bytes) (lo hi : Nat) : Option Bytes :=
  if lo ≤ hi ∧ hi ≤ b.length then some ((b.take hi).drop lo) else none

/-- Library function `bytes.IndexByte(b, c)`: index of the first `c` in `b`;
`none` stands for `-1`. -/
def indexByte : Bytes → UInt8 → Option Nat
  | [], _ => none
  | x :: xs, c => if x = c then some 0 else (indexByte xs c).map (· + 1)

/-- Method `Parser.getNextToken`: the result token is `none` for `nil`. -/
def getNextToken (p : Parser) : Option (Parser × Option Bytes) :=
  let first := p.position + 1
  if first > p.cmd.length then some (p, none)
  else
    (slice p.cmd first p.cmd.length).bind fun rest =>
      let last := match indexByte rest space with
        | none => p.cmd.length
        | some i => i + first
      if first = last then some (p, none)
      else (slice p.cmd first last).bind fun token =>
        some ({ p with position := last }, some token)

/-- Whether a byte is an ASCII decimal digit. -/
def isDigit (c : UInt8) : Bool := decide (48 ≤ c.toNat ∧ c.toNat ≤ 57)

/-- The number a sequence of decimal digits denotes. -/
def digitsValue (s : Bytes) : Nat := s.foldl (fun acc c => 10 * acc + (c.toNat - 48)) 0

/-- Library function `strconv.ParseUint(s, 10, 64)`, by its documented
contract: the pair `(value, err == nil)`.  An empty string or any byte that
is not a decimal digit (a sign included) is a syntax error with value 0; a
value that does not fit 64 bits is a range error with value `2^64 - 1`. -/
def ParseUint (s : Bytes) : Nat × Bool :=
  if s = [] ∨ s.all isDigit = false then (0, false)
  else if digitsValue s < u64 then (digitsValue s, true)
  else (u64 - 1, false)

/-- Method `Parser.parseUint64`: on a `nil` token the zero values are
returned; on a conversion error the value `ParseUint` produced and
`ok = false`. -/
def parseUint64 (p : Parser) : Option (Parser × Nat × Bool) :=
  (getNextToken p).bind fun r =>
    match r.2 with
    | none => some (r.1, 0, false)
    | some uintStr =>
      let c := ParseUint uintStr
      if c.2 = false then some (r.1, c.1, false) else some (r.1, c.1, true)

/-- Result tuple of `parseStoreCmd`. -/
structure StoreCmd where
  key : Option Bytes
  priority : Nat
  flags : Nat
  exptime : Nat
  size : Nat
  casid : Nat
  ok : Bool
deriving DecidableEq, Repr

/-- Method `Parser.parseStoreCmd`.  On failure the results parsed so far
keep their values and the remaining ones are zero. -/
def parseStoreCmd (p : Parser) (cmd : Bytes) : Option (Parser × StoreCmd) :=
  (getNextToken { p with position := cmd.length }).bind fun r0 =>
    match r0.2 with
    | none => some ({ r0.1 with failedToken := ascii "key" }, ⟨none, 0, 0, 0, 0, 0, false⟩)
    | some key =>
      (parseUint64 r0.1).bind fun r1 =>
        if r1.2.2 = false then
          some ({ r1.1 with failedToken := ascii "priority" },
            ⟨some key, r1.2.1, 0, 0, 0, 0, false⟩)
        else (parseUint64 r1.1).bind fun r2 =>
          if r2.2.2 = false then
            some ({ r2.1 with failedToken := ascii "flags" },
              ⟨some key, r1.2.1, r2.2.1, 0, 0, 0, false⟩)
          else (parseUint64 r2.1).bind fun r3 =>
            if r3.2.2 = false then
              some ({ r3.1 with failedToken := ascii "exptime" },
                ⟨some key, r1.2.1, r2.2.1, r3.2.1, 0, 0, false⟩)
            else (parseUint64 r3.1).bind fun r4 =>
              if r4.2.2 = false then
                some ({ r4.1 with failedToken := ascii "size" },
                  ⟨some key, r1.2.1, r2.2.1, r3.2.1, r4.2.1, 0, false⟩)
              else if cmd = cmdCas then
                (parseUint64 r4.1).bind fun r5 =>
                  if r5.2.2 = false then
                    some ({ r5.1 with failedToken := ascii "casid" },
                      ⟨some key, r1.2.1, r2.2.1, r3.2.1, r4.2.1, r5.2.1, false⟩)
                  else some (r5.1, ⟨some key, r1.2.1, r2.2.1, r3.2.1, r4.2.1, r5.2.1, true⟩)
              else some (r4.1, ⟨some key, r1.2.1, r2.2.1, r3.2.1, r4.2.1, 0, true⟩)

/-- Method `Parser.ParseSetCmd`. -/
def ParseSetCmd (p : Parser) : Option (Parser × StoreCmd) := parseStoreCmd p cmdSet
/-- Method `Parser.ParseAddCmd`. -/
def ParseAddCmd (p : Parser) : Option (Parser × StoreCmd) := parseStoreCmd p cmdAdd
/-- Method `Parser.ParseReplaceCmd`. -/
def ParseReplaceCmd (p : Parser) : Option (Parser × StoreCmd) := parseStoreCmd p cmdReplace
/-- Method `Parser.ParseAppendCmd`. -/
def ParseAppendCmd (p : Parser) : Option (Parser × StoreCmd) := parseStoreCmd p cmdAppend
/-- Method `Parser.ParsePrependCmd`. -/
def ParsePrependCmd (p : Parser) : Option (Parser × StoreCmd) := parseStoreCmd p cmdPrepend
/-- Method `Parser.ParseCasCmd`. -/
def ParseCasCmd (p : Parser) : Option (Parser × StoreCmd) := parseStoreCmd p cmdCas

/-- The common body of `ParseGetCmd`, `ParseGetsCmd` and `ParseDeleteCmd`:
set the cursor to the length of the command name and take one token; the
result is `(key, ok)`. -/
def parseKeyCmd (p : Parser) (cmd : Bytes) : Option (Parser × Option Bytes × Bool) :=
  (getNextToken { p with position := cmd.length }).bind fun r =>
    match r.2 with
    | none => some ({ r.1 with failedToken := ascii "key" }, none, false)
    | some key => some (r.1, some key, true)

/-- Method `Parser.ParseGetCmd`. -/
def ParseGetCmd (p : Parser) : Option (Parser × Option Bytes × Bool) := parseKeyCmd p cmdGet
/-- Method `Parser.ParseGetsCmd`. -/
def ParseGetsCmd (p : Parser) : Option (Parser × Option Bytes × Bool) := parseKeyCmd p cmdGets
/-- Method `Parser.ParseDeleteCmd`. -/
def ParseDeleteCmd (p : Parser) : Option (Parser × Option Bytes × Bool) :=
  parseKeyCmd p cmdDelete

/-- Result tuple of `ParseGetResponse`. -/
structure GetResponse where
  flags : Nat
  size : Nat
  casid : Nat
  ok : Bool
deriving DecidableEq, Repr

/-- Method `Parser.ParseGetResponse`. -/
def ParseGetResponse (p : Parser) (cmd : Bytes) : Option (Parser × GetResponse) :=
  (getNextToken { p with position := strValue.length }).bind fun r0 =>
    match r0.2 with
    | none => some ({ r0.1 with failedToken := ascii "key" }, ⟨0, 0, 0, false⟩)
    | some _ =>
      (parseUint64 r0.1).bind fun r1 =>
        if r1.2.2 = false then
          some ({ r1.1 with failedToken := ascii "flags" }, ⟨r1.2.1, 0, 0, false⟩)
        else (parseUint64 r1.1).bind fun r2 =>
          if r2.2.2 = false then
            some ({ r2.1 with failedToken := ascii "size" }, ⟨r1.2.1, r2.2.1, 0, false⟩)
          else if cmd = cmdGets then
            (parseUint64 r2.1).bind fun r3 =>
              if r3.2.2 = false then
                some ({ r3.1 with failedToken := ascii "casid" },
                  ⟨r1.2.1, r2.2.1, r3.2.1, false⟩)
              else some (r3.1, ⟨r1.2.1, r2.2.1, r3.2.1, true⟩)
          else some (r2.1, ⟨r1.2.1, r2.2.1, 0, true⟩)


/-! ## The connection handler (`server.go`)

One pass of the loop of `handleConn` after `ReadSlice` has delivered a line:
`buffer` is that line (newline included) and `rw` is the rest of the input,
that is, the finite sequence of bytes the connection still delivers before
it reports end of file.  Read errors other than end of file and logging
are not modelled; the write that ends a pass is `writeReply`.

Tokens are values here.  In the source the key of a store command is a
window on the buffer of the reader, and `string(key)` is evaluated after the
payload has been read: when the payload is not yet in that buffer, reading
it refills the buffer and the window shows other bytes.  The store methods
below describe the passes in which the payload read leaves the bytes under
the key window alone, as it does when the payload is already buffered. -/

/-- Library function `bytes.HasPrefix(s, pre)`. -/
def HasPrefix : Bytes → Bytes → Bool
  | _, [] => true
  | [], _ :: _ => false
  | x :: xs, y :: ys => x == y && HasPrefix xs ys

/-- Membership in the cutset `"\r\n"`. -/
def isCRLF (c : UInt8) : Bool := c == 13 || c == 10

/-- Library call `bytes.Trim(b, "\r\n")`: strip the cutset bytes from both
ends. -/
def bytesTrim (b : Bytes) : Bytes := (b.dropWhile isCRLF).rdropWhile isCRLF

/-- Digits of the verb `%d`, most significant first; the first argument
bounds the number of digits. -/
def decimalCore : Nat → Nat → Bytes → Bytes
  | 0, _, acc => acc
  | fuel + 1, n, acc =>
    if n / 10 = 0 then UInt8.ofNat (48 + n % 10) :: acc
    else decimalCore fuel (n / 10) (UInt8.ofNat (48 + n % 10) :: acc)

/-- Formatting verb `%d` of `fmt` applied to an unsigned integer: decimal,
no sign, no leading zeros. -/
def decimal (n : Nat) : Bytes := decimalCore (n + 1) n []

/-- The Go struct `Server` (without address and socket). -/
structure Server where
  cache : Cache
  parser : Parser
  response : Bytes

/-- Conversion `int64(size)` of a `uint64`. -/
def toInt64 (size : Nat) : Int :=
  if size % u64 < 2 ^ 63 then ((size % u64 : Nat) : Int) else ((size % u64 : Nat) : Int) - (u64 : Int)

/-- Library call `ioutil.ReadAll(io.LimitReader(rw, n))` on an input that
ends after the bytes `rw`: the bytes read and the input left.  Reading stops
after `n` bytes or at the end of the input, whichever comes first, and the
end of the input is not an error for `ReadAll`. -/
def readAllLimit (rw : Bytes) (n : Int) : Bytes × Bytes :=
  if n ≤ 0 then ([], rw) else (rw.take n.toNat, rw.drop n.toNat)

/-- Method `Server.handleError`. -/
def handleError (srv : Server) : Server := { srv with response := msgError }

/-- Method `Server.handleInputError`. -/
def handleInputError (srv : Server) (errorStr : Bytes) : Server :=
  { srv with response := ascii "CLIENT_ERROR " ++ errorStr ++ ascii "\r\n" }

/-- The parse-failure branch shared by the `run…Cmd` methods. -/
def parseFailed (srv : Server) (parser : Parser) : Server :=
  handleInputError { srv with parser := parser } (ascii "Cannot parse " ++ parser.failedToken)

/-- Method `Server.runSetCmd`; the second component is the input left.  The
key passed to `Set` is the token as parsed (see the note on tokens above). -/
def runSetCmd (srv : Server) (rw : Bytes) : Option (Server × Bytes) :=
  (ParseSetCmd srv.parser).bind fun r =>
    if r.2.ok = false then some (parseFailed srv r.1, rw)
    else
      let rd := readAllLimit rw (toInt64 r.2.size)
      some ({ srv with
                parser := r.1
                cache := Set srv.cache (goString (r.2.key.getD [])) rd.1
                  r.2.priority r.2.flags r.2.exptime
                response := msgStored }, rd.2)

/-- The tail of `runAddCmd`, `runReplaceCmd`, `runAppendCmd` and
`runPrependCmd`: store the new cache and stage the reply for the result. -/
def stored (srv : Server) (parser : Parser) (r : Cache × Bool) : Server :=
  { srv with parser := parser, cache := r.1,
             response := if r.2 = true then msgStored else msgNotStored }

/-- Method `Server.runAddCmd`. -/
def runAddCmd (srv : Server) (rw : Bytes) : Option (Server × Bytes) :=
  (ParseAddCmd srv.parser).bind fun r =>
    if r.2.ok = false then some (parseFailed srv r.1, rw)
    else
      let rd := readAllLimit rw (toInt64 r.2.size)
      some (stored srv r.1 (Add srv.cache (goString (r.2.key.getD [])) rd.1
        r.2.priority r.2.flags r.2.exptime), rd.2)

/-- Method `Server.runReplaceCmd`. -/
def runReplaceCmd (srv : Server) (rw : Bytes) : Option (Server × Bytes) :=
  (ParseReplaceCmd srv.parser).bind fun r =>
    if r.2.ok = false then some (parseFailed srv r.1, rw)
    else
      let rd := readAllLimit rw (toInt64 r.2.size)
      some (stored srv r.1 (Replace srv.cache (goString (r.2.key.getD [])) rd.1
        r.2.priority r.2.flags r.2.exptime), rd.2)

/-- Method `Server.runAppendCmd`. -/
def runAppendCmd (srv : Server) (rw : Bytes) : Option (Server × Bytes) :=
  (ParseAppendCmd srv.parser).bind fun r =>
    if r.2.ok = false then some (parseFailed srv r.1, rw)
    else
      let rd := readAllLimit rw (toInt64 r.2.size)
      some (stored srv r.1 (Append srv.cache (goString (r.2.key.getD [])) rd.1
        r.2.priority r.2.flags r.2.exptime), rd.2)

/-- Method `Server.runPrependCmd`. -/
def runPrependCmd (srv : Server) (rw : Bytes) : Option (Server × Bytes) :=
  (ParsePrependCmd srv.parser).bind fun r =>
    if r.2.ok = false then some (parseFailed srv r.1, rw)
    else
      let rd := readAllLimit rw (toInt64 r.2.size)
      some (stored srv r.1 (Prepend srv.cache (goString (r.2.key.getD [])) rd.1
        r.2.priority r.2.flags r.2.exptime), rd.2)

/-- Method `Server.runCasCmd`. -/
def runCasCmd (srv : Server) (rw : Bytes) : Option (Server × Bytes) :=
  (ParseCasCmd srv.parser).bind fun r =>
    if r.2.ok = false then some (parseFailed srv r.1, rw)
    else
      let rd := readAllLimit rw (toInt64 r.2.size)
      let c := CheckAndStore srv.cache (goString (r.2.key.getD [])) rd.1
        r.2.priority r.2.flags r.2.exptime r.2.casid
      some ({ srv with
                parser := r.1
                cache := c.1
                response :=
                  if c.2.2 = true then msgStored
                  else match c.2.1 with
                    | none => msgNotFound
                    | some _ => msgExists }, rd.2)

/-- Method `Server.runGetCmd`. -/
def runGetCmd (srv : Server) : Option Server :=
  (ParseGetCmd srv.parser).bind fun r =>
    if r.2.2 = false then some (parseFailed srv r.1)
    else
      let g := Get srv.cache (goString (r.2.1.getD []))
      if g.ok = true then
        some { srv with
                 parser := r.1
                 response := ascii "VALUE " ++ r.2.1.getD [] ++ ascii " " ++ decimal g.flags ++
                   ascii " " ++ decimal g.size ++ ascii " \r\n" ++ g.value ++ ascii "\r\nEND\r\n" }
      else some { srv with parser := r.1, response := strEnd }

/-- Method `Server.runGetsCmd`: on a miss the response is left as it is. -/
def runGetsCmd (srv : Server) : Option Server :=
  (ParseGetsCmd srv.parser).bind fun r =>
    if r.2.2 = false then some (parseFailed srv r.1)
    else
      let g := Gets srv.cache (goString (r.2.1.getD []))
      if g.ok = true then
        some { srv with
                 parser := r.1
                 response := ascii "VALUE " ++ r.2.1.getD [] ++ ascii " " ++ decimal g.flags ++
                   ascii " " ++ decimal g.size ++ ascii " " ++ decimal g.casid ++
                   ascii " \r\n" ++ g.value ++ ascii "\r\nEND\r\n" }
      else some { srv with parser := r.1 }

/-- Method `Server.runDeleteCmd`. -/
def runDeleteCmd (srv : Server) : Option Server :=
  (ParseDeleteCmd srv.parser).bind fun r =>
    if r.2.2 = false then some (parseFailed srv r.1)
    else
      let d := Delete srv.cache (goString (r.2.1.getD []))
      some { srv with
               parser := r.1
               cache := d.1
               response := if d.2 = true then msgDeleted else msgNotFound }

/-- The branch the `if … else if …` chain of `handleConn` takes. -/
inductive Command where
  | set | add | replace | append | prepend | cas | gets | get | delete | quit | unknown
deriving DecidableEq, Repr

/-- The chain of `bytes.HasPrefix` tests of `handleConn`, in source order. -/
def dispatch (buffer : Bytes) : Command :=
  if HasPrefix buffer cmdSet then .set
  else if HasPrefix buffer cmdAdd then .add
  else if HasPrefix buffer cmdReplace then .replace
  else if HasPrefix buffer cmdAppend then .append
  else if HasPrefix buffer cmdPrepend then .prepend
  else if HasPrefix buffer cmdCas then .cas
  else if HasPrefix buffer cmdGets then .gets
  else if HasPrefix buffer cmdGet then .get
  else if HasPrefix buffer cmdDelete then .delete
  else if buffer.length = 1 then .quit
  else .unknown

/-- One pass of the loop of `handleConn` on the line `buffer`, up to the
point where the response is written: the new server state, the input left,
and whether the loop goes on (`false` when the handler returns). -/
def handle (srv : Server) (buffer rw : Bytes) : Option (Server × Bytes × Bool) :=
  let srv1 := { srv with parser := { srv.parser with cmd := bytesTrim buffer } }
  match dispatch buffer with
  | .set => (runSetCmd srv1 rw).map fun r => (r.1, r.2, true)
  | .add => (runAddCmd srv1 rw).map fun r => (r.1, r.2, true)
  | .replace => (runReplaceCmd srv1 rw).map fun r => (r.1, r.2, true)
  | .append => (runAppendCmd srv1 rw).map fun r => (r.1, r.2, true)
  | .prepend => (runPrependCmd srv1 rw).map fun r => (r.1, r.2, true)
  | .cas => (runCasCmd srv1 rw).map fun r => (r.1, r.2, true)
  | .gets => (runGetsCmd srv1).map fun r => (r, rw, true)
  | .get => (runGetCmd srv1).map fun r => (r, rw, true)
  | .delete => (runDeleteCmd srv1).map fun r => (r, rw, true)
  | .quit => some (srv1, rw, false)
  | .unknown => some (handleError srv1, rw, true)

/-- Constructor `NewServer`: a fresh cache, a zero parser, no response. -/
def NewServer (maxLength : Int) : Server :=
  { cache := NewCache maxLength, parser := ⟨[], [], 0⟩, response := [] }


/-! ## Fields of a command line, in the words of the specification -/

/-- The pieces of a byte string cut at every space. -/
def splitSpaces : Bytes → List Bytes
  | [] => [[]]
  | c :: cs =>
    if c = space then [] :: splitSpaces cs
    else match splitSpaces cs with
      | [] => [[c]]
      | t :: ts => (c :: t) :: ts

/-- The fields of a command line whose command name is `name`: what follows
the name and one separator byte, cut at every space. -/
def fieldsOf (name cmd : Bytes) : List Bytes := splitSpaces (cmd.drop (name.length + 1))

/-- The `i`-th field; a missing field reads as the empty one. -/
def field (fs : List Bytes) (i : Nat) : Bytes := fs.getD i []

/-- A valid unsigned decimal: a non-empty string of ASCII digits denoting a
number below `2^64`. -/
def validUint (t : Bytes) : Bool := !t.isEmpty && t.all isDigit && decide (digitsValue t < u64)

/-- Name of the first field of a store command that is missing, empty or
(for the numeric ones) not a valid unsigned decimal, in the order key,
priority, flags, exptime, size, and casid when `cas` is set. -/
def firstBadStoreField (cas : Bool) (fs : List Bytes) : Option Bytes :=
  if (field fs 0).isEmpty then some (ascii "key")
  else if !validUint (field fs 1) then some (ascii "priority")
  else if !validUint (field fs 2) then some (ascii "flags")
  else if !validUint (field fs 3) then some (ascii "exptime")
  else if !validUint (field fs 4) then some (ascii "size")
  else if cas && !validUint (field fs 5) then some (ascii "casid")
  else none

/-- Name of a command, for the nine commands of the vocabulary. -/
def commandName : Command → Bytes
  | .set => cmdSet | .add => cmdAdd | .replace => cmdReplace | .append => cmdAppend
  | .prepend => cmdPrepend | .cas => cmdCas | .gets => cmdGets | .get => cmdGet
  | .delete => cmdDelete | .quit => [] | .unknown => []

/-- Whether the command is one of the nine commands of the vocabulary. -/
def isKnown : Command → Bool
  | .quit | .unknown => false
  | _ => true

/-- Whether the command is a store command. -/
def isStore : Command → Bool
  | .set | .add | .replace | .append | .prepend | .cas => true
  | _ => false

/-- Name of the first field of a command line that does not parse: for a
store command as in `firstBadStoreField`, for `get`, `gets` and `delete` the
key when it is missing or empty. -/
def firstBadField (c : Command) (cmd : Bytes) : Option Bytes :=
  if isStore c then firstBadStoreField (decide (c = .cas)) (fieldsOf (commandName c) cmd)
  else if isKnown c then
    (if (field (fieldsOf (commandName c) cmd) 0).isEmpty then some (ascii "key") else none)
  else none

/-- The bytes up to the first space. -/
def tok (l : Bytes) : Bytes := l.takeWhile (fun x => x != space)

/-- The fields that start one byte after the cursor. -/
def fieldsAt (p : Parser) : List Bytes := splitSpaces (p.cmd.drop (p.position + 1))

/-- The parser after a token was taken (the cursor is on the separator that
ends it); unchanged when the token is empty. -/
@[irreducible]
def advance (p : Parser) : Parser :=
  if field (fieldsAt p) 0 = [] then p
  else { p with position := p.position + 1 + (field (fieldsAt p) 0).length }


/-- The fields after the cursor of `p` are the fields of `fs` from index `k`
on. -/
def AlignedAt (p : Parser) (fs : List Bytes) (k : Nat) : Prop :=
  ∀ i, field (fieldsAt p) i = field fs (k + i)


/-- What a parse of a store command may return: a result (no panic), which
is either a success carrying a key, or a failure whose `failedToken` is one
of the field names. -/
def StoreOutcome (r : Option (Parser × StoreCmd)) : Prop :=
  ∃ p2 c, r = some (p2, c) ∧
    ((c.ok = true ∧ c.key ≠ none) ∨
     (c.ok = false ∧ p2.failedToken ∈
       [ascii "key", ascii "priority", ascii "flags", ascii "exptime", ascii "size",
        ascii "casid"]))

/-- What a parse of `get`, `gets` or `delete` may return: a result (no
panic), either a success carrying a key or a failure naming the key. -/
def KeyOutcome (r : Option (Parser × Option Bytes × Bool)) : Prop :=
  ∃ p2 key ok, r = some (p2, key, ok) ∧
    ((ok = true ∧ key ≠ none) ∨ (ok = false ∧ p2.failedToken = ascii "key"))

/-- What `ParseGetResponse` may return: a result (no panic), either a
success or a failure whose `failedToken` is one of the field names. -/
def ResponseOutcome (r : Option (Parser × GetResponse)) : Prop :=
  ∃ p2 c, r = some (p2, c) ∧
    (c.ok = true ∨
     (c.ok = false ∧ p2.failedToken ∈
       [ascii "key", ascii "flags", ascii "size", ascii "casid"]))


/-- The first two bytes of a byte string, when it has two. -/
def first2 : Bytes → Option (UInt8 × UInt8)
  | x :: y :: _ => some (x, y)
  | _ => none


/-- A key as it can travel in a command line: not empty and free of spaces,
carriage returns and line feeds. -/
def keyToken (k : Bytes) : Bool :=
  !k.isEmpty && k.all (fun c => c != 32 && c != 13 && c != 10)


/-! ## The client's store request (`client.go`, `Client.store`) -/

/-- The header fields of a store request joined by single spaces, as the
format strings `"%s %s %d %d %d %d %d \r\n"` (for `cas`) and
`"%s %s %d %d %d %d \r\n"` (otherwise) of `Client.store` lay them out, up to
the last field. -/
def storeHeader (cmd key : Bytes) (priority flags exptime size casid : Nat) : Bytes :=
  if cmd = cmdCas then
    cmd ++ space :: (key ++ space :: (decimal priority ++ space :: (decimal flags ++
      space :: (decimal exptime ++ space :: (decimal size ++ space :: decimal casid)))))
  else
    cmd ++ space :: (key ++ space :: (decimal priority ++ space :: (decimal flags ++
      space :: (decimal exptime ++ space :: decimal size))))

/-- The header line `Client.store` writes: the fields, a space, `\r\n`. -/
def clientStoreLine (cmd key : Bytes) (priority flags exptime size casid : Nat) : Bytes :=
  storeHeader cmd key priority flags exptime size casid ++ [space, 13, 10]

/-- The parse entry point `entry` of the store command `name` returns the
fields of every header the client emits for that command, parsed from the
trimmed line with its trailing space and from the line without it. -/
def RoundTrips (entry : Parser → Option (Parser × StoreCmd)) (name : Bytes) : Prop :=
  ∀ (p : Parser) (k : Bytes) (priority flags exptime size casid : Nat),
    keyToken k = true → priority < u64 → flags < u64 → exptime < u64 → size < u64 →
    casid < u64 →
    (∃ p2, entry { p with
          cmd := bytesTrim (clientStoreLine name k priority flags exptime size casid) } =
        some (p2, ⟨some k, priority, flags, exptime, size,
          if name = cmdCas then casid else 0, true⟩)) ∧
    (∃ p2, entry { p with cmd := storeHeader name k priority flags exptime size casid } =
        some (p2, ⟨some k, priority, flags, exptime, size,
          if name = cmdCas then casid else 0, true⟩))


/-- What an in-place write with priority `p` through the entry pointer `h`
leaves behind, `b` being the state before the deferred eviction pass and `s`
the state at the call: the list, the order of its keys and the map are as
they were, the entry carries priority `p` and the casid `s.counter` and keeps
its key and flags, and every other entry is untouched. -/
def KeepsPosition (s : Cache) (h : Handle) (p : Nat) (b : Cache) : Prop :=
  b.l = s.l ∧ keys b = keys s ∧ b.m = s.m ∧
  (b.heap h).priority = p ∧ (b.heap h).casid = s.counter ∧
  (b.heap h).key = (s.heap h).key ∧ (b.heap h).flags = (s.heap h).flags ∧
  ∀ x, x ≠ h → b.heap x = s.heap x

/-! ## The header line of a retrieval reply (`server.go`, `client.go`) -/

/-- The first line of the reply `runGetCmd` formats on a hit, the part
`"VALUE %s %d %d \r\n"` of its format string: it is the line `Client.get`
reads with `ReadSlice('\n')` and hands, untrimmed, to `ParseGetResponse`. -/
def getHeader (key : Bytes) (flags size : Nat) : Bytes :=
  ascii "VALUE " ++ key ++ ascii " " ++ decimal flags ++ ascii " " ++ decimal size ++
    ascii " \r\n"

/-- The first line of the reply `runGetsCmd` formats on a hit, the part
`"VALUE %s %d %d %d \r\n"` of its format string. -/
def getsHeader (key : Bytes) (flags size casid : Nat) : Bytes :=
  ascii "VALUE " ++ key ++ ascii " " ++ decimal flags ++ ascii " " ++ decimal size ++
    ascii " " ++ decimal casid ++ ascii " \r\n"

/-! ## Locking (`cache.go`)

The mutex is not part of the cache state above, where every public operation
is a single step.  To say when the lock is held, a method is laid out as the
sequence of its top-level statements and executed with the rule Go gives
`defer`: the deferred calls run when the function returns, the last one
registered first. -/

/-- The calls of a cache method that matter to locking: `this.mutex.Lock()`,
`this.mutex.Unlock()`, `this.evict()`, and the rest of the method body
(`work`). -/
inductive Action where
  | lock
  | unlock
  | work
  | evict
deriving DecidableEq, Repr

/-- A top-level statement of a method: a call executed where it stands, or a
`defer` statement registering a call. -/
inductive Stmt where
  | call (a : Action)
  | deferred (a : Action)
deriving DecidableEq, Repr

/-- The calls of a function body in the order they run: a call runs in
place, a `defer` pushes its call on the stack of deferred calls, and at the
return the stack is run from the top. -/
def exec : List Stmt → List Action → List Action
  | [], stack => stack
  | .call a :: rest, stack => a :: exec rest stack
  | .deferred a :: rest, stack => exec rest (a :: stack)

/-- The top-level statements of each public method: the six write methods
open with `this.mutex.Lock()`, `defer this.evict()`,
`defer this.mutex.Unlock()`; `Get`, `Gets` and `Delete` with
`this.mutex.Lock()`, `defer this.mutex.Unlock()`. -/
def method : Op → List Stmt
  | .set _ _ _ _ _ | .add _ _ _ _ _ | .replace _ _ _ _ _ | .append _ _ _ _ _
  | .prepend _ _ _ _ _ | .cas _ _ _ _ _ _ =>
    [.call .lock, .deferred .evict, .deferred .unlock, .call .work]
  | .get _ | .gets _ | .delete _ => [.call .lock, .deferred .unlock, .call .work]

/-- Each call of a run paired with whether the mutex is held when the call
starts; the first argument says whether it is held at the beginning. -/
def heldDuring : Bool → List Action → List (Action × Bool)
  | _, [] => []
  | held, a :: rest =>
    (a, held) :: heldDuring (match a with
      | .lock => true
      | .unlock => false
      | _ => held) rest

/-- The loop head of `evict` on entry, `i := this.l.Front()` followed by the
test `i != nil && this.length > this.maxLength`: the element the loop body
is about to run on, if any. -/
def evictHead (s : Cache) : Option Handle :=
  match listFront s.l with
  | none => none
  | some i => if s.length > s.maxLength then some i else none

/-- The cache holding `k` and `a`, 5 bytes each, with `max_length = 10`. -/
def twoEntries : Cache :=
  run (NewCache 10)
    [.set "k" [118, 118, 118, 118, 118] 1 0 0, .set "a" [120, 120, 120, 120, 120] 1 0 0]

/-- An interleaving of two calls on `twoEntries`.  The first caller runs the
body of `Set("b", …)` (10 bytes) under the lock, releases the lock, and
evaluates the loop head of its eviction pass, which selects the front
element.  The second caller then runs `Delete("a")` from `Lock` to `Unlock`.
The first caller resumes with the loop body on the element it selected;
`Remove` on an element that is no longer in the list changes nothing and
returns its value, and `Next` of that element is `nil`, which ends the
loop. -/
def interleaved : Cache :=
  let s1 := setBody twoEntries "b" [121, 121, 121, 121, 121, 121, 121, 121, 121, 121] 9 0 0
  match evictHead s1 with
  | none => s1
  | some i => evictBody (Delete s1 "a").1 i

/-- The end of a pass of the loop of `handleConn` (`server.go`, lines
108-116): the response is written and flushed, `ok` telling whether both
calls succeeded.  When they did, the response is cleared and the loop goes
on; when one failed, the handler returns at once and the response stays as
it is.  The result is the server state, the bytes sent, and whether the loop
goes on.  The `Server` value, and with it the response, is the one object
all connection handlers work on. -/
def writeReply (srv : Server) (ok : Bool) : Server × Bytes × Bool :=
  if ok = true then ({ srv with response := [] }, srv.response, true)
  else (srv, [], false)

/-! ## The cursor as a Go `int`

`getNextToken` above keeps the cursor in the natural numbers, where
`first += 1` never wraps.  The definitions below spell out the same method
with the arithmetic of Go's 64-bit `int`; the two agree for every cursor
below the largest `int`, and differ at the largest one, where the increment
wraps to the smallest `int`. -/

/-- Addition of Go `int`s (64 bits, two's complement): the sum wraps. -/
def intAdd (a b : Int) : Int := (a + b + 2 ^ 63) % 2 ^ 64 - 2 ^ 63

/-- Slice expression `b[lo:hi]` with `int` bounds; `none` stands for the
run-time panic raised when a bound is negative or out of range. -/
def sliceInt (b : Bytes) (lo hi : Int) : Option Bytes :=
  if 0 ≤ lo ∧ lo ≤ hi ∧ hi ≤ (b.length : Int) then some ((b.take hi.toNat).drop lo.toNat)
  else none

/-- Method `Parser.getNextToken` on the command `cmd` and the cursor
`position`, with `int` arithmetic: the new cursor and the token (`none` for
`nil`); the outer `none` stands for a panic. -/
def getNextTokenInt (cmd : Bytes) (position : Int) : Option (Int × Option Bytes) :=
  let first := intAdd position 1
  if first > (cmd.length : Int) then some (position, none)
  else
    (sliceInt cmd first cmd.length).bind fun rest =>
      let last : Int := match indexByte rest space with
        | none => (cmd.length : Int)
        | some i => intAdd (i : Int) first
      if first = last then some (position, none)
      else (sliceInt cmd first last).bind fun token => some (last, some token)

/-! ## Values as slices (`cache.go`)

In the definitions above an entry value is a byte string.  In the source it
is a slice, a window on a backing array, stored as the caller passed it, and
the built-in `append` of `Append` and `Prepend` writes into the backing array
when the capacity allows.  The definitions below keep the backing arrays, to
tell what an in-place write does to the bytes seen through the other
entries. -/

/-- A Go slice of bytes: its backing array, the index of its first element
in that array, its length and its capacity. -/
structure Slice where
  arr : Nat
  off : Nat
  len : Nat
  cap : Nat
deriving DecidableEq, Repr

/-- The backing arrays: the byte in each cell of each array.  A cell is only
ever reached through a slice, whose capacity bounds the cells it can
reach. -/
abbrev Mem := Nat → Nat → UInt8

/-- The bytes seen through a slice. -/
def readSlice (mem : Mem) (s : Slice) : Bytes :=
  (List.range s.len).map fun j => mem s.arr (s.off + j)

/-- The arrays after the bytes `x` are stored in array `a` from index `i`
on. -/
def writeAt (mem : Mem) (a i : Nat) (x : Bytes) : Mem :=
  fun b j => if b = a ∧ i ≤ j ∧ j < i + x.length then x.getD (j - i) 0 else mem b j

/-- Built-in `append(s, x...)`, giving the arrays and the resulting slice.
When `len(s) + len(x)` is within the capacity of `s`, the bytes go into the
backing array of `s` right after its last element and the result is `s` with
the new length.  Otherwise a new array is allocated and filled with the
elements of `s` followed by `x`; `fresh` is that array and `spare` the
capacity the runtime adds beyond what is needed. -/
def goAppend (mem : Mem) (fresh spare : Nat) (s : Slice) (x : Bytes) : Mem × Slice :=
  if s.len + x.length ≤ s.cap then
    (writeAt mem s.arr (s.off + s.len) x, { s with len := s.len + x.length })
  else
    (writeAt mem fresh 0 (readSlice mem s ++ x),
     ⟨fresh, 0, s.len + x.length, s.len + x.length + spare⟩)

/-- The Go struct `Entry` with its value as a slice. -/
structure SliceEntry where
  key : String
  value : Slice
  priority : Nat
  flags : Nat
  casid : Nat
deriving DecidableEq, Repr

/-- The cache with the values as slices: the fields of `Cache`, the backing
arrays, and the array the next allocation returns. -/
structure SliceCache where
  maxLength : Int
  l : List Handle
  m : String → Option Handle
  heap : Handle → SliceEntry
  next : Handle
  counter : Nat
  length : Int
  mem : Mem
  fresh : Nat

/-- Constructor `NewCache`, in a memory that holds the arrays of the
caller. -/
def NewSliceCache (maxLength : Int) (mem : Mem) (fresh : Nat) : SliceCache :=
  { maxLength := maxLength, l := [], m := fun _ => none,
    heap := fun _ => ⟨"", ⟨0, 0, 0, 0⟩, 0, 0, 0⟩, next := 0, counter := 0, length := 0,
    mem := mem, fresh := fresh }

/-- The cache as the definitions above see it: every value read through its
slice. -/
def view (s : SliceCache) : Cache :=
  { maxLength := s.maxLength, l := s.l, m := s.m,
    heap := fun h =>
      { key := (s.heap h).key, value := readSlice s.mem (s.heap h).value,
        priority := (s.heap h).priority, flags := (s.heap h).flags, casid := (s.heap h).casid }
    next := s.next, counter := s.counter, length := s.length }

/-- Assignment through an entry pointer. -/
def sliceStore (heap : Handle → SliceEntry) (e : Handle) (v : SliceEntry) :
    Handle → SliceEntry :=
  fun h => if h = e then v else heap h

/-- Statement `this.counter++`. -/
def bumpSlice (s : SliceCache) : SliceCache := { s with counter := (s.counter + 1) % u64 }

/-- The in-place branch of `Set`, `Replace` and `CheckAndStore`: the entry
takes the slice it is given; no byte is written. -/
def overwriteSlice (s : SliceCache) (e : Handle) (value : Slice) (priority : Nat) :
    SliceCache :=
  let entry := s.heap e
  { s with
    heap := sliceStore s.heap e
      { entry with value := value, priority := priority, casid := s.counter }
    length := s.length - (entry.value.len : Int) + (value.len : Int) }

/-- The insertion branch of `Set`: the new entry holds the slice it is
given. -/
def insertNewSlice (s : SliceCache) (key : String) (value : Slice) (priority flags : Nat) :
    SliceCache :=
  let e := s.next
  { s with
    heap := sliceStore s.heap e
      { key := key, value := value, priority := priority, flags := flags, casid := s.counter }
    l := match findPosition (view s).heap priority s.l none with
      | none => listPushFront s.l e
      | some position => listInsertAfter e position s.l
    m := mapStore s.m key e
    next := e + 1
    length := s.length + (value.len : Int) }

/-- Body of `Set` with the value as a slice. -/
def setBodySlice (s : SliceCache) (key : String) (value : Slice) (priority flags : Nat) :
    SliceCache :=
  match s.m key with
  | some element => bumpSlice (overwriteSlice s element value priority)
  | none => bumpSlice (insertNewSlice s key value priority flags)

/-- Body of `Replace` with the value as a slice. -/
def replaceBodySlice (s : SliceCache) (key : String) (value : Slice) (priority : Nat) :
    SliceCache × Bool :=
  match s.m key with
  | some element => (bumpSlice (overwriteSlice s element value priority), true)
  | none => (s, false)

/-- Body of `CheckAndStore` with the value as a slice. -/
def checkAndStoreBodySlice (s : SliceCache) (key : String) (value : Slice)
    (priority casid : Nat) : SliceCache × Option Handle × Bool :=
  match s.m key with
  | some element =>
    if (s.heap element).casid = casid then
      (bumpSlice (overwriteSlice s element value priority), some element, true)
    else (s, some element, false)
  | none => (s, none, false)

/-- The in-place branch of `Append` and `Prepend` once `append` has
returned the arrays and the slice `r`: the entry takes the slice, `length`
grows by `len(value)`.  The array the next allocation returns moves on
whether or not `append` allocated one. -/
def growSlice (s : SliceCache) (e : Handle) (r : Mem × Slice) (added : Slice)
    (priority : Nat) : SliceCache :=
  let entry := s.heap e
  { s with
    mem := r.1
    fresh := s.fresh + 1
    heap := sliceStore s.heap e
      { entry with value := r.2, priority := priority, casid := s.counter }
    length := s.length + (added.len : Int) }

/-- Body of `Append` with the values as slices:
`entry.value = append(entry.value, value...)`. -/
def appendBodySlice (s : SliceCache) (key : String) (value : Slice) (priority spare : Nat) :
    SliceCache × Bool :=
  match s.m key with
  | some element =>
    (bumpSlice (growSlice s element
      (goAppend s.mem s.fresh spare (s.heap element).value (readSlice s.mem value))
      value priority), true)
  | none => (s, false)

/-- Body of `Prepend` with the values as slices:
`entry.value = append(value, entry.value...)`. -/
def prependBodySlice (s : SliceCache) (key : String) (value : Slice) (priority spare : Nat) :
    SliceCache × Bool :=
  match s.m key with
  | some element =>
    (bumpSlice (growSlice s element
      (goAppend s.mem s.fresh spare value (readSlice s.mem (s.heap element).value))
      value priority), true)
  | none => (s, false)

/-- The cells `append(dst, x...)` writes when `x` has `n` bytes, as an array,
the index of the first cell and the index after the last one: the `n` cells
after the last element of `dst` when they are within its capacity, and
otherwise the first `len(dst) + n` cells of the new array `fresh`. -/
def appendCells (fresh : Nat) (dst : Slice) (n : Nat) : Nat × Nat × Nat :=
  if dst.len + n ≤ dst.cap then (dst.arr, dst.off + dst.len, dst.off + dst.len + n)
  else (fresh, 0, dst.len + n)

/-- The window `x` contains none of the cells `cells`. -/
def Clear (cells : Nat × Nat × Nat) (x : Slice) : Prop :=
  x.arr ≠ cells.1 ∨ x.off + x.len ≤ cells.2.1 ∨ cells.2.2 ≤ x.off

/-- What an in-place `Append` or `Prepend` with priority `p` through the
entry pointer `h` leaves behind, `b` being the state before the deferred
eviction pass, `s` the state at the call, and `cells` the cells `append`
writes: the list, the order of its keys and the map are as they were, the
entry carries priority `p` and the casid `s.counter` and keeps its key and
flags, every other entry keeps its priority, flags and casid, and it keeps
its value when its slice contains none of the cells written. -/
def KeepsPositionSlice (s : SliceCache) (h : Handle) (p : Nat) (cells : Nat × Nat × Nat)
    (b : SliceCache) : Prop :=
  b.l = s.l ∧ keys (view b) = keys (view s) ∧ b.m = s.m ∧
  (b.heap h).priority = p ∧ (b.heap h).casid = s.counter ∧
  (b.heap h).key = (s.heap h).key ∧ (b.heap h).flags = (s.heap h).flags ∧
  ∀ x, x ≠ h →
    (b.heap x).priority = (s.heap x).priority ∧ (b.heap x).flags = (s.heap x).flags ∧
    (b.heap x).casid = (s.heap x).casid ∧ (b.heap x).key = (s.heap x).key ∧
    (Clear cells (s.heap x).value →
      ((view b).heap x).value = ((view s).heap x).value)

/-- The memory of a caller holding a 16-byte array that starts with `abcde`
(array 0) and the 2-byte array `XY` (array 1). -/
def callerMem : Mem := fun a j =>
  if a = 0 then [97, 98, 99, 100, 101].getD j 0
  else if a = 1 then [88, 89].getD j 0
  else 0

/-- The cache after `Set("k", buf[:5], 1, 0, 0)` and `Set("j", buf[:3], 1, 0, 0)`
where `buf` is array 0 of `callerMem`, of capacity 16: the two values share
a backing array.  With the bound 100 neither call evicts. -/
def sharedValues : SliceCache :=
  setBodySlice (setBodySlice (NewSliceCache 100 callerMem 2) "k" ⟨0, 0, 5, 16⟩ 1 0)
    "j" ⟨0, 0, 3, 16⟩ 1 0

/-- The cache after `Set("k", buf[:5], 1, 0, 0)` and `Set("j", xy, 1, 0, 0)`
where `buf` and `xy` are the arrays 0 and 1 of `callerMem`: the two values
are on different backing arrays. -/
def apartValues : SliceCache :=
  setBodySlice (setBodySlice (NewSliceCache 100 callerMem 2) "k" ⟨0, 0, 5, 16⟩ 1 0)
    "j" ⟨1, 0, 2, 2⟩ 1 0

/-! ## Facts about the list operations -/

theorem listNext_of_not_mem (l : List Handle) (e : Handle) (h : e ∉ l) : listNext l e = none := by
  induction l with
  | nil => rfl
  | cons x xs ih =>
    simp only [List.mem_cons, not_or] at h
    have hx : x ≠ e := fun hxe => h.1 hxe.symm
    simp [listNext, hx, ih h.2]

theorem not_mem_listRemove (l : List Handle) (e : Handle) : e ∉ listRemove l e := by
  simp [listRemove]

theorem mem_listRemove {l : List Handle} {e x : Handle} :
    x ∈ listRemove l e ↔ x ∈ l ∧ x ≠ e := by
  simp [listRemove]

theorem listRemove_cons_self (i : Handle) (rest : List Handle) (h : i ∉ rest) :
    listRemove (i :: rest) i = rest := by
  simp only [listRemove, List.filter_cons, bne_self_eq_false, Bool.false_eq_true, if_false]
  rw [List.filter_eq_self]
  intro a ha
  simp only [bne_iff_ne, ne_eq]
  intro hai
  exact h (hai ▸ ha)

theorem listRemove_of_not_mem (l : List Handle) (e : Handle) (h : e ∉ l) : listRemove l e = l := by
  rw [listRemove, List.filter_eq_self]
  intro a ha
  simp only [bne_iff_ne, ne_eq]
  intro hae
  exact h (hae ▸ ha)

theorem listRemove_sublist (l : List Handle) (e : Handle) : (listRemove l e).Sublist l :=
  List.filter_sublist l

theorem listRemove_nodup {l : List Handle} (e : Handle) (h : l.Nodup) : (listRemove l e).Nodup :=
  h.sublist (listRemove_sublist l e)

theorem evictLoop_eq_evictStep (s : Cache) (fuel : Nat) :
    evictLoop (fuel + 2) (listFront s.l) s = evictStep s := by
  unfold evictStep listFront
  cases hl : s.l with
  | nil => simp [evictLoop]
  | cons i rest =>
    simp only [List.head?_cons, evictLoop]
    split
    · have hnone : listNext (evictBody s i).l i = none :=
        listNext_of_not_mem _ _ (by simpa [evictBody] using not_mem_listRemove s.l i)
      rw [hnone]
      simp [evictLoop]
    · rfl

theorem evict_eq_evictStep (s : Cache) : evict s = evictStep s := by
  unfold evict
  cases hl : s.l with
  | nil => simp [evictStep, hl, listFront, evictLoop]
  | cons i rest =>
    have := evictLoop_eq_evictStep s rest.length
    rw [hl] at this
    simpa [hl] using this

/-! ## The placement scan -/

theorem findPosition_eq (heap : Handle → Entry) (p : Nat) (l : List Handle)
    (acc : Option Handle) :
    findPosition heap p l acc =
      match (l.takeWhile (below heap p)).getLast? with
      | some x => some x
      | none => acc := by
  induction l generalizing acc with
  | nil => simp [findPosition]
  | cons i rest ih =>
    by_cases hc : (heap i).priority < p
    · have hb : below heap p i = true := by simp [below, hc]
      simp only [findPosition, hc, if_true, List.takeWhile_cons, hb]
      rw [ih]
      cases hr : rest.takeWhile (below heap p) with
      | nil => simp
      | cons y ys =>
        rw [List.getLast?_cons_cons, List.getLast?_eq_getLast _ (List.cons_ne_nil y ys)]
    · have hb : below heap p i = false := by simp [below, hc]
      simp [findPosition, hc, List.takeWhile_cons, hb]

theorem dropWhile_eq_self_of_takeWhile_nil {α : Type} (c : α → Bool) (l : List α)
    (h : l.takeWhile c = []) : l.dropWhile c = l := by
  have := List.takeWhile_append_dropWhile c l
  rw [h] at this
  simpa using this

theorem listInsertAfter_last_takeWhile (c : Handle → Bool) (e : Handle) (l : List Handle)
    (hnd : l.Nodup) (x : Handle) (hx : (l.takeWhile c).getLast? = some x) :
    listInsertAfter e x l = l.takeWhile c ++ e :: l.dropWhile c := by
  induction l with
  | nil => simp at hx
  | cons i rest ih =>
    by_cases hc : c i = true
    · simp only [List.takeWhile_cons, hc, if_true, List.dropWhile_cons] at hx ⊢
      cases hr : rest.takeWhile c with
      | nil =>
        rw [hr] at hx
        simp only [List.getLast?_singleton, Option.some.injEq] at hx
        subst hx
        simp [listInsertAfter, dropWhile_eq_self_of_takeWhile_nil c rest hr]
      | cons y ys =>
        rw [hr] at hx
        rw [List.getLast?_cons_cons] at hx
        rw [← hr] at hx
        have hxmem : x ∈ rest := by
          have h1 : x ∈ rest.takeWhile c := List.mem_of_getLast?_eq_some hx
          exact (List.takeWhile_sublist c).subset h1
        have hix : i ≠ x := by
          intro hix
          subst hix
          exact (List.nodup_cons.mp hnd).1 hxmem
        simp only [listInsertAfter, hix, if_false]
        rw [ih (List.nodup_cons.mp hnd).2 hx, hr]
        simp
    · simp only [List.takeWhile_cons, hc] at hx
      simp at hx

theorem place_eq (heap : Handle → Entry) (p : Nat) (e : Handle) (l : List Handle)
    (hnd : l.Nodup) :
    place heap p e l = l.takeWhile (below heap p) ++ e :: l.dropWhile (below heap p) := by
  unfold place
  rw [findPosition_eq]
  cases hx : (l.takeWhile (below heap p)).getLast? with
  | none =>
    have hnil : l.takeWhile (below heap p) = [] := List.getLast?_eq_none_iff.mp hx
    simp [listPushFront, hnil, dropWhile_eq_self_of_takeWhile_nil _ l hnil]
  | some x =>
    simp only
    exact listInsertAfter_last_takeWhile _ e l hnd x hx

theorem place_perm (heap : Handle → Entry) (p : Nat) (e : Handle) (l : List Handle)
    (hnd : l.Nodup) : (place heap p e l).Perm (e :: l) := by
  rw [place_eq heap p e l hnd]
  have h1 : (l.takeWhile (below heap p) ++ e :: l.dropWhile (below heap p)).Perm
      (e :: (l.takeWhile (below heap p) ++ l.dropWhile (below heap p))) :=
    List.perm_middle
  rwa [List.takeWhile_append_dropWhile] at h1

/-! ## Sums over the list -/

theorem sum_map_congr_off (l : List Handle) (h : Handle) (f g : Handle → Int)
    (hagree : ∀ x, x ≠ h → g x = f x) (hl : h ∉ l) : (l.map g).sum = (l.map f).sum := by
  congr 1
  apply List.map_congr_left
  intro x hx
  exact hagree x (fun hxh => hl (hxh ▸ hx))

theorem sum_map_update (l : List Handle) (h : Handle) (f g : Handle → Int)
    (hagree : ∀ x, x ≠ h → g x = f x) (hnd : l.Nodup) (hl : h ∈ l) :
    (l.map g).sum = (l.map f).sum - f h + g h := by
  induction l with
  | nil => simp at hl
  | cons x xs ih =>
    have hx := List.nodup_cons.mp hnd
    by_cases hxh : x = h
    · subst hxh
      simp only [List.map_cons, List.sum_cons]
      rw [sum_map_congr_off xs x f g hagree hx.1]
      ring
    · have hmem : h ∈ xs := by
        rcases List.mem_cons.mp hl with h1 | h1
        · exact absurd h1.symm hxh
        · exact h1
      simp only [List.map_cons, List.sum_cons]
      rw [ih hx.2 hmem, hagree x hxh]
      ring

theorem sum_map_listRemove (l : List Handle) (h : Handle) (f : Handle → Int)
    (hnd : l.Nodup) (hl : h ∈ l) :
    ((listRemove l h).map f).sum = (l.map f).sum - f h := by
  induction l with
  | nil => simp at hl
  | cons x xs ih =>
    have hx := List.nodup_cons.mp hnd
    by_cases hxh : x = h
    · subst hxh
      rw [listRemove_cons_self x xs hx.1]
      simp
    · have hmem : h ∈ xs := by
        rcases List.mem_cons.mp hl with h1 | h1
        · exact absurd h1.symm hxh
        · exact h1
      have hcons : listRemove (x :: xs) h = x :: listRemove xs h := by
        simp [listRemove, List.filter_cons, hxh]
      rw [hcons]
      simp only [List.map_cons, List.sum_cons]
      rw [ih hx.2 hmem]
      ring

/-! ## The representation invariant -/

theorem inv_NewCache (maxLength : Int) : Inv (NewCache maxLength) := by
  constructor <;> simp [NewCache, valueSum]

theorem inv_bump {s : Cache} (hs : Inv s) : Inv (bump s) :=
  ⟨hs.nodup, hs.fresh, hs.mapIn, hs.listIn, hs.size⟩

/-- Storing through an entry pointer a new entry that keeps the key. -/
theorem inv_heapStore {s : Cache} (hs : Inv s) (e : Handle) (he : e ∈ s.l) (v : Entry)
    (hkey : v.key = (s.heap e).key) (len : Int)
    (hlen : len = s.length - ((s.heap e).value.length : Int) + (v.value.length : Int)) :
    Inv { s with heap := heapStore s.heap e v, length := len } := by
  have hk : ∀ h, (heapStore s.heap e v h).key = (s.heap h).key := by
    intro h
    unfold heapStore
    split
    · next heq => rw [heq, hkey]
    · rfl
  refine ⟨hs.nodup, hs.fresh, ?_, ?_, ?_⟩
  · intro k h hm
    exact ⟨(hs.mapIn k h hm).1, by simpa [hk] using (hs.mapIn k h hm).2⟩
  · intro h hh
    simpa [hk] using hs.listIn h hh
  · simp only [valueSum]
    rw [sum_map_update s.l e (fun h => ((s.heap h).value.length : Int))
      (fun h => ((heapStore s.heap e v h).value.length : Int)) ?_ hs.nodup he]
    · have := hs.size
      simp only [valueSum] at this
      simp only [heapStore, if_true]
      rw [hlen, this]
    · intro x hx
      simp [heapStore, hx]

theorem inv_overwrite {s : Cache} (hs : Inv s) (e : Handle) (he : e ∈ s.l) (value : Bytes)
    (priority : Nat) : Inv (overwrite s e value priority) :=
  inv_heapStore hs e he
    { s.heap e with value := value, priority := priority, casid := s.counter } rfl _ rfl

theorem inv_grow_append {s : Cache} (hs : Inv s) (e : Handle) (he : e ∈ s.l) (value : Bytes)
    (priority : Nat) : Inv (grow s e ((s.heap e).value ++ value) value priority) := by
  apply inv_heapStore hs e he
    { s.heap e with value := (s.heap e).value ++ value, priority := priority,
                    casid := s.counter } rfl
  simp only [List.length_append, Nat.cast_add]
  ring

theorem inv_grow_prepend {s : Cache} (hs : Inv s) (e : Handle) (he : e ∈ s.l) (value : Bytes)
    (priority : Nat) : Inv (grow s e (value ++ (s.heap e).value) value priority) := by
  apply inv_heapStore hs e he
    { s.heap e with value := value ++ (s.heap e).value, priority := priority,
                    casid := s.counter } rfl
  simp only [List.length_append, Nat.cast_add]
  ring

theorem insertNew_l (s : Cache) (key : String) (value : Bytes) (priority flags : Nat) :
    (insertNew s key value priority flags).l = place s.heap priority s.next s.l := by
  unfold insertNew place
  cases findPosition s.heap priority s.l none <;> rfl

theorem inv_insertNew {s : Cache} (hs : Inv s) (key : String) (hk : s.m key = none)
    (value : Bytes) (priority flags : Nat) : Inv (insertNew s key value priority flags) := by
  have hperm := place_perm s.heap priority s.next s.l hs.nodup
  have hnew : s.next ∉ s.l := fun h => Nat.lt_irrefl _ (hs.fresh _ h)
  have hl := insertNew_l s key value priority flags
  have hheap : ∀ h ∈ s.l, (insertNew s key value priority flags).heap h = s.heap h := by
    intro h hh
    have : h ≠ s.next := fun heq => hnew (heq ▸ hh)
    simp [insertNew, heapStore, this]
  have hheapNew : (insertNew s key value priority flags).heap s.next =
      { key := key, value := value, priority := priority, flags := flags, casid := s.counter } := by
    simp [insertNew, heapStore]
  have hm : (insertNew s key value priority flags).m = mapStore s.m key s.next := rfl
  have hmem : ∀ h, h ∈ (insertNew s key value priority flags).l ↔ h = s.next ∨ h ∈ s.l := by
    intro h
    rw [hl, hperm.mem_iff, List.mem_cons]
  refine ⟨?_, ?_, ?_, ?_, ?_⟩
  · rw [hl, hperm.nodup_iff]
    exact List.nodup_cons.mpr ⟨hnew, hs.nodup⟩
  · intro h hh
    have hn : (insertNew s key value priority flags).next = s.next + 1 := rfl
    rw [hn]
    rcases (hmem h).mp hh with h1 | h1
    · rw [h1]
      exact Nat.lt_succ_self _
    · exact Nat.lt_succ_of_lt (hs.fresh h h1)
  · intro k h hmk
    rw [hm] at hmk
    unfold mapStore at hmk
    split at hmk
    · next hkk =>
      cases hmk
      exact ⟨(hmem _).mpr (Or.inl rfl), by rw [hheapNew, hkk]⟩
    · have := hs.mapIn k h hmk
      exact ⟨(hmem _).mpr (Or.inr this.1), by rw [hheap h this.1]; exact this.2⟩
  · intro h hh
    rw [hm]
    unfold mapStore
    rcases (hmem h).mp hh with h1 | h1
    · subst h1
      simp [hheapNew]
    · rw [hheap h h1]
      have hne : (s.heap h).key ≠ key := by
        intro heq
        have := hs.listIn h h1
        rw [heq, hk] at this
        cases this
      simp [hne, hs.listIn h h1]
  · simp only [valueSum]
    rw [hl, (hperm.map _).sum_eq]
    simp only [List.map_cons, List.sum_cons]
    rw [hheapNew]
    have hc : (s.l.map fun h => (((insertNew s key value priority flags).heap h).value.length : Int))
        = s.l.map fun h => (((s.heap h).value.length : Int)) :=
      List.map_congr_left (fun h hh => by rw [hheap h hh])
    rw [hc]
    have := hs.size
    simp only [valueSum] at this
    simp only [insertNew]
    rw [this]
    ring

theorem inv_evictBody {s : Cache} (hs : Inv s) (i : Handle) (hi : i ∈ s.l) :
    Inv (evictBody s i) := by
  refine ⟨listRemove_nodup i hs.nodup, ?_, ?_, ?_, ?_⟩
  · intro h hh
    exact hs.fresh h (mem_listRemove.mp hh).1
  · intro k h hm
    simp only [evictBody, mapDelete] at hm
    split at hm
    · cases hm
    · next hne =>
      have := hs.mapIn k h hm
      refine ⟨mem_listRemove.mpr ⟨this.1, ?_⟩, this.2⟩
      intro heq
      apply hne
      rw [← this.2, heq]
  · intro h hh
    have hmem := mem_listRemove.mp hh
    simp only [evictBody, mapDelete]
    have hne : (s.heap h).key ≠ (s.heap i).key := by
      intro heq
      have h1 := hs.listIn h hmem.1
      have h2 := hs.listIn i hi
      rw [heq, h2] at h1
      exact hmem.2 (Option.some.inj h1).symm
    simp [hne, hs.listIn h hmem.1]
  · simp only [valueSum, evictBody]
    rw [sum_map_listRemove s.l i _ hs.nodup hi]
    have := hs.size
    simp only [valueSum] at this
    rw [this]

theorem inv_evict {s : Cache} (hs : Inv s) : Inv (evict s) := by
  rw [evict_eq_evictStep]
  unfold evictStep
  split
  · exact hs
  · next i rest hl =>
    split
    · exact inv_evictBody hs i (by simp [hl])
    · exact hs

theorem inv_setBody {s : Cache} (hs : Inv s) (k : String) (v : Bytes) (p f e : Nat) :
    Inv (setBody s k v p f e) := by
  unfold setBody
  split
  · next h hm => exact inv_bump (inv_overwrite hs h (hs.mapIn k h hm).1 v p)
  · next hm => exact inv_bump (inv_insertNew hs k hm v p f)

theorem inv_addBody {s : Cache} (hs : Inv s) (k : String) (v : Bytes) (p f e : Nat) :
    Inv (addBody s k v p f e).1 := by
  unfold addBody
  split
  · exact hs
  · next hm => exact inv_bump (inv_insertNew hs k hm v p f)

theorem inv_replaceBody {s : Cache} (hs : Inv s) (k : String) (v : Bytes) (p f e : Nat) :
    Inv (replaceBody s k v p f e).1 := by
  unfold replaceBody
  split
  · next h hm => exact inv_bump (inv_overwrite hs h (hs.mapIn k h hm).1 v p)
  · exact hs

theorem inv_appendBody {s : Cache} (hs : Inv s) (k : String) (v : Bytes) (p f e : Nat) :
    Inv (appendBody s k v p f e).1 := by
  unfold appendBody
  split
  · next h hm => exact inv_bump (inv_grow_append hs h (hs.mapIn k h hm).1 v p)
  · exact hs

theorem inv_prependBody {s : Cache} (hs : Inv s) (k : String) (v : Bytes) (p f e : Nat) :
    Inv (prependBody s k v p f e).1 := by
  unfold prependBody
  split
  · next h hm => exact inv_bump (inv_grow_prepend hs h (hs.mapIn k h hm).1 v p)
  · exact hs

theorem inv_checkAndStoreBody {s : Cache} (hs : Inv s) (k : String) (v : Bytes)
    (p f e c : Nat) : Inv (checkAndStoreBody s k v p f e c).1 := by
  unfold checkAndStoreBody
  split
  · next h hm =>
    split
    · exact inv_bump (inv_overwrite hs h (hs.mapIn k h hm).1 v p)
    · exact hs
  · exact hs

theorem Delete_eq_evictBody {s : Cache} (hs : Inv s) (k : String) (h : Handle)
    (hm : s.m k = some h) : (Delete s k).1 = evictBody s h := by
  simp only [Delete, hm, evictBody, (hs.mapIn k h hm).2]

theorem inv_Delete {s : Cache} (hs : Inv s) (k : String) : Inv (Delete s k).1 := by
  cases hm : s.m k with
  | none => simpa [Delete, hm] using hs
  | some h =>
    rw [Delete_eq_evictBody hs k h hm]
    exact inv_evictBody hs h (hs.mapIn k h hm).1

theorem inv_step {s : Cache} (hs : Inv s) (op : Op) : Inv (step s op) := by
  cases op with
  | set k v p f e => exact inv_evict (inv_setBody hs k v p f e)
  | add k v p f e => exact inv_evict (inv_addBody hs k v p f e)
  | replace k v p f e => exact inv_evict (inv_replaceBody hs k v p f e)
  | append k v p f e => exact inv_evict (inv_appendBody hs k v p f e)
  | prepend k v p f e => exact inv_evict (inv_prependBody hs k v p f e)
  | cas k v p f e c => exact inv_evict (inv_checkAndStoreBody hs k v p f e c)
  | get k => exact hs
  | gets k => exact hs
  | delete k => exact inv_Delete hs k

theorem inv_run {s : Cache} (hs : Inv s) (ops : List Op) : Inv (run s ops) := by
  induction ops generalizing s with
  | nil => exact hs
  | cons op ops ih => exact ih (inv_step hs op)

theorem run_append (s : Cache) (ops₁ ops₂ : List Op) :
    run s (ops₁ ++ ops₂) = run (run s ops₁) ops₂ := by
  simp [run, List.foldl_append]

/-! ## C3: size accounting -/

/-- C3 (size accounting): after every sequence of public operations applied
to a cache built by `NewCache`, the scalar `length` equals the sum of
`len(value)` over the entries currently linked in the list. -/
theorem length_eq_valueSum (maxLength : Int) (ops : List Op) :
    (run (NewCache maxLength) ops).length = valueSum (run (NewCache maxLength) ops) :=
  (inv_run (inv_NewCache maxLength) ops).size

/-! ## C1: ordering -/

theorem dropWhile_below_ge (heap : Handle → Entry) (p : Nat) (l : List Handle)
    (hs : l.Pairwise (fun a b => (heap a).priority ≤ (heap b).priority)) :
    ∀ b ∈ l.dropWhile (below heap p), p ≤ (heap b).priority := by
  induction l with
  | nil => simp
  | cons x xs ih =>
    have hx := List.pairwise_cons.mp hs
    by_cases hc : (heap x).priority < p
    · have hb : below heap p x = true := by simp [below, hc]
      simpa [List.dropWhile_cons, hb] using ih hx.2
    · have hb : below heap p x = false := by simp [below, hc]
      simp only [List.dropWhile_cons, hb]
      intro b hbm
      rcases List.mem_cons.mp hbm with h1 | h1
      · subst h1
        exact Nat.le_of_not_lt hc
      · exact Nat.le_trans (Nat.le_of_not_lt hc) (hx.1 b h1)

theorem takeWhile_below_lt (heap : Handle → Entry) (p : Nat) (l : List Handle) :
    ∀ a ∈ l.takeWhile (below heap p), (heap a).priority < p := by
  intro a ha
  have := List.mem_takeWhile_imp ha
  simpa [below] using this

theorem sorted_place (heap heap2 : Handle → Entry) (p : Nat) (e : Handle) (l : List Handle)
    (hagree : ∀ x ∈ l, (heap2 x).priority = (heap x).priority)
    (he : (heap2 e).priority = p)
    (hs : l.Pairwise (fun a b => (heap a).priority ≤ (heap b).priority)) :
    (l.takeWhile (below heap p) ++ e :: l.dropWhile (below heap p)).Pairwise
      (fun a b => (heap2 a).priority ≤ (heap2 b).priority) := by
  have htw : ∀ a ∈ l.takeWhile (below heap p), a ∈ l :=
    fun a ha => (List.takeWhile_sublist _).subset ha
  have hdw : ∀ a ∈ l.dropWhile (below heap p), a ∈ l :=
    fun a ha => (List.dropWhile_sublist _).subset ha
  have hs2 : l.Pairwise (fun a b => (heap2 a).priority ≤ (heap2 b).priority) := by
    refine hs.imp_of_mem ?_
    intro a b ha hb hab
    rw [hagree a ha, hagree b hb]
    exact hab
  rw [List.pairwise_append]
  refine ⟨hs2.sublist (List.takeWhile_sublist _), ?_, ?_⟩
  · rw [List.pairwise_cons]
    refine ⟨?_, hs2.sublist (List.dropWhile_sublist _)⟩
    intro b hb
    rw [he, hagree b (hdw b hb)]
    exact dropWhile_below_ge heap p l hs b hb
  · intro a ha b hb
    have h1 : (heap2 a).priority < p := by
      rw [hagree a (htw a ha)]
      exact takeWhile_below_lt heap p l a ha
    rcases List.mem_cons.mp hb with h2 | h2
    · rw [h2, he]
      exact Nat.le_of_lt h1
    · have h3 := dropWhile_below_ge heap p l hs b h2
      rw [hagree b (hdw b h2)]
      exact Nat.le_of_lt (Nat.lt_of_lt_of_le h1 h3)

theorem ordered_iff (s : Cache) : Ordered s ↔ List.Sorted (· ≤ ·) (priorities s) := by
  simp [Ordered, priorities, List.Sorted, List.pairwise_map]

theorem ordered_insertNew {s : Cache} (hs : Inv s) (ho : Ordered s) (key : String)
    (value : Bytes) (priority flags : Nat) : Ordered (insertNew s key value priority flags) := by
  unfold Ordered
  rw [insertNew_l, place_eq _ _ _ _ hs.nodup]
  have hnew : s.next ∉ s.l := fun h => Nat.lt_irrefl _ (hs.fresh _ h)
  apply sorted_place s.heap _ priority s.next s.l ?_ ?_ ho
  · intro x hx
    have : x ≠ s.next := fun heq => hnew (heq ▸ hx)
    simp [insertNew, heapStore, this]
  · simp [insertNew, heapStore]

theorem ordered_heapStore {s : Cache} (ho : Ordered s) (e : Handle) (v : Entry)
    (hp : v.priority = (s.heap e).priority) (len : Int) :
    Ordered { s with heap := heapStore s.heap e v, length := len } := by
  have hk : ∀ h, (heapStore s.heap e v h).priority = (s.heap h).priority := by
    intro h
    unfold heapStore
    split
    · next heq => rw [heq, hp]
    · rfl
  unfold Ordered
  simpa [hk] using ho

theorem ordered_overwrite {s : Cache} (ho : Ordered s) (e : Handle) (v : Bytes) (p : Nat)
    (hp : (s.heap e).priority = p) : Ordered (bump (overwrite s e v p)) := by
  have h : Ordered (overwrite s e v p) :=
    ordered_heapStore ho e
      { s.heap e with value := v, priority := p, casid := s.counter } hp.symm
      (s.length - ((s.heap e).value.length : Int) + (v.length : Int))
  exact h

theorem ordered_grow {s : Cache} (ho : Ordered s) (e : Handle) (v added : Bytes) (p : Nat)
    (hp : (s.heap e).priority = p) : Ordered (bump (grow s e v added p)) := by
  have h : Ordered (grow s e v added p) :=
    ordered_heapStore ho e
      { s.heap e with value := v, priority := p, casid := s.counter } hp.symm
      (s.length + (added.length : Int))
  exact h

theorem ordered_evict {s : Cache} (ho : Ordered s) : Ordered (evict s) := by
  rw [evict_eq_evictStep]
  unfold evictStep
  split
  · exact ho
  · split
    · exact List.Pairwise.sublist (listRemove_sublist _ _) ho
    · exact ho

theorem ordered_Delete {s : Cache} (ho : Ordered s) (k : String) : Ordered (Delete s k).1 := by
  unfold Delete
  split
  · exact List.Pairwise.sublist (listRemove_sublist _ _) ho
  · exact ho

theorem ordered_step {s : Cache} (hs : Inv s) (ho : Ordered s) (op : Op)
    (hk : keepsPriority s op = true) : Ordered (step s op) := by
  cases op with
  | set k v p f e =>
    apply ordered_evict
    simp only [keepsPriority] at hk
    unfold setBody
    cases hm : s.m k with
    | none => exact ordered_insertNew hs ho k v p f
    | some h =>
      simp only [hm, beq_iff_eq] at hk
      exact ordered_overwrite ho h v p hk
  | add k v p f e =>
    apply ordered_evict
    unfold addBody
    cases hm : s.m k with
    | none => exact ordered_insertNew hs ho k v p f
    | some h => exact ho
  | replace k v p f e =>
    apply ordered_evict
    simp only [keepsPriority] at hk
    unfold replaceBody
    cases hm : s.m k with
    | none => exact ho
    | some h =>
      simp only [hm, beq_iff_eq] at hk
      exact ordered_overwrite ho h v p hk
  | append k v p f e =>
    apply ordered_evict
    simp only [keepsPriority] at hk
    unfold appendBody
    cases hm : s.m k with
    | none => exact ho
    | some h =>
      simp only [hm, beq_iff_eq] at hk
      exact ordered_grow ho h _ v p hk
  | prepend k v p f e =>
    apply ordered_evict
    simp only [keepsPriority] at hk
    unfold prependBody
    cases hm : s.m k with
    | none => exact ho
    | some h =>
      simp only [hm, beq_iff_eq] at hk
      exact ordered_grow ho h _ v p hk
  | cas k v p f e c =>
    apply ordered_evict
    simp only [keepsPriority] at hk
    unfold checkAndStoreBody
    cases hm : s.m k with
    | none => exact ho
    | some h =>
      simp only [hm, Bool.or_eq_true, bne_iff_ne, ne_eq, beq_iff_eq] at hk
      by_cases hc : (s.heap h).casid = c
      · simp only [hc, if_true]
        rcases hk with hk | hk
        · exact absurd hc hk
        · exact ordered_overwrite ho h v p hk
      · simp only [hc, if_false]
        exact ho
  | get k => exact ho
  | gets k => exact ho
  | delete k => exact ordered_Delete ho k

theorem ordered_run {s : Cache} (hs : Inv s) (ho : Ordered s) (ops : List Op)
    (hk : runKeepsPriority s ops = true) : Ordered (run s ops) := by
  induction ops generalizing s with
  | nil => exact ho
  | cons op ops ih =>
    simp only [runKeepsPriority, Bool.and_eq_true] at hk
    exact ih (inv_step hs op) (ordered_step hs ho op hk.1) hk.2

/-- C1 (ordering), as the code has it: for every cache built by `NewCache`
and every sequence of public operations in which each in-place write to a key
already present passes the priority that entry already has, iterating the
list from front to back yields non-decreasing priorities. -/
theorem ordering_when_priorities_kept (maxLength : Int) (ops : List Op)
    (hk : runKeepsPriority (NewCache maxLength) ops = true) :
    List.Sorted (· ≤ ·) (priorities (run (NewCache maxLength) ops)) :=
  (ordered_iff _).mp
    (ordered_run (inv_NewCache maxLength) (by simp [Ordered, NewCache]) ops hk)

/-- C1 fails as stated: `Replace` writes the new priority in place without
moving the entry, so after `Set a p=1; Set b p=5; Replace a p=9` the list
reads `[a(9), b(5)]`. -/
theorem ordering_counterexample :
    priorities (run (NewCache 100)
      [.set "a" [120] 1 0 0, .set "b" [121] 5 0 0, .replace "a" [122] 9 0 0]) = [9, 5] ∧
    ¬ List.Sorted (· ≤ ·) (priorities (run (NewCache 100)
      [.set "a" [120] 1 0 0, .set "b" [121] 5 0 0, .replace "a" [122] 9 0 0])) := by
  have h : priorities (run (NewCache 100)
      [.set "a" [120] 1 0 0, .set "b" [121] 5 0 0, .replace "a" [122] 9 0 0]) = [9, 5] := by
    decide
  refine ⟨h, ?_⟩
  rw [h]
  decide

/-- C1, instance of the ordering theorem on a sequence with insertions at three
priorities, an in-place `Set`, a `Delete` and an eviction-free `Append`. -/
theorem ordering_when_priorities_kept_witness :
    runKeepsPriority (NewCache 100)
      [.set "a" [1, 1] 5 0 0, .set "b" [2] 3 0 0, .add "c" [3] 5 0 0, .set "a" [4] 5 7 0,
       .append "b" [9] 3 0 0, .delete "c"] = true ∧
    List.Sorted (· ≤ ·) (priorities (run (NewCache 100)
      [.set "a" [1, 1] 5 0 0, .set "b" [2] 3 0 0, .add "c" [3] 5 0 0, .set "a" [4] 5 7 0,
       .append "b" [9] 3 0 0, .delete "c"])) :=
  ⟨by decide, ordering_when_priorities_kept 100 _ (by decide)⟩

/-! ## C2: bounded size -/

/-- C2 (bounded size) evaluated on the code: with `max_length = 10`, three
`Set`s of values of 5, 5 and 10 bytes leave `length = 15`, because the
eviction pass of the third `Set` removes only the front entry. -/
theorem bounded_size_violated :
    (run (NewCache 10)
      [.set "a" [120, 120, 120, 120, 120] 1 0 0,
       .set "b" [121, 121, 121, 121, 121] 1 0 0,
       .set "c" [122, 122, 122, 122, 122, 122, 122, 122, 122, 122] 9 0 0]).length = 15 ∧
    keys (run (NewCache 10)
      [.set "a" [120, 120, 120, 120, 120] 1 0 0,
       .set "b" [121, 121, 121, 121, 121] 1 0 0,
       .set "c" [122, 122, 122, 122, 122, 122, 122, 122, 122, 122] 9 0 0]) = ["a", "c"] ∧
    ¬ (run (NewCache 10)
      [.set "a" [120, 120, 120, 120, 120] 1 0 0,
       .set "b" [121, 121, 121, 121, 121] 1 0 0,
       .set "c" [122, 122, 122, 122, 122, 122, 122, 122, 122, 122] 9 0 0]).length ≤ 10 := by
  decide

/-! ## C4: `Set` then `Get` -/

theorem evictStep_heap (s : Cache) : (evictStep s).heap = s.heap := by
  unfold evictStep
  split
  · rfl
  · split <;> rfl

theorem evict_heap (s : Cache) : (evict s).heap = s.heap := by
  rw [evict_eq_evictStep, evictStep_heap]

/-- The eviction pass leaves the map entry of `k` alone when the state is
within its bound or the front element does not carry key `k`. -/
theorem evict_m_of_kept (s : Cache) (k : String)
    (hkeep : s.length ≤ s.maxLength ∨ ∀ i, listFront s.l = some i → (s.heap i).key ≠ k) :
    (evict s).m k = s.m k := by
  rw [evict_eq_evictStep]
  unfold evictStep
  split
  · rfl
  · next i rest hl =>
    split
    · next hgt =>
      rcases hkeep with h1 | h1
      · exact absurd hgt (not_lt.mpr h1)
      · have hne := h1 i (by simp [listFront, hl])
        simp only [evictBody, mapDelete]
        rw [if_neg (fun h => hne h.symm)]
    · rfl

theorem setBody_stores (s : Cache) (k : String) (v : Bytes) (p f e : Nat) :
    ∃ h, (setBody s k v p f e).m k = some h ∧ ((setBody s k v p f e).heap h).value = v := by
  unfold setBody
  cases hm : s.m k with
  | some h => exact ⟨h, hm, by simp [bump, overwrite, heapStore]⟩
  | none => exact ⟨s.next, by simp [bump, insertNew, mapStore], by simp [bump, insertNew, heapStore]⟩

/-- C4 (round trip), as the code has it: `Set(k, v, …)` followed by `Get(k)`
returns a hit with value `v` and size `len(v)` provided the eviction pass of
that `Set` does not remove the entry of `k` itself, that is, provided the
length after the write is at most `max_length` or the front entry of the
list does not carry key `k`. -/
theorem Set_then_Get (s : Cache) (k : String) (v : Bytes) (p f e : Nat)
    (hkeep : (setBody s k v p f e).length ≤ (setBody s k v p f e).maxLength ∨
      ∀ i, listFront (setBody s k v p f e).l = some i →
        ((setBody s k v p f e).heap i).key ≠ k) :
    (Get (Set s k v p f e) k).ok = true ∧ (Get (Set s k v p f e) k).value = v ∧
      (Get (Set s k v p f e) k).size = v.length := by
  obtain ⟨h, hm, hv⟩ := setBody_stores s k v p f e
  have hm2 : (Set s k v p f e).m k = some h := by
    unfold Set
    rw [evict_m_of_kept _ k hkeep, hm]
  have hh : (Set s k v p f e).heap = (setBody s k v p f e).heap := evict_heap _
  simp only [Get, hm2, hh, hv, and_self]

/-- C4 fails as stated: with `max_length = 3`, `Set(k, 5 bytes)` is followed
by an eviction pass that removes the entry just written, so `Get(k)` misses. -/
theorem Set_then_Get_counterexample :
    (Get (Set (NewCache 3) "k" [120, 120, 120, 120, 120] 1 0 0) "k").ok = false ∧
    (Get (Set (NewCache 3) "k" [120, 120, 120, 120, 120] 1 0 0) "k").value ≠
      [120, 120, 120, 120, 120] := by
  decide

/-- C4, instance of the round trip on the sequence of the repository test:
`Set("foo", "bar")` on a fresh cache, then `Get("foo")`. -/
theorem Set_then_Get_witness :
    (Get (Set (NewCache 100) "foo" [98, 97, 114] 0 0 0) "foo").ok = true ∧
    (Get (Set (NewCache 100) "foo" [98, 97, 114] 0 0 0) "foo").value = [98, 97, 114] ∧
    (Get (Set (NewCache 100) "foo" [98, 97, 114] 0 0 0) "foo").size = 3 :=
  Set_then_Get (NewCache 100) "foo" [98, 97, 114] 0 0 0 (Or.inl (by decide))

/-! ## C6: result of `CheckAndStore` -/

/-- C6 (result classification): `CheckAndStore(k, v, p, f, e, c)` returns
`(nil, false)` exactly when `k` is absent, `(entry, false)` exactly when `k`
is present with a casid different from `c`, and `(entry, true)` exactly when
`k` is present with casid `c`; in the last case the value of the returned
entry is `v` (with priority `p` and the casid the counter had at the call).
In particular a `CheckAndStore` carrying the casid that `Gets(k)` reports in
the same state stores. -/
theorem CheckAndStore_classification (s : Cache) (k : String) (v : Bytes) (p f e c : Nat) :
    ((CheckAndStore s k v p f e c).2 = (none, false) ↔ s.m k = none) ∧
    ((∃ h, (CheckAndStore s k v p f e c).2 = (some h, false)) ↔
      ∃ h, s.m k = some h ∧ (s.heap h).casid ≠ c) ∧
    ((∃ h, (CheckAndStore s k v p f e c).2 = (some h, true)) ↔
      ∃ h, s.m k = some h ∧ (s.heap h).casid = c) ∧
    (∀ h, (CheckAndStore s k v p f e c).2 = (some h, true) →
      s.m k = some h ∧
      ((CheckAndStore s k v p f e c).1.heap h).value = v ∧
      ((CheckAndStore s k v p f e c).1.heap h).priority = p ∧
      ((CheckAndStore s k v p f e c).1.heap h).casid = s.counter ∧
      ((CheckAndStore s k v p f e c).1.heap h).flags = (s.heap h).flags) ∧
    ((Gets s k).ok = true ∧ (Gets s k).casid = c →
      ∃ h, (CheckAndStore s k v p f e c).2 = (some h, true)) := by
  simp only [CheckAndStore, evict_heap]
  cases hm : s.m k with
  | none => simp [checkAndStoreBody, hm, Gets]
  | some h0 =>
    by_cases hc : (s.heap h0).casid = c
    · simp [checkAndStoreBody, hm, Gets, hc, bump, overwrite, heapStore]
    · simp [checkAndStoreBody, hm, Gets, hc]

/-! ## C10: `Delete` -/

theorem length_listRemove_of_mem {l : List Handle} {x : Handle} (hl : l.Nodup) (hx : x ∈ l) :
    (listRemove l x).length + 1 = l.length := by
  induction l with
  | nil => exact absurd hx (List.not_mem_nil x)
  | cons a as ih =>
    have hnd := List.nodup_cons.mp hl
    by_cases ha : a = x
    · subst ha
      rw [listRemove_cons_self a as hnd.1]
      rfl
    · have hxas : x ∈ as := by
        rcases List.mem_cons.mp hx with h | h
        · exact absurd h.symm ha
        · exact h
      have hstep : listRemove (a :: as) x = a :: listRemove as x := by
        simp [listRemove, ha]
      rw [hstep, List.length_cons, List.length_cons, ih hnd.2 hxas]

/-- C10 (`Delete` contract): `Delete(k)` returns `true` exactly when `k` was
present; afterwards `Get(k)` misses, the element the map held for `k` is no
longer in the list, `Get` and `Gets` of every other key answer as before, no
entry is altered, the remaining elements keep their relative order and only
the element of `k` leaves the list, `length` has decreased by exactly the
size of the deleted value, and `counter` is unchanged; `Delete` of an absent
key returns `false` and changes nothing.  In a state where map and list agree
(as in every state reached from `NewCache`), no entry of the list carries
`k` afterwards, and deleting a present key shortens the list by exactly one
element. -/
theorem Delete_contract (s : Cache) (k : String) :
    ((Delete s k).2 = true ↔ (Get s k).ok = true) ∧
    (Get (Delete s k).1 k).ok = false ∧
    (∀ k2, k2 ≠ k → Get (Delete s k).1 k2 = Get s k2 ∧ Gets (Delete s k).1 k2 = Gets s k2) ∧
    (Delete s k).1.heap = s.heap ∧
    (Delete s k).1.l.Sublist s.l ∧
    (∀ x ∈ s.l, s.m k ≠ some x → x ∈ (Delete s k).1.l) ∧
    (Delete s k).1.length = s.length - ((Get s k).size : Int) ∧
    (Delete s k).1.counter = s.counter ∧
    ((Get s k).ok = false → Delete s k = (s, false)) ∧
    (∀ x, s.m k = some x → x ∉ (Delete s k).1.l) ∧
    (Inv s → k ∉ keys (Delete s k).1 ∧
      ((Get s k).ok = true → (Delete s k).1.l.length + 1 = s.l.length)) := by
  have hgone : (Get (Delete s k).1 k).ok = false := by
    cases hm : s.m k with
    | none => simp [Delete, Get, hm]
    | some h => simp [Delete, Get, hm, mapDelete]
  have hout : ∀ x, s.m k = some x → x ∉ (Delete s k).1.l := by
    intro x hx hmem
    simp only [Delete, hx] at hmem
    exact (mem_listRemove.mp hmem).2 rfl
  have hinv : Inv s → k ∉ keys (Delete s k).1 ∧
      ((Get s k).ok = true → (Delete s k).1.l.length + 1 = s.l.length) := by
    intro hs
    have hd := inv_Delete hs k
    refine ⟨?_, ?_⟩
    · intro hk
      obtain ⟨h, hh, hkey⟩ := List.mem_map.mp hk
      have hmap := hd.listIn h hh
      rw [hkey] at hmap
      unfold Get at hgone
      rw [hmap] at hgone
      exact absurd hgone (by simp)
    · intro hok
      cases hm : s.m k with
      | none => simp [Get, hm] at hok
      | some h =>
        simp only [Delete, hm]
        exact length_listRemove_of_mem hs.nodup (hs.mapIn k h hm).1
  cases hm : s.m k with
  | none =>
    refine ⟨?_, hgone, ?_, ?_, ?_, ?_, ?_, ?_, ?_, fun x hx => hout x (hm.trans hx), hinv⟩ <;>
      simp [Delete, Get, hm]
  | some h =>
    refine ⟨?_, hgone, ?_, ?_, ?_, ?_, ?_, ?_, ?_, ?_, hinv⟩
    · simp [Delete, Get, hm]
    · intro k2 hk2
      simp [Delete, Get, Gets, hm, mapDelete, hk2]
    · simp [Delete, hm]
    · simpa [Delete, hm] using listRemove_sublist s.l h
    · intro x hx hne
      simp only [Delete, hm]
      exact mem_listRemove.mpr ⟨hx, fun hxh => hne (by rw [hxh])⟩
    · simp [Delete, Get, hm]
    · simp [Delete, hm]
    · simp [Get, hm]
    · exact fun x hx => hout x (hm.trans hx)

/-! ## C7: flags are an insert-time attribute -/

theorem evictStep_m_sub (s : Cache) (k : String) (h : Handle)
    (hm : (evictStep s).m k = some h) : s.m k = some h := by
  unfold evictStep at hm
  split at hm
  · exact hm
  · split at hm
    · simp only [evictBody, mapDelete] at hm
      split at hm
      · cases hm
      · exact hm
    · exact hm

theorem flagsAgree_evict {s : Cache} {g : String → Option Nat} (ha : FlagsAgree s g) :
    FlagsAgree (evict s) g := by
  intro k h hm
  rw [evict_eq_evictStep] at hm
  rw [evict_heap]
  exact ha k h (evictStep_m_sub s k h hm)

theorem flagsAgree_heapStore {s : Cache} {g : String → Option Nat} (ha : FlagsAgree s g)
    (e : Handle) (v : Entry) (hf : v.flags = (s.heap e).flags) (len : Int) (c : Nat) :
    FlagsAgree { s with heap := heapStore s.heap e v, length := len, counter := c } g := by
  intro k h hm
  have hk : (heapStore s.heap e v h).flags = (s.heap h).flags := by
    unfold heapStore
    split
    · next heq => rw [heq, hf]
    · rfl
  simp only [hk]
  exact ha k h hm

theorem flagsAgree_overwrite {s : Cache} {g : String → Option Nat} (ha : FlagsAgree s g)
    (e : Handle) (v : Bytes) (p : Nat) : FlagsAgree (bump (overwrite s e v p)) g :=
  flagsAgree_heapStore ha e { s.heap e with value := v, priority := p, casid := s.counter } rfl
    (s.length - ((s.heap e).value.length : Int) + (v.length : Int)) ((s.counter + 1) % u64)

theorem flagsAgree_grow {s : Cache} {g : String → Option Nat} (ha : FlagsAgree s g)
    (e : Handle) (v added : Bytes) (p : Nat) : FlagsAgree (bump (grow s e v added p)) g :=
  flagsAgree_heapStore ha e { s.heap e with value := v, priority := p, casid := s.counter } rfl
    (s.length + (added.length : Int)) ((s.counter + 1) % u64)

theorem flagsAgree_insertNew {s : Cache} {g : String → Option Nat} (hs : Inv s)
    (ha : FlagsAgree s g) (k : String) (v : Bytes) (p f : Nat) :
    FlagsAgree (bump (insertNew s k v p f)) (fun k2 => if k2 = k then some f else g k2) := by
  intro k2 h hm
  simp only [bump, insertNew, mapStore] at hm
  simp only [bump, insertNew, heapStore]
  by_cases hk : k2 = k
  · simp only [hk, if_true] at hm
    cases hm
    simp [hk]
  · simp only [hk, if_false] at hm
    have hne : h ≠ s.next := by
      intro heq
      exact Nat.lt_irrefl _ (heq ▸ hs.fresh h (hs.mapIn k2 h hm).1)
    simp only [hk, if_false, hne]
    exact ha k2 h hm

theorem flagsAgree_step {s : Cache} {g : String → Option Nat} (hs : Inv s)
    (ha : FlagsAgree s g) (op : Op) : FlagsAgree (step s op) (recordInsert s g op) := by
  cases op with
  | set k v p f e =>
    apply flagsAgree_evict
    simp only [recordInsert, setBody]
    cases hm : s.m k with
    | none => exact flagsAgree_insertNew hs ha k v p f
    | some h => exact flagsAgree_overwrite ha h v p
  | add k v p f e =>
    apply flagsAgree_evict
    simp only [recordInsert, addBody]
    cases hm : s.m k with
    | none => exact flagsAgree_insertNew hs ha k v p f
    | some h => exact ha
  | replace k v p f e =>
    apply flagsAgree_evict
    simp only [recordInsert, replaceBody]
    cases hm : s.m k with
    | none => exact ha
    | some h => exact flagsAgree_overwrite ha h v p
  | append k v p f e =>
    apply flagsAgree_evict
    simp only [recordInsert, appendBody]
    cases hm : s.m k with
    | none => exact ha
    | some h => exact flagsAgree_grow ha h _ v p
  | prepend k v p f e =>
    apply flagsAgree_evict
    simp only [recordInsert, prependBody]
    cases hm : s.m k with
    | none => exact ha
    | some h => exact flagsAgree_grow ha h _ v p
  | cas k v p f e c =>
    apply flagsAgree_evict
    simp only [recordInsert, checkAndStoreBody]
    cases hm : s.m k with
    | none => exact ha
    | some h =>
      by_cases hc : (s.heap h).casid = c
      · simp only [hc, if_true]
        exact flagsAgree_overwrite ha h v p
      · simp only [hc, if_false]
        exact ha
  | get k => exact ha
  | gets k => exact ha
  | delete k =>
    intro k2 h hm
    simp only [step, Delete] at hm ⊢
    cases hk : s.m k with
    | none =>
      simp only [hk] at hm ⊢
      exact ha k2 h hm
    | some h0 =>
      simp only [hk, mapDelete] at hm ⊢
      split at hm
      · cases hm
      · exact ha k2 h hm

theorem flagsAgree_run {s : Cache} {g : String → Option Nat} (hs : Inv s)
    (ha : FlagsAgree s g) (ops : List Op) : FlagsAgree (run s ops) (insertedFlags s g ops) := by
  induction ops generalizing s g with
  | nil => exact ha
  | cons op ops ih => exact ih (inv_step hs op) (flagsAgree_step hs ha op)

/-- C7 (flags immutability): after every sequence of public operations on a
cache built by `NewCache`, whenever `Get(k)` or `Gets(k)` hits, the flags it
returns are the `flags` argument of the operation that most recently
inserted `k` (a `Set` or `Add` executed while `k` was absent); the `flags`
arguments of writes to a key already present are never recorded or stored. -/
theorem flags_are_insert_time (maxLength : Int) (ops : List Op) (k : String) :
    ((Get (run (NewCache maxLength) ops) k).ok = true →
      insertedFlags (NewCache maxLength) (fun _ => none) ops k =
        some (Get (run (NewCache maxLength) ops) k).flags) ∧
    ((Gets (run (NewCache maxLength) ops) k).ok = true →
      insertedFlags (NewCache maxLength) (fun _ => none) ops k =
        some (Gets (run (NewCache maxLength) ops) k).flags) := by
  have ha : FlagsAgree (run (NewCache maxLength) ops)
      (insertedFlags (NewCache maxLength) (fun _ => none) ops) :=
    flagsAgree_run (inv_NewCache maxLength) (by intro k h hm; simp [NewCache] at hm) ops
  cases hm : (run (NewCache maxLength) ops).m k with
  | none => simp [Get, Gets, hm]
  | some h => simp [Get, Gets, hm, ha k h hm]

/-! ## C8, C9, C5: writes that do not store still run the eviction pass -/

theorem evict_of_within_bound (s : Cache) (h : s.length ≤ s.maxLength) : evict s = s := by
  rw [evict_eq_evictStep]
  unfold evictStep
  split
  · rfl
  · rw [if_neg (not_lt.mpr h)]

/-- In a state within its bound, a write that does not store leaves the
state exactly as it was. -/
theorem failed_write_unchanged_within_bound (s : Cache) (hle : s.length ≤ s.maxLength)
    (k : String) (v : Bytes) (p f e c : Nat) :
    (s.m k = none → (Replace s k v p f e) = (s, false) ∧ (Append s k v p f e) = (s, false) ∧
      (Prepend s k v p f e) = (s, false) ∧ (CheckAndStore s k v p f e c) = (s, none, false)) ∧
    (∀ h, s.m k = some h → (s.heap h).casid ≠ c →
      (CheckAndStore s k v p f e c) = (s, some h, false)) ∧
    (∀ h, s.m k = some h → (Add s k v p f e) = (s, false)) := by
  refine ⟨?_, ?_, ?_⟩
  · intro hm
    simp [Replace, Append, Prepend, CheckAndStore, replaceBody, appendBody, prependBody,
      checkAndStoreBody, hm, evict_of_within_bound s hle]
  · intro h hm hc
    simp [CheckAndStore, checkAndStoreBody, hm, hc, evict_of_within_bound s hle]
  · intro h hm
    simp [Add, addBody, hm, evict_of_within_bound s hle]

/-- C8 (`Add` contract) evaluated on the code: in the reachable state
`overfull` (list `[k, b]`, `length = 15 > 10`) key `k` is present, `Add(k, …)`
returns `false` and leaves `counter` alone, but its eviction pass removes the
entry of `k`, so the following `Get(k)` misses instead of returning the value
held before. -/
theorem Add_present_evicts :
    keys overfull = ["k", "b"] ∧ overfull.length = 15 ∧
    (Get overfull "k").ok = true ∧
    (Get overfull "k").value = [118, 118, 118, 118, 118] ∧
    (Add overfull "k" [119] 1 0 0).2 = false ∧
    (Add overfull "k" [119] 1 0 0).1.counter = overfull.counter ∧
    (Get (Add overfull "k" [119] 1 0 0).1 "k").ok = false := by
  decide

/-- C9 (failed writes are no-ops) evaluated on the code: in the reachable
state `overfull`, `Replace`, `Append`, `Prepend` and `CheckAndStore` on the
absent key `z`, and `CheckAndStore` on `b` with a casid that does not match,
all report failure, and each removes the front entry `k` and lowers `length`
from 15 to 10. -/
theorem failed_write_evicts :
    keys overfull = ["k", "b"] ∧ overfull.length = 15 ∧
    (Replace overfull "z" [119] 1 0 0).2 = false ∧
    keys (Replace overfull "z" [119] 1 0 0).1 = ["b"] ∧
    (Replace overfull "z" [119] 1 0 0).1.length = 10 ∧
    (Append overfull "z" [119] 1 0 0).2 = false ∧
    keys (Append overfull "z" [119] 1 0 0).1 = ["b"] ∧
    (Prepend overfull "z" [119] 1 0 0).2 = false ∧
    keys (Prepend overfull "z" [119] 1 0 0).1 = ["b"] ∧
    (CheckAndStore overfull "z" [119] 1 0 0 0).2 = (none, false) ∧
    keys (CheckAndStore overfull "z" [119] 1 0 0 0).1 = ["b"] ∧
    (Gets overfull "b").casid = 2 ∧
    (CheckAndStore overfull "b" [119] 9 0 0 7).2.2 = false ∧
    keys (CheckAndStore overfull "b" [119] 9 0 0 7).1 = ["b"] ∧
    (CheckAndStore overfull "b" [119] 9 0 0 7).1.length = 10 := by
  decide

/-- C5 (CAS invalidation) evaluated on the code, `max_length = 10`:
`Set k "v1"`; `Gets k` gives casid 0; then `Set k "v2"`, `Set a` (5 bytes,
priority 0), `Set b` (9 bytes, priority 9) leave `[k, b]` with `length = 11`.
`CheckAndStore(k, "v3", …, 0)` reports a mismatch and does not store, but its
eviction pass removes the entry of `k`: `Get(k)` answered `"v2"` before the
call and misses after it. -/
theorem stale_cas_evicts :
    (Gets (run (NewCache 10) [.set "k" [118, 49] 1 0 0]) "k").casid = 0 ∧
    keys (run (NewCache 10)
      [.set "k" [118, 49] 1 0 0, .set "k" [118, 50] 1 0 0,
       .set "a" [120, 120, 120, 120, 120] 0 0 0,
       .set "b" [121, 121, 121, 121, 121, 121, 121, 121, 121] 9 0 0]) = ["k", "b"] ∧
    (Get (run (NewCache 10)
      [.set "k" [118, 49] 1 0 0, .set "k" [118, 50] 1 0 0,
       .set "a" [120, 120, 120, 120, 120] 0 0 0,
       .set "b" [121, 121, 121, 121, 121, 121, 121, 121, 121] 9 0 0]) "k").value = [118, 50] ∧
    (CheckAndStore (run (NewCache 10)
      [.set "k" [118, 49] 1 0 0, .set "k" [118, 50] 1 0 0,
       .set "a" [120, 120, 120, 120, 120] 0 0 0,
       .set "b" [121, 121, 121, 121, 121, 121, 121, 121, 121] 9 0 0])
      "k" [118, 51] 1 0 0 0).2.2 = false ∧
    (Get (CheckAndStore (run (NewCache 10)
      [.set "k" [118, 49] 1 0 0, .set "k" [118, 50] 1 0 0,
       .set "a" [120, 120, 120, 120, 120] 0 0 0,
       .set "b" [121, 121, 121, 121, 121, 121, 121, 121, 121] 9 0 0])
      "k" [118, 51] 1 0 0 0).1 "k").ok = false := by
  decide

/-- C7, scenario 6 of the specification as an instance of the flags theorem:
`Set(k, "abc", flags = 7)`; `Set(k, "de", flags = 99)`; `Get(k)` returns
`"de"` with flags 7. -/
theorem flags_are_insert_time_witness :
    (Get (run (NewCache 100) [.set "k" [97, 98, 99] 1 7 0, .set "k" [100, 101] 1 99 0]) "k")
      = { value := [100, 101], flags := 7, size := 2, ok := true } ∧
    insertedFlags (NewCache 100) (fun _ => none)
      [.set "k" [97, 98, 99] 1 7 0, .set "k" [100, 101] 1 99 0] "k" =
      some (Get (run (NewCache 100)
        [.set "k" [97, 98, 99] 1 7 0, .set "k" [100, 101] 1 99 0]) "k").flags :=
  ⟨by decide, (flags_are_insert_time 100 _ "k").1 (by decide)⟩

/-! ## Casids and the counter -/

theorem bodyOf_overwrite (s : Cache) (k : String) (h : Handle) (hm : s.m k = some h)
    (v : Bytes) (p : Nat) : BodyOf s (bump (overwrite s h v p)) :=
  BodyOf.inplace k h { s.heap h with value := v, priority := p, casid := s.counter }
    (s.length - ((s.heap h).value.length : Int) + (v.length : Int)) hm rfl

theorem bodyOf_grow (s : Cache) (k : String) (h : Handle) (hm : s.m k = some h)
    (v added : Bytes) (p : Nat) : BodyOf s (bump (grow s h v added p)) :=
  BodyOf.inplace k h { s.heap h with value := v, priority := p, casid := s.counter }
    (s.length + (added.length : Int)) hm rfl

theorem step_cases (s : Cache) (op : Op) :
    step s op = s ∨ (∃ k, step s op = (Delete s k).1) ∨
      ∃ b, BodyOf s b ∧ step s op = evict b := by
  cases op with
  | set k v p f e =>
    refine Or.inr (Or.inr ⟨setBody s k v p f e, ?_, rfl⟩)
    unfold setBody
    cases hm : s.m k with
    | none => exact BodyOf.insert k v p f hm
    | some h => exact bodyOf_overwrite s k h hm v p
  | add k v p f e =>
    refine Or.inr (Or.inr ⟨(addBody s k v p f e).1, ?_, rfl⟩)
    unfold addBody
    cases hm : s.m k with
    | none => exact BodyOf.insert k v p f hm
    | some h => exact BodyOf.same
  | replace k v p f e =>
    refine Or.inr (Or.inr ⟨(replaceBody s k v p f e).1, ?_, rfl⟩)
    unfold replaceBody
    cases hm : s.m k with
    | none => exact BodyOf.same
    | some h => exact bodyOf_overwrite s k h hm v p
  | append k v p f e =>
    refine Or.inr (Or.inr ⟨(appendBody s k v p f e).1, ?_, rfl⟩)
    unfold appendBody
    cases hm : s.m k with
    | none => exact BodyOf.same
    | some h => exact bodyOf_grow s k h hm _ v p
  | prepend k v p f e =>
    refine Or.inr (Or.inr ⟨(prependBody s k v p f e).1, ?_, rfl⟩)
    unfold prependBody
    cases hm : s.m k with
    | none => exact BodyOf.same
    | some h => exact bodyOf_grow s k h hm _ v p
  | cas k v p f e c =>
    refine Or.inr (Or.inr ⟨(checkAndStoreBody s k v p f e c).1, ?_, rfl⟩)
    unfold checkAndStoreBody
    cases hm : s.m k with
    | none => exact BodyOf.same
    | some h =>
      by_cases hc : (s.heap h).casid = c
      · simp only [hc, if_true]
        exact bodyOf_overwrite s k h hm v p
      · simp only [hc, if_false]
        exact BodyOf.same
  | get k => exact Or.inl rfl
  | gets k => exact Or.inl rfl
  | delete k => exact Or.inr (Or.inl ⟨k, rfl⟩)

theorem mem_insertNew_l {s : Cache} (hs : Inv s) (k : String) (v : Bytes) (p f : Nat)
    (h : Handle) : h ∈ (insertNew s k v p f).l ↔ h = s.next ∨ h ∈ s.l := by
  rw [insertNew_l, (place_perm s.heap p s.next s.l hs.nodup).mem_iff, List.mem_cons]

theorem evict_counter (s : Cache) : (evict s).counter = s.counter := by
  rw [evict_eq_evictStep]
  unfold evictStep
  split
  · rfl
  · split <;> rfl

theorem evict_l_sublist (s : Cache) : (evict s).l.Sublist s.l := by
  rw [evict_eq_evictStep]
  unfold evictStep
  split
  · exact List.Sublist.refl _
  · split
    · exact listRemove_sublist _ _
    · exact List.Sublist.refl _

theorem Delete_l_sublist (s : Cache) (k : String) : (Delete s k).1.l.Sublist s.l := by
  unfold Delete
  split
  · exact listRemove_sublist _ _
  · exact List.Sublist.refl _

theorem Delete_heap (s : Cache) (k : String) : (Delete s k).1.heap = s.heap := by
  unfold Delete
  split <;> rfl

theorem Delete_counter (s : Cache) (k : String) : (Delete s k).1.counter = s.counter := by
  unfold Delete
  split <;> rfl

theorem casInv_succ {n : Nat} {s : Cache} (hc : CasInv n s) : CasInv (n + 1) s :=
  ⟨Nat.le_succ_of_le hc.1, fun hn => hc.2 (Nat.lt_of_succ_lt hn)⟩

theorem bump_counter_of_lt {n : Nat} {c : Nat} (hc : c ≤ n) (hn : n + 1 < u64) :
    (c + 1) % u64 = c + 1 :=
  Nat.mod_eq_of_lt (Nat.lt_of_le_of_lt (Nat.succ_le_succ hc) hn)

theorem casInv_body {n : Nat} {s b : Cache} (hs : Inv s) (hc : CasInv n s) (hb : BodyOf s b) :
    CasInv (n + 1) b := by
  cases hb with
  | same => exact casInv_succ hc
  | inplace k h ent len hm hcas =>
    refine ⟨?_, ?_⟩
    · exact Nat.le_trans (Nat.mod_le _ _) (Nat.succ_le_succ hc.1)
    · intro hn x hx
      have hcnt : (s.counter + 1) % u64 = s.counter + 1 := bump_counter_of_lt hc.1 hn
      simp only [bump, hcnt, heapStore]
      split
      · rw [hcas]
        exact Nat.lt_succ_self _
      · exact Nat.lt_succ_of_lt (hc.2 (Nat.lt_of_succ_lt hn) x hx)
  | insert k v p f hm =>
    refine ⟨?_, ?_⟩
    · exact Nat.le_trans (Nat.mod_le _ _) (Nat.succ_le_succ hc.1)
    · intro hn x hx
      have hcnt : (s.counter + 1) % u64 = s.counter + 1 := bump_counter_of_lt hc.1 hn
      have hx2 : x = s.next ∨ x ∈ s.l := (mem_insertNew_l hs k v p f x).mp hx
      have hcounter : (bump (insertNew s k v p f)).counter = s.counter + 1 := by
        simp only [bump, insertNew, hcnt]
      rw [hcounter]
      rcases hx2 with h1 | h1
      · subst h1
        simp [bump, insertNew, heapStore]
      · have hne : x ≠ s.next := fun heq => Nat.lt_irrefl _ (heq ▸ hs.fresh x h1)
        simp only [bump, insertNew, heapStore, hne, if_false]
        exact Nat.lt_succ_of_lt (hc.2 (Nat.lt_of_succ_lt hn) x h1)

theorem casInv_step {n : Nat} {s : Cache} (hs : Inv s) (hc : CasInv n s) (op : Op) :
    CasInv (n + 1) (step s op) := by
  rcases step_cases s op with h | ⟨k, h⟩ | ⟨b, hb, h⟩
  · rw [h]
    exact casInv_succ hc
  · rw [h]
    refine ⟨?_, ?_⟩
    · rw [Delete_counter]
      exact Nat.le_succ_of_le hc.1
    · intro hn x hx
      rw [Delete_counter, Delete_heap]
      exact hc.2 (Nat.lt_of_succ_lt hn) x ((Delete_l_sublist s k).subset hx)
  · rw [h]
    have hb2 := casInv_body hs hc hb
    refine ⟨?_, ?_⟩
    · rw [evict_counter]
      exact hb2.1
    · intro hn x hx
      rw [evict_counter, evict_heap]
      exact hb2.2 hn x ((evict_l_sublist b).subset hx)

theorem casInv_run {n : Nat} {s : Cache} (hs : Inv s) (hc : CasInv n s) (ops : List Op) :
    CasInv (n + ops.length) (run s ops) := by
  induction ops generalizing s n with
  | nil => exact hc
  | cons op ops ih =>
    have := ih (inv_step hs op) (casInv_step hs hc op)
    simpa [run, Nat.add_assoc, Nat.add_comm 1] using this

theorem casInv_NewCache (maxLength : Int) : CasInv 0 (NewCache maxLength) := by
  constructor <;> simp [NewCache]

theorem casAtLeast_evict {c0 : Nat} {k : String} {b : Cache} (hq : CasAtLeast c0 k b) :
    CasAtLeast c0 k (evict b) := by
  intro h hm
  rw [evict_eq_evictStep] at hm
  rw [evict_heap]
  exact hq h (evictStep_m_sub b k h hm)

theorem casAtLeast_Delete {c0 : Nat} {k : String} {t : Cache} (hq : CasAtLeast c0 k t)
    (k2 : String) : CasAtLeast c0 k (Delete t k2).1 := by
  intro h hm
  rw [Delete_heap]
  apply hq h
  unfold Delete at hm
  split at hm
  · simp only [mapDelete] at hm
    split at hm
    · cases hm
    · exact hm
  · exact hm

theorem casAtLeast_body {c0 : Nat} {k : String} {t b : Cache} (hs : Inv t)
    (hc0 : c0 ≤ t.counter) (hq : CasAtLeast c0 k t) (hb : BodyOf t b) : CasAtLeast c0 k b := by
  cases hb with
  | same => exact hq
  | inplace k2 h2 ent len hm hcas =>
    intro h hmk
    simp only [bump, heapStore]
    split
    · rw [hcas]
      exact hc0
    · exact hq h hmk
  | insert k2 v p f hm =>
    intro h hmk
    simp only [bump, insertNew, mapStore] at hmk
    simp only [bump, insertNew, heapStore]
    split at hmk
    · cases hmk
      simpa using hc0
    · have hne : h ≠ t.next := fun heq => Nat.lt_irrefl _ (heq ▸ hs.fresh h (hs.mapIn k h hmk).1)
      simp only [hne, if_false]
      exact hq h hmk

/-- The body of a write stamps the entry it leaves under `k` with the counter
of the call. -/
theorem stamped_overwrite (t : Cache) (k : String) (h0 : Handle) (hm : t.m k = some h0)
    (v : Bytes) (p : Nat) :
    ∀ h, (bump (overwrite t h0 v p)).m k = some h →
      ((bump (overwrite t h0 v p)).heap h).casid = t.counter := by
  intro h hmk
  have : h = h0 := by
    have h1 : t.m k = some h := hmk
    rw [hm] at h1
    exact (Option.some.inj h1).symm
  subst this
  simp [bump, overwrite, heapStore]

theorem stamped_grow (t : Cache) (k : String) (h0 : Handle) (hm : t.m k = some h0)
    (v added : Bytes) (p : Nat) :
    ∀ h, (bump (grow t h0 v added p)).m k = some h →
      ((bump (grow t h0 v added p)).heap h).casid = t.counter := by
  intro h hmk
  have : h = h0 := by
    have h1 : t.m k = some h := hmk
    rw [hm] at h1
    exact (Option.some.inj h1).symm
  subst this
  simp [bump, grow, heapStore]

theorem stamped_insertNew (t : Cache) (k : String) (v : Bytes) (p f : Nat) :
    ∀ h, (bump (insertNew t k v p f)).m k = some h →
      ((bump (insertNew t k v p f)).heap h).casid = t.counter := by
  intro h hmk
  simp only [bump, insertNew, mapStore, if_true] at hmk
  cases hmk
  simp [bump, insertNew, heapStore]

theorem casAtLeast_of_write {c0 : Nat} {k : String} {t : Cache} (hc0 : c0 ≤ t.counter)
    (op : Op) (hw : writesKey t k op = true) : CasAtLeast c0 k (step t op) := by
  have key : ∀ b : Cache, (∀ h, b.m k = some h → (b.heap h).casid = t.counter) →
      CasAtLeast c0 k (evict b) := by
    intro b hb
    apply casAtLeast_evict
    intro h hm
    rw [hb h hm]
    exact hc0
  cases op with
  | set k2 v p f e =>
    simp only [writesKey, beq_iff_eq] at hw
    subst hw
    apply key
    unfold setBody
    cases hm : t.m k2 with
    | none => exact stamped_insertNew t k2 v p f
    | some h0 => exact stamped_overwrite t k2 h0 hm v p
  | add k2 v p f e =>
    simp only [writesKey, Bool.and_eq_true, beq_iff_eq, Option.isNone_iff_eq_none] at hw
    obtain ⟨hk, hm⟩ := hw
    subst hk
    apply key
    simp only [addBody, hm]
    exact stamped_insertNew t k2 v p f
  | replace k2 v p f e =>
    simp only [writesKey, Bool.and_eq_true, beq_iff_eq, Option.isSome_iff_exists] at hw
    obtain ⟨hk, h0, hm⟩ := hw
    subst hk
    apply key
    simp only [replaceBody, hm]
    exact stamped_overwrite t k2 h0 hm v p
  | append k2 v p f e =>
    simp only [writesKey, Bool.and_eq_true, beq_iff_eq, Option.isSome_iff_exists] at hw
    obtain ⟨hk, h0, hm⟩ := hw
    subst hk
    apply key
    simp only [appendBody, hm]
    exact stamped_grow t k2 h0 hm _ v p
  | prepend k2 v p f e =>
    simp only [writesKey, Bool.and_eq_true, beq_iff_eq, Option.isSome_iff_exists] at hw
    obtain ⟨hk, h0, hm⟩ := hw
    subst hk
    apply key
    simp only [prependBody, hm]
    exact stamped_grow t k2 h0 hm _ v p
  | cas k2 v p f e c =>
    simp only [writesKey, Bool.and_eq_true, beq_iff_eq] at hw
    obtain ⟨hk, hmatch⟩ := hw
    subst hk
    cases hm : t.m k2 with
    | none => simp [hm] at hmatch
    | some h0 =>
      simp only [hm, beq_iff_eq] at hmatch
      apply key
      simp only [checkAndStoreBody, hm, hmatch, if_true]
      exact stamped_overwrite t k2 h0 hm v p
  | get k2 => simp [writesKey] at hw
  | gets k2 => simp [writesKey] at hw
  | delete k2 => simp [writesKey] at hw

theorem counter_le_step {n : Nat} {t : Cache} (hc : CasInv n t) (hn : n + 1 < u64) (op : Op) :
    t.counter ≤ (step t op).counter := by
  rcases step_cases t op with h | ⟨k, h⟩ | ⟨b, hb, h⟩
  · rw [h]
  · rw [h, Delete_counter]
  · rw [h, evict_counter]
    cases hb with
    | same => exact Nat.le_refl _
    | inplace k h ent len hm hcas =>
      simp only [bump, bump_counter_of_lt hc.1 hn]
      exact Nat.le_succ _
    | insert k v p f hm =>
      simp only [bump, insertNew, bump_counter_of_lt hc.1 hn]
      exact Nat.le_succ _

theorem casAtLeast_run (c0 : Nat) (k : String) (ops : List Op) :
    ∀ (t : Cache) (n : Nat), Inv t → CasInv n t → n + ops.length < u64 → c0 ≤ t.counter →
      (CasAtLeast c0 k t ∨ runWritesKey t k ops = true) → CasAtLeast c0 k (run t ops) := by
  induction ops with
  | nil =>
    intro t n _ _ _ _ hq
    rcases hq with hq | hq
    · exact hq
    · simp [runWritesKey] at hq
  | cons op ops ih =>
    intro t n hs hc hn hc0 hq
    have hn1 : n + 1 < u64 := by
      simp only [List.length_cons] at hn
      omega
    have hn2 : n + 1 + ops.length < u64 := by
      simp only [List.length_cons] at hn
      omega
    have hcnt : c0 ≤ (step t op).counter :=
      Nat.le_trans hc0 (counter_le_step hc hn1 op)
    apply ih (step t op) (n + 1) (inv_step hs op) (casInv_step hs hc op) hn2 hcnt
    rcases hq with hq | hq
    · left
      rcases step_cases t op with h | ⟨k2, h⟩ | ⟨b, hb, h⟩
      · rw [h]
        exact hq
      · rw [h]
        exact casAtLeast_Delete hq k2
      · rw [h]
        exact casAtLeast_evict (casAtLeast_body hs hc0 hq hb)
    · simp only [runWritesKey, Bool.or_eq_true] at hq
      rcases hq with hq | hq
      · left
        exact casAtLeast_of_write hc0 op hq
      · right
        exact hq

/-- The non-storing half of CAS invalidation, which holds on the code: if `Gets(k)` returned casid `c` in
a state reached from `NewCache`, and a later sequence of operations contains
a successful write to `k`, then (as long as fewer than `2^64` operations were
executed in all) `CheckAndStore(k, v, …, c)` does not store: it reports a
mismatch or an absent key and alters no entry; if moreover the state is
within its bound, it changes nothing at all. -/
theorem stale_cas_does_not_store (maxLength : Int) (ops₀ ops : List Op) (k : String)
    (v : Bytes) (p f e : Nat)
    (hgets : (Gets (run (NewCache maxLength) ops₀) k).ok = true)
    (hwrite : runWritesKey (run (NewCache maxLength) ops₀) k ops = true)
    (hwrap : ops₀.length + ops.length < u64) :
    (CheckAndStore (run (run (NewCache maxLength) ops₀) ops) k v p f e
      (Gets (run (NewCache maxLength) ops₀) k).casid).2.2 = false ∧
    (CheckAndStore (run (run (NewCache maxLength) ops₀) ops) k v p f e
      (Gets (run (NewCache maxLength) ops₀) k).casid).1.heap =
        (run (run (NewCache maxLength) ops₀) ops).heap ∧
    ((run (run (NewCache maxLength) ops₀) ops).length ≤
        (run (run (NewCache maxLength) ops₀) ops).maxLength →
      (CheckAndStore (run (run (NewCache maxLength) ops₀) ops) k v p f e
        (Gets (run (NewCache maxLength) ops₀) k).casid).1 =
          run (run (NewCache maxLength) ops₀) ops) := by
  have hs := inv_run (inv_NewCache maxLength) ops₀
  have hc := casInv_run (inv_NewCache maxLength) (casInv_NewCache maxLength) ops₀
  simp only [Nat.zero_add] at hc
  have hlt0 : ops₀.length < u64 := Nat.lt_of_le_of_lt (Nat.le_add_right _ _) hwrap
  have hq := casAtLeast_run (run (NewCache maxLength) ops₀).counter k ops
    (run (NewCache maxLength) ops₀) ops₀.length hs hc hwrap (Nat.le_refl _) (Or.inr hwrite)
  have hstale : (Gets (run (NewCache maxLength) ops₀) k).casid <
      (run (NewCache maxLength) ops₀).counter := by
    cases hm : (run (NewCache maxLength) ops₀).m k with
    | none => simp [Gets, hm] at hgets
    | some h0 =>
      simp only [Gets, hm]
      exact hc.2 hlt0 h0 (hs.mapIn k h0 hm).1
  have hbody : checkAndStoreBody (run (run (NewCache maxLength) ops₀) ops) k v p f e
      (Gets (run (NewCache maxLength) ops₀) k).casid =
      (run (run (NewCache maxLength) ops₀) ops,
        (run (run (NewCache maxLength) ops₀) ops).m k, false) := by
    unfold checkAndStoreBody
    cases hm : (run (run (NewCache maxLength) ops₀) ops).m k with
    | none => rfl
    | some h1 =>
      have hne : ((run (run (NewCache maxLength) ops₀) ops).heap h1).casid ≠
          (Gets (run (NewCache maxLength) ops₀) k).casid :=
        Nat.ne_of_gt (Nat.lt_of_lt_of_le hstale (hq h1 hm))
      simp only [hne, if_false]
  refine ⟨?_, ?_, ?_⟩
  · simp only [CheckAndStore, hbody]
  · simp only [CheckAndStore, hbody, evict_heap]
  · intro hle
    simp only [CheckAndStore, hbody, evict_of_within_bound _ hle]

/-- Scenario 4 of the specification as an instance: `Set k "v1"`; `Gets k`;
`Set k "v2"`; the `CheckAndStore` with the casid of the `Gets` does not store
and leaves the state, hence the value `"v2"`, as it was. -/
theorem stale_cas_does_not_store_scenario :
    (CheckAndStore (run (run (NewCache 100) [.set "k" [118, 49] 1 0 0])
      [.set "k" [118, 50] 1 0 0]) "k" [118, 51] 1 0 0
      (Gets (run (NewCache 100) [.set "k" [118, 49] 1 0 0]) "k").casid).2.2 = false ∧
    (Get (run (run (NewCache 100) [.set "k" [118, 49] 1 0 0])
      [.set "k" [118, 50] 1 0 0]) "k").value = [118, 50] := by
  refine ⟨(stale_cas_does_not_store 100 [.set "k" [118, 49] 1 0 0] [.set "k" [118, 50] 1 0 0]
    "k" [118, 51] 1 0 0 (by decide) (by decide) (by simp [u64])).1, by decide⟩

/-- The parts of the `Add` contract that hold in every state: `Add` returns
`true` exactly when the key was absent, and on a present key it neither
increments the counter nor alters any entry. -/
theorem Add_result (s : Cache) (k : String) (v : Bytes) (p f e : Nat) :
    ((Add s k v p f e).2 = true ↔ (Get s k).ok = false) ∧
    ((Get s k).ok = true →
      (Add s k v p f e).2 = false ∧ (Add s k v p f e).1.counter = s.counter ∧
      (Add s k v p f e).1.heap = s.heap) := by
  cases hm : s.m k with
  | none => simp [Add, addBody, Get, hm]
  | some h => simp [Add, addBody, Get, hm, evict_counter, evict_heap]

/-! ## C11: effect of `Append` and `Prepend` -/

theorem step_eq_body (s : Cache) (op : Op) :
    step s op = if evicts op = true then evict (body s op) else body s op := by
  cases op <;> rfl

/-- C11 (`Append`/`Prepend` effect): when `k` is present with value `w` and
the write triggers no eviction (`length + len(v) <= max_length`),
`Append(k, v, …)` returns `true` and a following `Get(k)` returns `w`
followed by `v`, `Prepend(k, v, …)` returns `true` and a following `Get(k)`
returns `v` followed by `w`, and in both cases `length` grows by exactly
`len(v)`. -/
theorem Append_Prepend_effect (s : Cache) (k : String) (v : Bytes) (p f e : Nat)
    (hpresent : (Get s k).ok = true)
    (hfit : s.length + (v.length : Int) ≤ s.maxLength) :
    ((Append s k v p f e).2 = true ∧
      (Get (Append s k v p f e).1 k).ok = true ∧
      (Get (Append s k v p f e).1 k).value = (Get s k).value ++ v ∧
      (Append s k v p f e).1.length = s.length + (v.length : Int)) ∧
    ((Prepend s k v p f e).2 = true ∧
      (Get (Prepend s k v p f e).1 k).ok = true ∧
      (Get (Prepend s k v p f e).1 k).value = v ++ (Get s k).value ∧
      (Prepend s k v p f e).1.length = s.length + (v.length : Int)) := by
  cases hm : s.m k with
  | none => simp [Get, hm] at hpresent
  | some h =>
    have ha : evict (bump (grow s h ((s.heap h).value ++ v) v p)) =
        bump (grow s h ((s.heap h).value ++ v) v p) :=
      evict_of_within_bound _ hfit
    have hp : evict (bump (grow s h (v ++ (s.heap h).value) v p)) =
        bump (grow s h (v ++ (s.heap h).value) v p) :=
      evict_of_within_bound _ hfit
    refine ⟨?_, ?_⟩
    · simp only [Append, appendBody, hm, ha]
      simp [Get, hm, bump, grow, heapStore]
    · simp only [Prepend, prependBody, hm, hp]
      simp [Get, hm, bump, grow, heapStore]

/-- C11, scenario 7 of the specification: `Set(k, "abc")`; `Append(k, "de")`;
`Get(k)` returns `"abcde"` and `length` grows by exactly 2. -/
theorem Append_Prepend_effect_witness :
    (Get (Append (Set (NewCache 100) "k" [97, 98, 99] 1 0 0) "k" [100, 101] 1 0 0).1 "k").value
      = [97, 98, 99, 100, 101] ∧
    (Append (Set (NewCache 100) "k" [97, 98, 99] 1 0 0) "k" [100, 101] 1 0 0).1.length
      = (Set (NewCache 100) "k" [97, 98, 99] 1 0 0).length + 2 ∧
    (Get (Prepend (Set (NewCache 100) "k" [97, 98, 99] 1 0 0) "k" [100, 101] 1 0 0).1 "k").value
      = [100, 101, 97, 98, 99] := by
  have h := Append_Prepend_effect (Set (NewCache 100) "k" [97, 98, 99] 1 0 0) "k" [100, 101]
    1 0 0 (by decide) (by decide)
  exact ⟨h.1.2.2.1, h.1.2.2.2, h.2.2.2.1⟩

/-! ## C12: the counter dominates the casids -/

theorem body_counter_of_write {t : Cache} {k : String} (op : Op)
    (hw : writesKey t k op = true) :
    (body t op).counter = (t.counter + 1) % u64 ∧
    ∃ h, (body t op).m k = some h ∧ ((body t op).heap h).casid = t.counter := by
  cases op with
  | set k2 v p f e =>
    simp only [writesKey, beq_iff_eq] at hw
    subst hw
    simp only [body, setBody]
    cases hm : t.m k2 with
    | none =>
      exact ⟨rfl, t.next, by simp [bump, insertNew, mapStore],
        by simp [bump, insertNew, heapStore]⟩
    | some h0 =>
      exact ⟨rfl, h0, hm, by simp [bump, overwrite, heapStore]⟩
  | add k2 v p f e =>
    simp only [writesKey, Bool.and_eq_true, beq_iff_eq, Option.isNone_iff_eq_none] at hw
    obtain ⟨hk, hm⟩ := hw
    subst hk
    simp only [body, addBody, hm]
    exact ⟨rfl, t.next, by simp [bump, insertNew, mapStore],
      by simp [bump, insertNew, heapStore]⟩
  | replace k2 v p f e =>
    simp only [writesKey, Bool.and_eq_true, beq_iff_eq, Option.isSome_iff_exists] at hw
    obtain ⟨hk, h0, hm⟩ := hw
    subst hk
    simp only [body, replaceBody, hm]
    exact ⟨rfl, h0, hm, by simp [bump, overwrite, heapStore]⟩
  | append k2 v p f e =>
    simp only [writesKey, Bool.and_eq_true, beq_iff_eq, Option.isSome_iff_exists] at hw
    obtain ⟨hk, h0, hm⟩ := hw
    subst hk
    simp only [body, appendBody, hm]
    exact ⟨rfl, h0, hm, by simp [bump, grow, heapStore]⟩
  | prepend k2 v p f e =>
    simp only [writesKey, Bool.and_eq_true, beq_iff_eq, Option.isSome_iff_exists] at hw
    obtain ⟨hk, h0, hm⟩ := hw
    subst hk
    simp only [body, prependBody, hm]
    exact ⟨rfl, h0, hm, by simp [bump, grow, heapStore]⟩
  | cas k2 v p f e c =>
    simp only [writesKey, Bool.and_eq_true, beq_iff_eq] at hw
    obtain ⟨hk, hmatch⟩ := hw
    subst hk
    cases hm : t.m k2 with
    | none => simp [hm] at hmatch
    | some h0 =>
      simp only [hm, beq_iff_eq] at hmatch
      simp only [body, checkAndStoreBody, hm, hmatch, if_true]
      exact ⟨rfl, h0, hm, by simp [bump, overwrite, heapStore]⟩
  | get k2 => simp [writesKey] at hw
  | gets k2 => simp [writesKey] at hw
  | delete k2 => simp [writesKey] at hw

theorem evicts_of_write {t : Cache} {k : String} (op : Op) (hw : writesKey t k op = true) :
    evicts op = true := by
  cases op <;> first | rfl | simp [writesKey] at hw

/-- C12 (counter dominates casids): a cache built by `NewCache` starts with
`counter = 0`; after every sequence of fewer than `2^64` public operations
(no wraparound) `counter` is strictly greater than the casid of every entry
linked in the list and of every entry reachable through the map; and every
successful write to a key `k` leaves, before its eviction pass, the entry of
`k` stamped with the counter the call found, and sets `counter` to that value
plus one modulo `2^64`, which is exactly one more while no wraparound
occurs. -/
theorem counter_dominates_casids (maxLength : Int) (ops : List Op)
    (hwrap : ops.length < u64) :
    (NewCache maxLength).counter = 0 ∧
    (∀ h ∈ (run (NewCache maxLength) ops).l,
      ((run (NewCache maxLength) ops).heap h).casid < (run (NewCache maxLength) ops).counter) ∧
    (∀ k h, (run (NewCache maxLength) ops).m k = some h →
      ((run (NewCache maxLength) ops).heap h).casid < (run (NewCache maxLength) ops).counter) ∧
    (∀ op k, writesKey (run (NewCache maxLength) ops) k op = true →
      (∃ h, (body (run (NewCache maxLength) ops) op).m k = some h ∧
        ((body (run (NewCache maxLength) ops) op).heap h).casid =
          (run (NewCache maxLength) ops).counter) ∧
      (step (run (NewCache maxLength) ops) op).counter =
        ((run (NewCache maxLength) ops).counter + 1) % u64 ∧
      (ops.length + 1 < u64 →
        (step (run (NewCache maxLength) ops) op).counter =
          (run (NewCache maxLength) ops).counter + 1)) := by
  have hs := inv_run (inv_NewCache maxLength) ops
  have hc := casInv_run (inv_NewCache maxLength) (casInv_NewCache maxLength) ops
  simp only [Nat.zero_add] at hc
  refine ⟨rfl, hc.2 hwrap, ?_, ?_⟩
  · intro k h hm
    exact hc.2 hwrap h (hs.mapIn k h hm).1
  · intro op k hw
    have hb := body_counter_of_write op hw
    have hstep : (step (run (NewCache maxLength) ops) op).counter =
        ((run (NewCache maxLength) ops).counter + 1) % u64 := by
      rw [step_eq_body, evicts_of_write op hw, if_pos rfl, evict_counter]
      exact hb.1
    refine ⟨hb.2, hstep, ?_⟩
    intro hn
    rw [hstep]
    exact bump_counter_of_lt hc.1 hn

/-- C12, instance: after `Set k`, `Set a`, `Append k` the counter is 3 and the
casids in the list are below it; a further `Replace k` is stamped 3 and moves
the counter to 4. -/
theorem counter_dominates_casids_witness :
    (run (NewCache 100)
      [.set "k" [1] 1 0 0, .set "a" [2] 2 0 0, .append "k" [3] 1 0 0]).counter = 3 ∧
    (∀ h ∈ (run (NewCache 100)
        [.set "k" [1] 1 0 0, .set "a" [2] 2 0 0, .append "k" [3] 1 0 0]).l,
      ((run (NewCache 100)
        [.set "k" [1] 1 0 0, .set "a" [2] 2 0 0, .append "k" [3] 1 0 0]).heap h).casid <
      (run (NewCache 100)
        [.set "k" [1] 1 0 0, .set "a" [2] 2 0 0, .append "k" [3] 1 0 0]).counter) ∧
    (step (run (NewCache 100)
        [.set "k" [1] 1 0 0, .set "a" [2] 2 0 0, .append "k" [3] 1 0 0])
      (.replace "k" [4] 1 0 0)).counter = 4 :=
  ⟨by decide,
   (counter_dominates_casids 100
     [.set "k" [1] 1 0 0, .set "a" [2] 2 0 0, .append "k" [3] 1 0 0] (by simp [u64])).2.1,
   by decide⟩

/-! ## C19: the placement rule -/

theorem takeWhile_below_all (heap : Handle → Entry) (p : Nat) (l : List Handle) :
    ∀ x ∈ l.takeWhile (below heap p), (heap x).priority < p :=
  takeWhile_below_lt heap p l

/-- C19 (placement rule): in a cache whose list is non-decreasing in
priority, `Set` or `Add` of an absent key `k` with priority `P` links the new
entry between a front part `pre` and a back part `post` of the old list,
where every entry of `pre` has priority `< P` and every entry of `post` has
priority `>= P`; so the new entry comes immediately after the last entry with
priority `< P` (at the front if there is none) and before every older entry
of priority `>= P`, the old entries keep their contents and relative order,
and the list is still non-decreasing before and after the eviction pass.
`Inv` is the representation invariant of every cache reachable from
`NewCache`. -/
theorem placement_rule (s : Cache) (hs : Inv s)
    (ho : List.Sorted (· ≤ ·) (priorities s))
    (k : String) (v : Bytes) (P f e : Nat) (habsent : (Get s k).ok = false) :
    (addBody s k v P f e).1 = setBody s k v P f e ∧ (Add s k v P f e).2 = true ∧
    (∃ pre post, s.l = pre ++ post ∧ (setBody s k v P f e).l = pre ++ s.next :: post ∧
      (∀ x ∈ pre, (s.heap x).priority < P) ∧ (∀ x ∈ post, P ≤ (s.heap x).priority)) ∧
    (setBody s k v P f e).m k = some s.next ∧
    (setBody s k v P f e).heap s.next =
      { key := k, value := v, priority := P, flags := f, casid := s.counter } ∧
    (∀ x ∈ s.l, (setBody s k v P f e).heap x = s.heap x) ∧
    List.Sorted (· ≤ ·) (priorities (setBody s k v P f e)) ∧
    List.Sorted (· ≤ ·) (priorities (Set s k v P f e)) ∧
    List.Sorted (· ≤ ·) (priorities (Add s k v P f e).1) := by
  have hm : s.m k = none := by
    cases h : s.m k with
    | none => rfl
    | some h0 => simp [Get, h] at habsent
  have ho2 : Ordered s := (ordered_iff s).mpr ho
  have hset : setBody s k v P f e = bump (insertNew s k v P f) := by
    simp [setBody, hm]
  have hadd : addBody s k v P f e = (bump (insertNew s k v P f), true) := by
    simp [addBody, hm]
  have hnew : s.next ∉ s.l := fun h => Nat.lt_irrefl _ (hs.fresh _ h)
  have hord : Ordered (bump (insertNew s k v P f)) := ordered_insertNew hs ho2 k v P f
  refine ⟨by rw [hadd, hset], by simp [Add, hadd], ?_, ?_, ?_, ?_, ?_, ?_, ?_⟩
  · refine ⟨s.l.takeWhile (below s.heap P), s.l.dropWhile (below s.heap P),
      (List.takeWhile_append_dropWhile _ _).symm, ?_, takeWhile_below_lt s.heap P s.l,
      dropWhile_below_ge s.heap P s.l ho2⟩
    rw [hset]
    show (insertNew s k v P f).l = _
    rw [insertNew_l, place_eq _ _ _ _ hs.nodup]
  · rw [hset]
    simp [bump, insertNew, mapStore]
  · rw [hset]
    simp [bump, insertNew, heapStore]
  · intro x hx
    have hne : x ≠ s.next := fun heq => hnew (heq ▸ hx)
    rw [hset]
    simp [bump, insertNew, heapStore, hne]
  · rw [hset]
    exact (ordered_iff _).mp hord
  · unfold Set
    rw [hset]
    exact (ordered_iff _).mp (ordered_evict hord)
  · simp only [Add, hadd]
    exact (ordered_iff _).mp (ordered_evict hord)

/-- Sortedness of reachable states of priority-keeping sequences, as a
reusable fact. -/
theorem ordering_when_kept_aux (maxLength : Int) (ops : List Op)
    (hk : runKeepsPriority (NewCache maxLength) ops = true) :
    List.Sorted (· ≤ ·) (priorities (run (NewCache maxLength) ops)) :=
  (ordered_iff _).mp
    (ordered_run (inv_NewCache maxLength) (by simp [Ordered, NewCache]) ops hk)

/-- C19, scenario 2 of the specification as an instance: after `Set a p=5`
and `Set b p=3` the list is `[b, a]`; `Set c p=5` links `c` after `b` and
before the older `a`. -/
theorem placement_rule_witness :
    keys (run (NewCache 100) [.set "a" [120] 5 0 0, .set "b" [121] 3 0 0]) = ["b", "a"] ∧
    keys (Set (run (NewCache 100) [.set "a" [120] 5 0 0, .set "b" [121] 3 0 0])
      "c" [122] 5 0 0) = ["b", "c", "a"] ∧
    List.Sorted (· ≤ ·) (priorities
      (Set (run (NewCache 100) [.set "a" [120] 5 0 0, .set "b" [121] 3 0 0])
        "c" [122] 5 0 0)) :=
  ⟨by decide, by decide,
   (placement_rule (run (NewCache 100) [.set "a" [120] 5 0 0, .set "b" [121] 3 0 0])
     (inv_run (inv_NewCache 100) _)
     (ordering_when_kept_aux 100 [.set "a" [120] 5 0 0, .set "b" [121] 3 0 0] (by decide))
     "c" [122] 5 0 0 (by decide)).2.2.2.2.2.2.2.1⟩

/-! ## C20: eviction removes from the front -/

theorem inv_body {s : Cache} (hs : Inv s) (op : Op) : Inv (body s op) := by
  cases op with
  | set k v p f e => exact inv_setBody hs k v p f e
  | add k v p f e => exact inv_addBody hs k v p f e
  | replace k v p f e => exact inv_replaceBody hs k v p f e
  | append k v p f e => exact inv_appendBody hs k v p f e
  | prepend k v p f e => exact inv_prependBody hs k v p f e
  | cas k v p f e c => exact inv_checkAndStoreBody hs k v p f e c
  | get k => exact hs
  | gets k => exact hs
  | delete k => exact inv_Delete hs k

/-- The eviction pass splits the list into an evicted front part and the
surviving rest. -/
theorem evict_splits {b : Cache} (hb : b.l.Nodup) :
    ∃ evicted, b.l = evicted ++ (evict b).l ∧
      (b.length > b.maxLength → b.l ≠ [] → evicted ≠ []) := by
  rw [evict_eq_evictStep]
  unfold evictStep
  split
  · next hl => exact ⟨[], by simp [hl], fun _ h => absurd hl h⟩
  · next i rest hl =>
    split
    · refine ⟨[i], ?_, fun _ _ => by simp⟩
      have hi : i ∉ rest := by
        rw [hl] at hb
        exact (List.nodup_cons.mp hb).1
      simp only [evictBody, hl, listRemove_cons_self i rest hi]
      rfl
    · next hle => exact ⟨[], by simp [hl], fun h _ => absurd h hle⟩

/-- C20 (eviction is priority-monotone): for every write operation on a
cache satisfying the representation invariant, the eviction pass removes
entries only from the front: the list before the pass is an evicted front
part followed by the surviving list, in the same order and with the same
contents, and the front part is not empty when the write left
`length > max_length` on a non-empty list.  Hence, when the list before the
pass is non-decreasing in priority, no surviving entry has a priority lower
than an evicted one.  With `max_length = 10`, `Set(lo, 10 bytes, p=1)` then
`Set(hi, 10 bytes, p=9)` leaves exactly `hi` with `length = 10`. -/
theorem eviction_priority_monotone (s : Cache) (hs : Inv s) (op : Op)
    (hop : evicts op = true) :
    (∃ evicted, (body s op).l = evicted ++ (step s op).l ∧
      ((body s op).length > (body s op).maxLength → (body s op).l ≠ [] → evicted ≠ []) ∧
      (List.Sorted (· ≤ ·) (priorities (body s op)) →
        ∀ x ∈ evicted, ∀ y ∈ (step s op).l,
          ((body s op).heap x).priority ≤ ((step s op).heap y).priority)) ∧
    (step s op).heap = (body s op).heap ∧
    keys (run (NewCache 10)
      [.set "lo" [49, 49, 49, 49, 49, 49, 49, 49, 49, 49] 1 0 0,
       .set "hi" [50, 50, 50, 50, 50, 50, 50, 50, 50, 50] 9 0 0]) = ["hi"] ∧
    (run (NewCache 10)
      [.set "lo" [49, 49, 49, 49, 49, 49, 49, 49, 49, 49] 1 0 0,
       .set "hi" [50, 50, 50, 50, 50, 50, 50, 50, 50, 50] 9 0 0]).length = 10 := by
  have hstep : step s op = evict (body s op) := by
    rw [step_eq_body, hop, if_pos rfl]
  have hb := inv_body hs op
  obtain ⟨evicted, hsplit, hne⟩ := evict_splits hb.nodup
  refine ⟨⟨evicted, ?_, hne, ?_⟩, ?_, by decide, by decide⟩
  · rw [hstep]
    exact hsplit
  · intro hsorted x hx y hy
    have ho : Ordered (body s op) := (ordered_iff _).mpr hsorted
    rw [hstep, evict_heap]
    rw [hstep] at hy
    unfold Ordered at ho
    rw [hsplit, List.pairwise_append] at ho
    exact ho.2.2 x hx y hy
  · rw [hstep, evict_heap]

/-- C20, instance on the reachable state after `Set a`, `Set b` (5 bytes each,
`max_length = 10`): the `Set` of a 10-byte `c` evicts the front entry `b`
only, and the survivors `[a, c]` follow it in the old order. -/
theorem eviction_priority_monotone_witness :
    keys (body (run (NewCache 10)
      [.set "a" [120, 120, 120, 120, 120] 1 0 0, .set "b" [121, 121, 121, 121, 121] 1 0 0])
      (.set "c" [122, 122, 122, 122, 122, 122, 122, 122, 122, 122] 9 0 0)) = ["b", "a", "c"] ∧
    keys (step (run (NewCache 10)
      [.set "a" [120, 120, 120, 120, 120] 1 0 0, .set "b" [121, 121, 121, 121, 121] 1 0 0])
      (.set "c" [122, 122, 122, 122, 122, 122, 122, 122, 122, 122] 9 0 0)) = ["a", "c"] ∧
    (step (run (NewCache 10)
      [.set "a" [120, 120, 120, 120, 120] 1 0 0, .set "b" [121, 121, 121, 121, 121] 1 0 0])
      (.set "c" [122, 122, 122, 122, 122, 122, 122, 122, 122, 122] 9 0 0)).heap =
    (body (run (NewCache 10)
      [.set "a" [120, 120, 120, 120, 120] 1 0 0, .set "b" [121, 121, 121, 121, 121] 1 0 0])
      (.set "c" [122, 122, 122, 122, 122, 122, 122, 122, 122, 122] 9 0 0)).heap :=
  ⟨by decide, by decide,
   (eviction_priority_monotone (run (NewCache 10)
      [.set "a" [120, 120, 120, 120, 120] 1 0 0, .set "b" [121, 121, 121, 121, 121] 1 0 0])
      (inv_run (inv_NewCache 10) _)
      (.set "c" [122, 122, 122, 122, 122, 122, 122, 122, 122, 122] 9 0 0) rfl).2.1⟩

/-! ## The tokenizer in terms of fields -/

theorem tok_length_le (l : Bytes) : (tok l).length ≤ l.length :=
  (List.takeWhile_sublist _).length_le

theorem take_tok (l : Bytes) : l.take (tok l).length = tok l := by
  induction l with
  | nil => rfl
  | cons c cs ih =>
    by_cases hc : c = space
    · simp [tok, List.takeWhile_cons, hc]
    · have hb : (c != space) = true := by simpa using hc
      simp only [tok, List.takeWhile_cons, hb, if_true, List.length_cons, List.take_succ_cons]
      exact congrArg _ ih

theorem indexByte_space (l : Bytes) :
    (indexByte l space = none ∧ (tok l).length = l.length) ∨
    (indexByte l space = some (tok l).length ∧ (tok l).length < l.length) := by
  induction l with
  | nil => left; exact ⟨rfl, rfl⟩
  | cons c cs ih =>
    by_cases hc : c = space
    · right
      simp [indexByte, tok, List.takeWhile_cons, hc]
    · have hb : (c != space) = true := by simpa using hc
      simp only [indexByte, hc, if_false, tok, List.takeWhile_cons, hb, if_true,
        List.length_cons]
      rcases ih with ⟨h1, h2⟩ | ⟨h1, h2⟩
      · left
        exact ⟨by rw [h1]; rfl, by rw [← h2]; rfl⟩
      · right
        refine ⟨by rw [h1]; rfl, ?_⟩
        exact Nat.succ_lt_succ h2

theorem splitSpaces_eq (l : Bytes) :
    splitSpaces l = tok l ::
      (if (tok l).length < l.length then splitSpaces (l.drop ((tok l).length + 1)) else []) := by
  induction l with
  | nil => simp [splitSpaces, tok]
  | cons c cs ih =>
    by_cases hc : c = space
    · simp [splitSpaces, tok, List.takeWhile_cons, hc]
    · have hb : (c != space) = true := by simpa using hc
      simp only [splitSpaces, hc, if_false]
      rw [ih]
      simp only [tok, List.takeWhile_cons, hb, if_true, List.length_cons, List.drop_succ_cons,
        Nat.succ_lt_succ_iff]

theorem field_zero_splitSpaces (l : Bytes) : field (splitSpaces l) 0 = tok l := by
  rw [splitSpaces_eq]
  rfl

theorem field_nil (i : Nat) : field [] i = [] := by
  simp [field]

theorem field_single_nil (i : Nat) : field [[]] i = [] := by
  cases i <;> simp [field]

theorem field_succ_splitSpaces (l : Bytes) (i : Nat) :
    field (splitSpaces l) (i + 1) = field (splitSpaces (l.drop ((tok l).length + 1))) i := by
  rw [splitSpaces_eq l]
  by_cases h : (tok l).length < l.length
  · simp [field, h]
  · have hdrop : l.drop ((tok l).length + 1) = [] := by
      apply List.drop_eq_nil_of_le
      omega
    rw [hdrop]
    simp only [h, if_false]
    have h1 : splitSpaces ([] : Bytes) = [[]] := rfl
    rw [h1, field_single_nil]
    simp [field]

theorem getNextToken_eq (p : Parser) :
    getNextToken p = some (advance p,
      if field (fieldsAt p) 0 = [] then none else some (field (fieldsAt p) 0)) := by
  have hf : field (fieldsAt p) 0 = tok (p.cmd.drop (p.position + 1)) :=
    field_zero_splitSpaces _
  unfold advance
  rw [hf]
  unfold getNextToken
  by_cases hlen : p.position + 1 > p.cmd.length
  · have hdrop : p.cmd.drop (p.position + 1) = [] := List.drop_eq_nil_of_le (by omega)
    simp [hlen, hdrop, tok]
  · have hle : p.position + 1 ≤ p.cmd.length := by omega
    have hs1 : slice p.cmd (p.position + 1) p.cmd.length = some (p.cmd.drop (p.position + 1)) := by
      simp [slice, hle]
    simp only [hlen, if_false, hs1, Option.some_bind]
    have hrl : (p.cmd.drop (p.position + 1)).length = p.cmd.length - (p.position + 1) :=
      List.length_drop _ _
    have htl := tok_length_le (p.cmd.drop (p.position + 1))
    have hlast : (match indexByte (p.cmd.drop (p.position + 1)) space with
        | none => p.cmd.length
        | some i => i + (p.position + 1)) =
        p.position + 1 + (tok (p.cmd.drop (p.position + 1))).length := by
      rcases indexByte_space (p.cmd.drop (p.position + 1)) with ⟨h1, h2⟩ | ⟨h1, _⟩
      · rw [h1]
        simp only
        omega
      · rw [h1]
        exact Nat.add_comm _ _
    rw [hlast]
    by_cases ht : tok (p.cmd.drop (p.position + 1)) = []
    · simp [ht]
    · have hpos : 0 < (tok (p.cmd.drop (p.position + 1))).length :=
        List.length_pos.mpr ht
      have hne : ¬ (p.position + 1 = p.position + 1 +
          (tok (p.cmd.drop (p.position + 1))).length) := by omega
      have hs2 : slice p.cmd (p.position + 1)
          (p.position + 1 + (tok (p.cmd.drop (p.position + 1))).length) =
          some (tok (p.cmd.drop (p.position + 1))) := by
        have hb : p.position + 1 + (tok (p.cmd.drop (p.position + 1))).length ≤ p.cmd.length := by
          omega
        simp only [slice, Nat.le_add_right, hb, and_self, if_true, Option.some.injEq]
        rw [List.drop_take]
        simp only [Nat.add_sub_cancel_left]
        exact take_tok _
      simp only [hne, if_false, hs2, Option.some_bind, ht]

theorem advance_failedToken (p : Parser) : (advance p).failedToken = p.failedToken := by
  unfold advance
  split <;> rfl

theorem advance_cmd (p : Parser) : (advance p).cmd = p.cmd := by
  unfold advance
  split <;> rfl

theorem aligned_advance {p : Parser} {fs : List Bytes} {k : Nat} (h : AlignedAt p fs k)
    (hk : field fs k ≠ []) : AlignedAt (advance p) fs (k + 1) := by
  intro i
  have h0 : field (fieldsAt p) 0 = field fs k := h 0
  have hne : field (fieldsAt p) 0 ≠ [] := by rw [h0]; exact hk
  have htok : field (fieldsAt p) 0 = tok (p.cmd.drop (p.position + 1)) :=
    field_zero_splitSpaces _
  have hadv : fieldsAt (advance p) =
      splitSpaces ((p.cmd.drop (p.position + 1)).drop
        ((tok (p.cmd.drop (p.position + 1))).length + 1)) := by
    unfold advance
    rw [if_neg hne, htok]
    simp only [fieldsAt, List.drop_drop]
    congr 1
  rw [hadv, ← field_succ_splitSpaces]
  have := h (i + 1)
  rw [Nat.add_assoc, Nat.add_comm 1 i]
  exact this

theorem getNextToken_aligned {p : Parser} {fs : List Bytes} {k : Nat} (h : AlignedAt p fs k) :
    getNextToken p = some (advance p, if field fs k = [] then none else some (field fs k)) := by
  rw [getNextToken_eq]
  have h0 : field (fieldsAt p) 0 = field fs k := h 0
  rw [h0]

theorem ParseUint_ok (t : Bytes) : (ParseUint t).2 = validUint t := by
  unfold ParseUint validUint
  cases t with
  | nil => simp
  | cons c cs =>
    by_cases hall : (c :: cs).all isDigit = true
    · by_cases hv : digitsValue (c :: cs) < u64
      · simp [hall, hv]
      · simp [hall, hv]
    · have hall2 : (c :: cs).all isDigit = false := by simpa using hall
      simp [hall2]

theorem ParseUint_value (t : Bytes) (h : validUint t = true) :
    (ParseUint t).1 = digitsValue t := by
  unfold validUint at h
  simp only [Bool.and_eq_true, Bool.not_eq_true', decide_eq_true_eq] at h
  obtain ⟨⟨h1, h2⟩, h3⟩ := h
  have hne : t ≠ [] := by
    intro h0
    rw [h0] at h1
    simp at h1
  unfold ParseUint
  simp [hne, h2, h3]

theorem parseUint64_aligned {p : Parser} {fs : List Bytes} {k : Nat} (h : AlignedAt p fs k) :
    parseUint64 p = some (advance p, (ParseUint (field fs k)).1, validUint (field fs k)) := by
  unfold parseUint64
  rw [getNextToken_aligned h]
  simp only [Option.some_bind]
  by_cases hk : field fs k = []
  · simp [hk, ParseUint, validUint]
  · simp only [hk, if_false]
    rw [← ParseUint_ok]
    cases hc : (ParseUint (field fs k)).2 <;> simp

theorem aligned_start (p : Parser) (cmd : Bytes) :
    AlignedAt { p with position := cmd.length } (fieldsOf cmd p.cmd) 0 := by
  intro i
  simp [fieldsAt, fieldsOf]

theorem validUint_ne_nil {t : Bytes} (h : validUint t = true) : t ≠ [] := by
  intro h0
  rw [h0] at h
  simp [validUint] at h

/-! ## The store-command parser in terms of fields -/

/-- Closed form of `parseStoreCmd` on a line with a field that does not
parse: the parse fails and `failedToken` names the first such field. -/
theorem parseStoreCmd_bad (p : Parser) (cmd name : Bytes)
    (h : firstBadStoreField (decide (cmd = cmdCas)) (fieldsOf cmd p.cmd) = some name) :
    ∃ p2 r, parseStoreCmd p cmd = some (p2, r) ∧ r.ok = false ∧ p2.failedToken = name := by
  have a0 := aligned_start p cmd
  unfold parseStoreCmd
  rw [getNextToken_aligned a0]
  simp only [Option.some_bind]
  by_cases h0 : field (fieldsOf cmd p.cmd) 0 = []
  · simp only [firstBadStoreField, h0, List.isEmpty_nil, if_true, Option.some.injEq] at h
    simp only [h0, if_true]
    exact ⟨_, _, rfl, rfl, h⟩
  have a1 : AlignedAt (advance { p with position := cmd.length }) (fieldsOf cmd p.cmd) 1 :=
    aligned_advance a0 h0
  simp only [h0, if_false]
  rw [parseUint64_aligned a1]
  simp only [Option.some_bind]
  by_cases h1 : validUint (field (fieldsOf cmd p.cmd) 1) = true
  swap
  · simp only [Bool.not_eq_true] at h1
    simp [firstBadStoreField, h0, h1] at h
    simp only [h1, if_true]
    exact ⟨_, _, rfl, rfl, h⟩
  have a2 : AlignedAt (advance (advance { p with position := cmd.length })) (fieldsOf cmd p.cmd) 2 :=
    aligned_advance a1 (validUint_ne_nil h1)
  simp only [h1, Bool.true_eq_false, if_false]
  rw [parseUint64_aligned a2]
  simp only [Option.some_bind]
  by_cases h2 : validUint (field (fieldsOf cmd p.cmd) 2) = true
  swap
  · simp only [Bool.not_eq_true] at h2
    simp [firstBadStoreField, h0, h1, h2] at h
    simp only [h2, if_true]
    exact ⟨_, _, rfl, rfl, h⟩
  have a3 : AlignedAt (advance (advance (advance { p with position := cmd.length }))) (fieldsOf cmd p.cmd) 3 :=
    aligned_advance a2 (validUint_ne_nil h2)
  simp only [h2, Bool.true_eq_false, if_false]
  rw [parseUint64_aligned a3]
  simp only [Option.some_bind]
  by_cases h3 : validUint (field (fieldsOf cmd p.cmd) 3) = true
  swap
  · simp only [Bool.not_eq_true] at h3
    simp [firstBadStoreField, h0, h1, h2, h3] at h
    simp only [h3, if_true]
    exact ⟨_, _, rfl, rfl, h⟩
  have a4 : AlignedAt (advance (advance (advance (advance { p with position := cmd.length })))) (fieldsOf cmd p.cmd) 4 :=
    aligned_advance a3 (validUint_ne_nil h3)
  simp only [h3, Bool.true_eq_false, if_false]
  rw [parseUint64_aligned a4]
  simp only [Option.some_bind]
  by_cases h4 : validUint (field (fieldsOf cmd p.cmd) 4) = true
  swap
  · simp only [Bool.not_eq_true] at h4
    simp [firstBadStoreField, h0, h1, h2, h3, h4] at h
    simp only [h4, if_true]
    exact ⟨_, _, rfl, rfl, h⟩
  have a5 : AlignedAt (advance (advance (advance (advance (advance { p with position := cmd.length }))))) (fieldsOf cmd p.cmd) 5 :=
    aligned_advance a4 (validUint_ne_nil h4)
  simp only [h4, Bool.true_eq_false, if_false]
  by_cases hcas : cmd = cmdCas
  · rw [if_pos hcas, parseUint64_aligned a5]
    simp only [Option.some_bind]
    have hd : decide (cmd = cmdCas) = true := decide_eq_true hcas
    rw [hd] at h
    by_cases h5 : validUint (field (fieldsOf cmd p.cmd) 5) = true
    · simp [firstBadStoreField, h0, h1, h2, h3, h4, h5] at h
    · simp only [Bool.not_eq_true] at h5
      simp [firstBadStoreField, h0, h1, h2, h3, h4, h5] at h
      simp only [h5, if_true]
      exact ⟨_, _, rfl, rfl, h⟩
  · have hd : decide (cmd = cmdCas) = false := decide_eq_false hcas
    rw [hd] at h
    simp [firstBadStoreField, h0, h1, h2, h3, h4] at h

/-- Closed form of `parseStoreCmd` on a line whose fields all parse. -/
theorem parseStoreCmd_good (p : Parser) (cmd : Bytes)
    (h : firstBadStoreField (decide (cmd = cmdCas)) (fieldsOf cmd p.cmd) = none) :
    ∃ p2, parseStoreCmd p cmd = some (p2,
      ⟨some (field (fieldsOf cmd p.cmd) 0), digitsValue (field (fieldsOf cmd p.cmd) 1),
        digitsValue (field (fieldsOf cmd p.cmd) 2), digitsValue (field (fieldsOf cmd p.cmd) 3),
        digitsValue (field (fieldsOf cmd p.cmd) 4),
        if cmd = cmdCas then digitsValue (field (fieldsOf cmd p.cmd) 5) else 0, true⟩) ∧
      p2.failedToken = p.failedToken ∧ p2.cmd = p.cmd := by
  have a0 := aligned_start p cmd
  by_cases h0 : field (fieldsOf cmd p.cmd) 0 = []
  · simp [firstBadStoreField, h0] at h
  by_cases h1 : validUint (field (fieldsOf cmd p.cmd) 1) = true
  swap
  · simp [firstBadStoreField, h0, h1] at h
  by_cases h2 : validUint (field (fieldsOf cmd p.cmd) 2) = true
  swap
  · simp [firstBadStoreField, h0, h1, h2] at h
  by_cases h3 : validUint (field (fieldsOf cmd p.cmd) 3) = true
  swap
  · simp [firstBadStoreField, h0, h1, h2, h3] at h
  by_cases h4 : validUint (field (fieldsOf cmd p.cmd) 4) = true
  swap
  · simp [firstBadStoreField, h0, h1, h2, h3, h4] at h
  have a1 : AlignedAt (advance { p with position := cmd.length }) (fieldsOf cmd p.cmd) 1 := aligned_advance a0 h0
  have a2 : AlignedAt (advance (advance { p with position := cmd.length })) (fieldsOf cmd p.cmd) 2 := aligned_advance a1 (validUint_ne_nil h1)
  have a3 : AlignedAt (advance (advance (advance { p with position := cmd.length }))) (fieldsOf cmd p.cmd) 3 := aligned_advance a2 (validUint_ne_nil h2)
  have a4 : AlignedAt (advance (advance (advance (advance { p with position := cmd.length })))) (fieldsOf cmd p.cmd) 4 := aligned_advance a3 (validUint_ne_nil h3)
  have a5 : AlignedAt (advance (advance (advance (advance (advance { p with position := cmd.length }))))) (fieldsOf cmd p.cmd) 5 := aligned_advance a4 (validUint_ne_nil h4)
  unfold parseStoreCmd
  rw [getNextToken_aligned a0]
  simp only [Option.some_bind, h0, if_false]
  rw [parseUint64_aligned a1]
  simp only [Option.some_bind, h1, Bool.true_eq_false, if_false]
  rw [parseUint64_aligned a2]
  simp only [Option.some_bind, h2, Bool.true_eq_false, if_false]
  rw [parseUint64_aligned a3]
  simp only [Option.some_bind, h3, Bool.true_eq_false, if_false]
  rw [parseUint64_aligned a4]
  simp only [Option.some_bind, h4, Bool.true_eq_false, if_false]
  by_cases hcas : cmd = cmdCas
  · by_cases h5 : validUint (field (fieldsOf cmd p.cmd) 5) = true
    swap
    · have hd : decide (cmd = cmdCas) = true := decide_eq_true hcas
      rw [hd] at h
      simp [firstBadStoreField, h0, h1, h2, h3, h4, h5] at h
    rw [if_pos hcas, parseUint64_aligned a5]
    simp only [Option.some_bind, h5, Bool.true_eq_false, if_false, if_pos hcas,
      ParseUint_value _ h1, ParseUint_value _ h2, ParseUint_value _ h3, ParseUint_value _ h4,
      ParseUint_value _ h5]
    exact ⟨_, rfl, by simp only [advance_failedToken], by simp only [advance_cmd]⟩
  · rw [if_neg hcas]
    simp only [if_neg hcas, ParseUint_value _ h1, ParseUint_value _ h2, ParseUint_value _ h3,
      ParseUint_value _ h4]
    exact ⟨_, rfl, by simp only [advance_failedToken], by simp only [advance_cmd]⟩

/-- Closed form of `ParseGetCmd`, `ParseGetsCmd` and `ParseDeleteCmd`. -/
theorem parseKeyCmd_eq (p : Parser) (cmd : Bytes) :
    parseKeyCmd p cmd =
      if field (fieldsOf cmd p.cmd) 0 = [] then
        some ({ advance { p with position := cmd.length } with failedToken := ascii "key" },
          none, false)
      else some (advance { p with position := cmd.length },
        some (field (fieldsOf cmd p.cmd) 0), true) := by
  unfold parseKeyCmd
  rw [getNextToken_aligned (aligned_start p cmd)]
  simp only [Option.some_bind]
  by_cases h0 : field (fieldsOf cmd p.cmd) 0 = []
  · simp only [h0, if_true]
  · simp only [h0, if_false]

/-! ## C16: the parser is total -/

theorem aligned_self (p : Parser) : AlignedAt p (fieldsAt p) 0 := by
  intro i
  rw [Nat.zero_add]

theorem parseUint64_eq (p : Parser) :
    parseUint64 p = some (advance p, (ParseUint (field (fieldsAt p) 0)).1,
      validUint (field (fieldsAt p) 0)) :=
  parseUint64_aligned (aligned_self p)

theorem firstBadStoreField_mem (cas : Bool) (fs : List Bytes) (name : Bytes)
    (h : firstBadStoreField cas fs = some name) :
    name ∈ [ascii "key", ascii "priority", ascii "flags", ascii "exptime", ascii "size",
      ascii "casid"] := by
  unfold firstBadStoreField at h
  repeat' split at h
  all_goals first
    | (cases h; simp)
    | cases h

theorem storeOutcome_parseStoreCmd (p : Parser) (cmd : Bytes) :
    StoreOutcome (parseStoreCmd p cmd) := by
  cases hb : firstBadStoreField (decide (cmd = cmdCas)) (fieldsOf cmd p.cmd) with
  | none =>
    obtain ⟨p2, hp, _, _⟩ := parseStoreCmd_good p cmd hb
    exact ⟨p2, _, hp, Or.inl ⟨rfl, by simp⟩⟩
  | some name =>
    obtain ⟨p2, r, hp, hok, hname⟩ := parseStoreCmd_bad p cmd name hb
    exact ⟨p2, r, hp, Or.inr ⟨hok, hname ▸ firstBadStoreField_mem _ _ _ hb⟩⟩

theorem keyOutcome_parseKeyCmd (p : Parser) (cmd : Bytes) : KeyOutcome (parseKeyCmd p cmd) := by
  rw [parseKeyCmd_eq]
  by_cases h0 : field (fieldsOf cmd p.cmd) 0 = []
  · rw [if_pos h0]
    exact ⟨_, _, _, rfl, Or.inr ⟨rfl, rfl⟩⟩
  · rw [if_neg h0]
    exact ⟨_, _, _, rfl, Or.inl ⟨rfl, by simp⟩⟩

theorem responseOutcome_ParseGetResponse (p : Parser) (cmd : Bytes) :
    ResponseOutcome (ParseGetResponse p cmd) := by
  unfold ParseGetResponse
  rw [getNextToken_eq]
  simp only [Option.some_bind]
  by_cases h0 : field (fieldsAt { p with position := strValue.length }) 0 = []
  · simp only [h0, if_true]
    exact ⟨_, _, rfl, Or.inr ⟨rfl, by simp⟩⟩
  simp only [h0, if_false]
  rw [parseUint64_eq]
  simp only [Option.some_bind]
  by_cases h1 : validUint (field (fieldsAt (advance { p with position := strValue.length })) 0)
      = true
  swap
  · simp only [Bool.not_eq_true] at h1
    simp only [h1, if_true]
    exact ⟨_, _, rfl, Or.inr ⟨rfl, by simp⟩⟩
  simp only [h1, Bool.true_eq_false, if_false]
  rw [parseUint64_eq]
  simp only [Option.some_bind]
  by_cases h2 : validUint
      (field (fieldsAt (advance (advance { p with position := strValue.length }))) 0) = true
  swap
  · simp only [Bool.not_eq_true] at h2
    simp only [h2, if_true]
    exact ⟨_, _, rfl, Or.inr ⟨rfl, by simp⟩⟩
  simp only [h2, Bool.true_eq_false, if_false]
  by_cases hc : cmd = cmdGets
  · rw [if_pos hc, parseUint64_eq]
    simp only [Option.some_bind]
    by_cases h3 : validUint (field (fieldsAt
        (advance (advance (advance { p with position := strValue.length })))) 0) = true
    · simp only [h3, Bool.true_eq_false, if_false]
      exact ⟨_, _, rfl, Or.inl rfl⟩
    · simp only [Bool.not_eq_true] at h3
      simp only [h3, if_true]
      exact ⟨_, _, rfl, Or.inr ⟨rfl, by simp⟩⟩
  · rw [if_neg hc]
    exact ⟨_, _, rfl, Or.inl rfl⟩

/-! ## C14: the reply to a line that does not parse -/

theorem clientError_eq (name : Bytes) :
    ascii "CLIENT_ERROR " ++ (ascii "Cannot parse " ++ name) ++ ascii "\r\n" =
      ascii "CLIENT_ERROR Cannot parse " ++ name ++ ascii "\r\n" := by
  have h : ascii "CLIENT_ERROR Cannot parse " = ascii "CLIENT_ERROR " ++ ascii "Cannot parse " := by
    decide
  rw [h]
  simp only [List.append_assoc]

theorem parseFailed_response (srv : Server) (p2 : Parser) (name : Bytes)
    (h : p2.failedToken = name) :
    (parseFailed srv p2).response = ascii "CLIENT_ERROR Cannot parse " ++ name ++ ascii "\r\n" ∧
    (parseFailed srv p2).cache = srv.cache := by
  refine ⟨?_, rfl⟩
  rw [← clientError_eq, ← h]
  rfl

theorem runSetCmd_bad (srv : Server) (rw : Bytes) (name : Bytes)
    (h : firstBadStoreField (decide (cmdSet = cmdCas)) (fieldsOf cmdSet srv.parser.cmd) = some name) :
    ∃ srv2, runSetCmd srv rw = some (srv2, rw) ∧
      srv2.response = ascii "CLIENT_ERROR Cannot parse " ++ name ++ ascii "\r\n" ∧
      srv2.cache = srv.cache := by
  obtain ⟨p2, r, hp, hok, hname⟩ := parseStoreCmd_bad srv.parser cmdSet name h
  refine ⟨parseFailed srv p2, ?_, parseFailed_response srv p2 name hname⟩
  unfold runSetCmd ParseSetCmd
  rw [hp]
  simp only [Option.some_bind, hok, if_true]

theorem runAddCmd_bad (srv : Server) (rw : Bytes) (name : Bytes)
    (h : firstBadStoreField (decide (cmdAdd = cmdCas)) (fieldsOf cmdAdd srv.parser.cmd) = some name) :
    ∃ srv2, runAddCmd srv rw = some (srv2, rw) ∧
      srv2.response = ascii "CLIENT_ERROR Cannot parse " ++ name ++ ascii "\r\n" ∧
      srv2.cache = srv.cache := by
  obtain ⟨p2, r, hp, hok, hname⟩ := parseStoreCmd_bad srv.parser cmdAdd name h
  refine ⟨parseFailed srv p2, ?_, parseFailed_response srv p2 name hname⟩
  unfold runAddCmd ParseAddCmd
  rw [hp]
  simp only [Option.some_bind, hok, if_true]

theorem runReplaceCmd_bad (srv : Server) (rw : Bytes) (name : Bytes)
    (h : firstBadStoreField (decide (cmdReplace = cmdCas)) (fieldsOf cmdReplace srv.parser.cmd) = some name) :
    ∃ srv2, runReplaceCmd srv rw = some (srv2, rw) ∧
      srv2.response = ascii "CLIENT_ERROR Cannot parse " ++ name ++ ascii "\r\n" ∧
      srv2.cache = srv.cache := by
  obtain ⟨p2, r, hp, hok, hname⟩ := parseStoreCmd_bad srv.parser cmdReplace name h
  refine ⟨parseFailed srv p2, ?_, parseFailed_response srv p2 name hname⟩
  unfold runReplaceCmd ParseReplaceCmd
  rw [hp]
  simp only [Option.some_bind, hok, if_true]

theorem runAppendCmd_bad (srv : Server) (rw : Bytes) (name : Bytes)
    (h : firstBadStoreField (decide (cmdAppend = cmdCas)) (fieldsOf cmdAppend srv.parser.cmd) = some name) :
    ∃ srv2, runAppendCmd srv rw = some (srv2, rw) ∧
      srv2.response = ascii "CLIENT_ERROR Cannot parse " ++ name ++ ascii "\r\n" ∧
      srv2.cache = srv.cache := by
  obtain ⟨p2, r, hp, hok, hname⟩ := parseStoreCmd_bad srv.parser cmdAppend name h
  refine ⟨parseFailed srv p2, ?_, parseFailed_response srv p2 name hname⟩
  unfold runAppendCmd ParseAppendCmd
  rw [hp]
  simp only [Option.some_bind, hok, if_true]

theorem runPrependCmd_bad (srv : Server) (rw : Bytes) (name : Bytes)
    (h : firstBadStoreField (decide (cmdPrepend = cmdCas)) (fieldsOf cmdPrepend srv.parser.cmd) = some name) :
    ∃ srv2, runPrependCmd srv rw = some (srv2, rw) ∧
      srv2.response = ascii "CLIENT_ERROR Cannot parse " ++ name ++ ascii "\r\n" ∧
      srv2.cache = srv.cache := by
  obtain ⟨p2, r, hp, hok, hname⟩ := parseStoreCmd_bad srv.parser cmdPrepend name h
  refine ⟨parseFailed srv p2, ?_, parseFailed_response srv p2 name hname⟩
  unfold runPrependCmd ParsePrependCmd
  rw [hp]
  simp only [Option.some_bind, hok, if_true]

theorem runCasCmd_bad (srv : Server) (rw : Bytes) (name : Bytes)
    (h : firstBadStoreField (decide (cmdCas = cmdCas)) (fieldsOf cmdCas srv.parser.cmd) = some name) :
    ∃ srv2, runCasCmd srv rw = some (srv2, rw) ∧
      srv2.response = ascii "CLIENT_ERROR Cannot parse " ++ name ++ ascii "\r\n" ∧
      srv2.cache = srv.cache := by
  obtain ⟨p2, r, hp, hok, hname⟩ := parseStoreCmd_bad srv.parser cmdCas name h
  refine ⟨parseFailed srv p2, ?_, parseFailed_response srv p2 name hname⟩
  unfold runCasCmd ParseCasCmd
  rw [hp]
  simp only [Option.some_bind, hok, if_true]

theorem runGetCmd_bad (srv : Server)
    (h : field (fieldsOf cmdGet srv.parser.cmd) 0 = []) :
    ∃ srv2, runGetCmd srv = some srv2 ∧
      srv2.response = ascii "CLIENT_ERROR Cannot parse " ++ ascii "key" ++ ascii "\r\n" ∧
      srv2.cache = srv.cache := by
  refine ⟨parseFailed srv
    { advance { srv.parser with position := cmdGet.length } with failedToken := ascii "key" },
    ?_, parseFailed_response srv _ _ rfl⟩
  unfold runGetCmd ParseGetCmd
  rw [parseKeyCmd_eq, if_pos h]
  simp only [Option.some_bind, if_true]

theorem runGetsCmd_bad (srv : Server)
    (h : field (fieldsOf cmdGets srv.parser.cmd) 0 = []) :
    ∃ srv2, runGetsCmd srv = some srv2 ∧
      srv2.response = ascii "CLIENT_ERROR Cannot parse " ++ ascii "key" ++ ascii "\r\n" ∧
      srv2.cache = srv.cache := by
  refine ⟨parseFailed srv
    { advance { srv.parser with position := cmdGets.length } with failedToken := ascii "key" },
    ?_, parseFailed_response srv _ _ rfl⟩
  unfold runGetsCmd ParseGetsCmd
  rw [parseKeyCmd_eq, if_pos h]
  simp only [Option.some_bind, if_true]

theorem runDeleteCmd_bad (srv : Server)
    (h : field (fieldsOf cmdDelete srv.parser.cmd) 0 = []) :
    ∃ srv2, runDeleteCmd srv = some srv2 ∧
      srv2.response = ascii "CLIENT_ERROR Cannot parse " ++ ascii "key" ++ ascii "\r\n" ∧
      srv2.cache = srv.cache := by
  refine ⟨parseFailed srv
    { advance { srv.parser with position := cmdDelete.length } with failedToken := ascii "key" },
    ?_, parseFailed_response srv _ _ rfl⟩
  unfold runDeleteCmd ParseDeleteCmd
  rw [parseKeyCmd_eq, if_pos h]
  simp only [Option.some_bind, if_true]

/-- C14 (parse-failure reply): when a command line is dispatched to one of
the nine known commands and one of its fields does not parse, the handler
stages exactly `CLIENT_ERROR Cannot parse <name>\r\n`, where `<name>` is the
first field, in the order key, priority, flags, exptime, size (then casid for
`cas`), that is missing, empty or not a valid unsigned decimal; it performs
no cache operation, reads no payload and keeps the connection.  For example
`set k 1 0 0` fails at `size` and `set k -1 0 0 3` fails at `priority`. -/
theorem parse_failure_reply (srv : Server) (buffer rw : Bytes) (name : Bytes)
    (hknown : isKnown (dispatch buffer) = true)
    (hbad : firstBadField (dispatch buffer) (bytesTrim buffer) = some name) :
    (∃ srv2, handle srv buffer rw = some (srv2, rw, true) ∧
      srv2.response = ascii "CLIENT_ERROR Cannot parse " ++ name ++ ascii "\r\n" ∧
      srv2.cache = srv.cache) ∧
    firstBadField (dispatch (ascii "set k 1 0 0\r\n")) (bytesTrim (ascii "set k 1 0 0\r\n")) =
      some (ascii "size") ∧
    firstBadField (dispatch (ascii "set k -1 0 0 3\r\n"))
      (bytesTrim (ascii "set k -1 0 0 3\r\n")) = some (ascii "priority") := by
  refine ⟨?_, by decide, by decide⟩
  unfold handle
  cases hd : dispatch buffer with
  | set =>
    rw [hd] at hbad
    have hb : firstBadStoreField (decide (cmdSet = cmdCas)) (fieldsOf cmdSet (bytesTrim buffer))
        = some name := hbad
    obtain ⟨srv2, h1, h2, h3⟩ := runSetCmd_bad
      { srv with parser := { srv.parser with cmd := bytesTrim buffer } } rw name hb
    exact ⟨srv2, by simp only [h1, Option.map_some'], h2, h3⟩
  | add =>
    rw [hd] at hbad
    have hb : firstBadStoreField (decide (cmdAdd = cmdCas)) (fieldsOf cmdAdd (bytesTrim buffer))
        = some name := hbad
    obtain ⟨srv2, h1, h2, h3⟩ := runAddCmd_bad
      { srv with parser := { srv.parser with cmd := bytesTrim buffer } } rw name hb
    exact ⟨srv2, by simp only [h1, Option.map_some'], h2, h3⟩
  | replace =>
    rw [hd] at hbad
    have hb : firstBadStoreField (decide (cmdReplace = cmdCas)) (fieldsOf cmdReplace (bytesTrim buffer))
        = some name := hbad
    obtain ⟨srv2, h1, h2, h3⟩ := runReplaceCmd_bad
      { srv with parser := { srv.parser with cmd := bytesTrim buffer } } rw name hb
    exact ⟨srv2, by simp only [h1, Option.map_some'], h2, h3⟩
  | append =>
    rw [hd] at hbad
    have hb : firstBadStoreField (decide (cmdAppend = cmdCas)) (fieldsOf cmdAppend (bytesTrim buffer))
        = some name := hbad
    obtain ⟨srv2, h1, h2, h3⟩ := runAppendCmd_bad
      { srv with parser := { srv.parser with cmd := bytesTrim buffer } } rw name hb
    exact ⟨srv2, by simp only [h1, Option.map_some'], h2, h3⟩
  | prepend =>
    rw [hd] at hbad
    have hb : firstBadStoreField (decide (cmdPrepend = cmdCas)) (fieldsOf cmdPrepend (bytesTrim buffer))
        = some name := hbad
    obtain ⟨srv2, h1, h2, h3⟩ := runPrependCmd_bad
      { srv with parser := { srv.parser with cmd := bytesTrim buffer } } rw name hb
    exact ⟨srv2, by simp only [h1, Option.map_some'], h2, h3⟩
  | cas =>
    rw [hd] at hbad
    have hb : firstBadStoreField (decide (cmdCas = cmdCas)) (fieldsOf cmdCas (bytesTrim buffer))
        = some name := hbad
    obtain ⟨srv2, h1, h2, h3⟩ := runCasCmd_bad
      { srv with parser := { srv.parser with cmd := bytesTrim buffer } } rw name hb
    exact ⟨srv2, by simp only [h1, Option.map_some'], h2, h3⟩
  | get =>
    rw [hd] at hbad
    have hb : (if (field (fieldsOf cmdGet (bytesTrim buffer)) 0).isEmpty then some (ascii "key")
        else none) = some name := hbad
    have h0 : field (fieldsOf cmdGet (bytesTrim buffer)) 0 = [] := by
      by_cases hx : field (fieldsOf cmdGet (bytesTrim buffer)) 0 = []
      · exact hx
      · have : (field (fieldsOf cmdGet (bytesTrim buffer)) 0).isEmpty = false := by
          simpa using hx
        rw [this] at hb
        cases hb
    have hn : name = ascii "key" := by
      rw [h0] at hb
      exact (Option.some.inj hb).symm
    obtain ⟨srv2, h1, h2, h3⟩ := runGetCmd_bad
      { srv with parser := { srv.parser with cmd := bytesTrim buffer } } h0
    exact ⟨srv2, by simp only [h1, Option.map_some'], hn ▸ h2, h3⟩
  | gets =>
    rw [hd] at hbad
    have hb : (if (field (fieldsOf cmdGets (bytesTrim buffer)) 0).isEmpty then some (ascii "key")
        else none) = some name := hbad
    have h0 : field (fieldsOf cmdGets (bytesTrim buffer)) 0 = [] := by
      by_cases hx : field (fieldsOf cmdGets (bytesTrim buffer)) 0 = []
      · exact hx
      · have : (field (fieldsOf cmdGets (bytesTrim buffer)) 0).isEmpty = false := by
          simpa using hx
        rw [this] at hb
        cases hb
    have hn : name = ascii "key" := by
      rw [h0] at hb
      exact (Option.some.inj hb).symm
    obtain ⟨srv2, h1, h2, h3⟩ := runGetsCmd_bad
      { srv with parser := { srv.parser with cmd := bytesTrim buffer } } h0
    exact ⟨srv2, by simp only [h1, Option.map_some'], hn ▸ h2, h3⟩
  | delete =>
    rw [hd] at hbad
    have hb : (if (field (fieldsOf cmdDelete (bytesTrim buffer)) 0).isEmpty then some (ascii "key")
        else none) = some name := hbad
    have h0 : field (fieldsOf cmdDelete (bytesTrim buffer)) 0 = [] := by
      by_cases hx : field (fieldsOf cmdDelete (bytesTrim buffer)) 0 = []
      · exact hx
      · have : (field (fieldsOf cmdDelete (bytesTrim buffer)) 0).isEmpty = false := by
          simpa using hx
        rw [this] at hb
        cases hb
    have hn : name = ascii "key" := by
      rw [h0] at hb
      exact (Option.some.inj hb).symm
    obtain ⟨srv2, h1, h2, h3⟩ := runDeleteCmd_bad
      { srv with parser := { srv.parser with cmd := bytesTrim buffer } } h0
    exact ⟨srv2, by simp only [h1, Option.map_some'], hn ▸ h2, h3⟩
  | quit => rw [hd] at hknown; cases hknown
  | unknown => rw [hd] at hknown; cases hknown

/-- C14, instance: the line `set k 1 0 0` (no size) gets the reply
`CLIENT_ERROR Cannot parse size` and leaves the cache and the input alone. -/
theorem parse_failure_reply_witness :
    ∃ srv2, handle (NewServer 100) (ascii "set k 1 0 0\r\n") (ascii "abc\r\n") =
        some (srv2, ascii "abc\r\n", true) ∧
      srv2.response = ascii "CLIENT_ERROR Cannot parse size\r\n" ∧
      srv2.cache = (NewServer 100).cache :=
  (parse_failure_reply (NewServer 100) (ascii "set k 1 0 0\r\n") (ascii "abc\r\n")
    (ascii "size") (by decide) (by decide)).1

/-! ## C18: dispatch -/

theorem first2_of_HasPrefix (b pre : Bytes) (x y : UInt8) (rest : Bytes)
    (hpre : pre = x :: y :: rest) (h : HasPrefix b pre = true) : first2 b = some (x, y) := by
  subst hpre
  cases b with
  | nil => simp [HasPrefix] at h
  | cons a t =>
    cases t with
    | nil => simp [HasPrefix] at h
    | cons a2 t2 =>
      simp only [HasPrefix, Bool.and_eq_true, beq_iff_eq] at h
      rw [h.1, h.2.1]
      rfl

theorem first2_of_known (b : Bytes) (c : Command) (hk : isKnown c = true)
    (h : HasPrefix b (commandName c) = true) : first2 b = first2 (commandName c) := by
  cases c with
  | set => exact first2_of_HasPrefix b cmdSet 115 101 [116] (by decide) h
  | add => exact first2_of_HasPrefix b cmdAdd 97 100 [100] (by decide) h
  | replace => exact first2_of_HasPrefix b cmdReplace 114 101 [112, 108, 97, 99, 101] (by decide) h
  | append => exact first2_of_HasPrefix b cmdAppend 97 112 [112, 101, 110, 100] (by decide) h
  | prepend => exact first2_of_HasPrefix b cmdPrepend 112 114 [101, 112, 101, 110, 100] (by decide) h
  | cas => exact first2_of_HasPrefix b cmdCas 99 97 [115] (by decide) h
  | gets => exact first2_of_HasPrefix b cmdGets 103 101 [116, 115] (by decide) h
  | get => exact first2_of_HasPrefix b cmdGet 103 101 [116] (by decide) h
  | delete => exact first2_of_HasPrefix b cmdDelete 100 101 [108, 101, 116, 101] (by decide) h
  | quit => cases hk
  | unknown => cases hk

/-- Two known commands whose names start with the same two bytes are the same
command, or are `get` and `gets`. -/
theorem same_first2 (c d : Command) (hc : isKnown c = true) (hd : isKnown d = true)
    (h : first2 (commandName c) = first2 (commandName d)) :
    c = d ∨ (c = .get ∧ d = .gets) ∨ (c = .gets ∧ d = .get) := by
  cases c <;> cases d <;> first
    | exact Or.inl rfl
    | exact Or.inr (Or.inl ⟨rfl, rfl⟩)
    | exact Or.inr (Or.inr ⟨rfl, rfl⟩)
    | (exfalso; revert h; decide)
    | (exfalso; revert hc; decide)

theorem dispatch_known (b : Bytes) (hk : isKnown (dispatch b) = true) :
    HasPrefix b (commandName (dispatch b)) = true := by
  unfold dispatch at hk ⊢
  by_cases h1 : HasPrefix b cmdSet = true
  · rw [if_pos h1]
    exact h1
  rw [if_neg h1] at hk ⊢
  by_cases h2 : HasPrefix b cmdAdd = true
  · rw [if_pos h2]
    exact h2
  rw [if_neg h2] at hk ⊢
  by_cases h3 : HasPrefix b cmdReplace = true
  · rw [if_pos h3]
    exact h3
  rw [if_neg h3] at hk ⊢
  by_cases h4 : HasPrefix b cmdAppend = true
  · rw [if_pos h4]
    exact h4
  rw [if_neg h4] at hk ⊢
  by_cases h5 : HasPrefix b cmdPrepend = true
  · rw [if_pos h5]
    exact h5
  rw [if_neg h5] at hk ⊢
  by_cases h6 : HasPrefix b cmdCas = true
  · rw [if_pos h6]
    exact h6
  rw [if_neg h6] at hk ⊢
  by_cases h7 : HasPrefix b cmdGets = true
  · rw [if_pos h7]
    exact h7
  rw [if_neg h7] at hk ⊢
  by_cases h8 : HasPrefix b cmdGet = true
  · rw [if_pos h8]
    exact h8
  rw [if_neg h8] at hk ⊢
  by_cases h9 : HasPrefix b cmdDelete = true
  · rw [if_pos h9]
    exact h9
  rw [if_neg h9] at hk ⊢
  by_cases h10 : b.length = 1
  · rw [if_pos h10] at hk
    cases hk
  · rw [if_neg h10] at hk
    cases hk

theorem dispatch_not_known (b : Bytes) (hk : isKnown (dispatch b) = false) (c : Command)
    (hc : isKnown c = true) : HasPrefix b (commandName c) = false := by
  unfold dispatch at hk
  by_cases h1 : HasPrefix b cmdSet = true
  · rw [if_pos h1] at hk
    cases hk
  rw [if_neg h1] at hk
  by_cases h2 : HasPrefix b cmdAdd = true
  · rw [if_pos h2] at hk
    cases hk
  rw [if_neg h2] at hk
  by_cases h3 : HasPrefix b cmdReplace = true
  · rw [if_pos h3] at hk
    cases hk
  rw [if_neg h3] at hk
  by_cases h4 : HasPrefix b cmdAppend = true
  · rw [if_pos h4] at hk
    cases hk
  rw [if_neg h4] at hk
  by_cases h5 : HasPrefix b cmdPrepend = true
  · rw [if_pos h5] at hk
    cases hk
  rw [if_neg h5] at hk
  by_cases h6 : HasPrefix b cmdCas = true
  · rw [if_pos h6] at hk
    cases hk
  rw [if_neg h6] at hk
  by_cases h7 : HasPrefix b cmdGets = true
  · rw [if_pos h7] at hk
    cases hk
  rw [if_neg h7] at hk
  by_cases h8 : HasPrefix b cmdGet = true
  · rw [if_pos h8] at hk
    cases hk
  rw [if_neg h8] at hk
  by_cases h9 : HasPrefix b cmdDelete = true
  · rw [if_pos h9] at hk
    cases hk
  rw [if_neg h9] at hk
  cases c with
  | set => exact Bool.eq_false_iff.mpr h1
  | add => exact Bool.eq_false_iff.mpr h2
  | replace => exact Bool.eq_false_iff.mpr h3
  | append => exact Bool.eq_false_iff.mpr h4
  | prepend => exact Bool.eq_false_iff.mpr h5
  | cas => exact Bool.eq_false_iff.mpr h6
  | gets => exact Bool.eq_false_iff.mpr h7
  | get => exact Bool.eq_false_iff.mpr h8
  | delete => exact Bool.eq_false_iff.mpr h9
  | quit => cases hc
  | unknown => cases hc

theorem dispatch_get_not_gets (b : Bytes) (h : dispatch b = .get) :
    HasPrefix b cmdGets = false := by
  unfold dispatch at h
  by_cases h1 : HasPrefix b cmdSet = true
  · rw [if_pos h1] at h
    cases h
  rw [if_neg h1] at h
  by_cases h2 : HasPrefix b cmdAdd = true
  · rw [if_pos h2] at h
    cases h
  rw [if_neg h2] at h
  by_cases h3 : HasPrefix b cmdReplace = true
  · rw [if_pos h3] at h
    cases h
  rw [if_neg h3] at h
  by_cases h4 : HasPrefix b cmdAppend = true
  · rw [if_pos h4] at h
    cases h
  rw [if_neg h4] at h
  by_cases h5 : HasPrefix b cmdPrepend = true
  · rw [if_pos h5] at h
    cases h
  rw [if_neg h5] at h
  by_cases h6 : HasPrefix b cmdCas = true
  · rw [if_pos h6] at h
    cases h
  rw [if_neg h6] at h
  by_cases h7 : HasPrefix b cmdGets = true
  · rw [if_pos h7] at h
    cases h
  · exact Bool.eq_false_iff.mpr h7

/-- C18 (dispatch): the first-match chain of prefix tests (set, add, replace,
append, prepend, cas, gets, get, delete) selects a vocabulary token that is a
prefix of the line and is at least as long as every other vocabulary token
that is a prefix of it; it selects none only when no vocabulary token is a
prefix; a line beginning with `gets` is handled as `gets`, never as `get`;
and a line that begins with no vocabulary token and is not one byte long
stages exactly `ERROR\r\n`, performs no cache operation and reads no payload
(for instance `foo k`). -/
theorem dispatch_longest_match (buffer : Bytes) :
    (isKnown (dispatch buffer) = true →
      HasPrefix buffer (commandName (dispatch buffer)) = true ∧
      ∀ c, isKnown c = true → HasPrefix buffer (commandName c) = true →
        (commandName c).length ≤ (commandName (dispatch buffer)).length) ∧
    (isKnown (dispatch buffer) = false →
      ∀ c, isKnown c = true → HasPrefix buffer (commandName c) = false) ∧
    (HasPrefix buffer cmdGets = true → dispatch buffer = .gets) ∧
    ((∀ c, isKnown c = true → HasPrefix buffer (commandName c) = false) →
      buffer.length ≠ 1 →
      ∀ srv rw, ∃ srv2, handle srv buffer rw = some (srv2, rw, true) ∧
        srv2.response = ascii "ERROR\r\n" ∧ srv2.cache = srv.cache) ∧
    (∃ srv2, handle (NewServer 100) (ascii "foo k\r\n") [] = some (srv2, [], true) ∧
      srv2.response = ascii "ERROR\r\n" ∧ srv2.cache = (NewServer 100).cache) := by
  have hunknown : (∀ c, isKnown c = true → HasPrefix buffer (commandName c) = false) →
      buffer.length ≠ 1 → dispatch buffer = .unknown := by
    intro hno hlen
    have h1 := hno .set rfl
    have h2 := hno .add rfl
    have h3 := hno .replace rfl
    have h4 := hno .append rfl
    have h5 := hno .prepend rfl
    have h6 := hno .cas rfl
    have h7 := hno .gets rfl
    have h8 := hno .get rfl
    have h9 := hno .delete rfl
    simp only [commandName] at h1 h2 h3 h4 h5 h6 h7 h8 h9
    simp [dispatch, h1, h2, h3, h4, h5, h6, h7, h8, h9, hlen]
  refine ⟨?_, dispatch_not_known buffer, ?_, ?_, ?_⟩
  · intro hk
    refine ⟨dispatch_known buffer hk, ?_⟩
    intro c hc hpre
    have e1 := first2_of_known buffer c hc hpre
    have e2 := first2_of_known buffer _ hk (dispatch_known buffer hk)
    rcases same_first2 c (dispatch buffer) hc hk (e1.symm.trans e2) with h | ⟨h1, h2⟩ | ⟨h1, h2⟩
    · rw [h]
    · rw [h1, h2]
      decide
    · have := dispatch_get_not_gets buffer h2
      rw [h1] at hpre
      simp only [commandName] at hpre
      rw [this] at hpre
      cases hpre
  · intro hg
    by_cases hk : isKnown (dispatch buffer) = true
    · have e1 := first2_of_known buffer .gets rfl hg
      have e2 := first2_of_known buffer _ hk (dispatch_known buffer hk)
      rcases same_first2 .gets (dispatch buffer) rfl hk (e1.symm.trans e2) with
        h | ⟨h1, _⟩ | ⟨_, h2⟩
      · exact h.symm
      · cases h1
      · have := dispatch_get_not_gets buffer h2
        rw [this] at hg
        cases hg
    · have hk2 : isKnown (dispatch buffer) = false := by simpa using hk
      have := dispatch_not_known buffer hk2 .gets rfl
      simp only [commandName] at this
      rw [this] at hg
      cases hg
  · intro hno hlen srv rw
    have hd := hunknown hno hlen
    refine ⟨handleError { srv with parser := { srv.parser with cmd := bytesTrim buffer } },
      ?_, ?_, rfl⟩
    · simp only [handle, hd]
    · show msgError = ascii "ERROR\r\n"
      decide
  · refine ⟨handleError { (NewServer 100) with
        parser := { (NewServer 100).parser with cmd := bytesTrim (ascii "foo k\r\n") } },
      ?_, ?_, rfl⟩
    · have hd : dispatch (ascii "foo k\r\n") = .unknown := by decide
      simp only [handle, hd]
    · show msgError = ascii "ERROR\r\n"
      decide

/-! ## Lines as the clients emit them -/

theorem splitSpaces_append_space (t rest : Bytes) (h : ∀ c ∈ t, c ≠ space) :
    splitSpaces (t ++ space :: rest) = t :: splitSpaces rest := by
  induction t with
  | nil => simp [splitSpaces]
  | cons c cs ih =>
    have hc : c ≠ space := h c (List.mem_cons_self _ _)
    have ih2 := ih (fun x hx => h x (List.mem_cons_of_mem _ hx))
    show splitSpaces (c :: (cs ++ space :: rest)) = (c :: cs) :: splitSpaces rest
    simp only [splitSpaces, hc, if_false, ih2]

theorem splitSpaces_no_space (t : Bytes) (h : ∀ c ∈ t, c ≠ space) : splitSpaces t = [t] := by
  induction t with
  | nil => rfl
  | cons c cs ih =>
    have hc : c ≠ space := h c (List.mem_cons_self _ _)
    have ih2 := ih (fun x hx => h x (List.mem_cons_of_mem _ hx))
    simp only [splitSpaces, hc, if_false, ih2]

/-- Trimming the line terminator from a line that neither starts nor ends
with a carriage return or line feed gives the line back. -/
theorem bytesTrim_line (a z : UInt8) (mid : Bytes) (ha : isCRLF a = false)
    (hz : isCRLF z = false) :
    bytesTrim (a :: (mid ++ [z]) ++ [13, 10]) = a :: (mid ++ [z]) := by
  unfold bytesTrim
  have h1 : (a :: (mid ++ [z]) ++ [13, 10]).dropWhile isCRLF = a :: (mid ++ [z]) ++ [13, 10] := by
    simp [List.dropWhile_cons, ha]
  rw [h1]
  have h2 : a :: (mid ++ [z]) ++ [13, 10] = ((a :: mid ++ [z]) ++ [13]) ++ [10] := by simp
  rw [h2, List.rdropWhile_concat_pos _ _ _ (by decide), List.rdropWhile_concat_pos _ _ _ (by decide),
    List.rdropWhile_concat_neg _ _ _ (by simp [hz])]
  simp

theorem bytesTrim_line_of (l : Bytes) (a : UInt8) (t : Bytes) (hl : l = a :: t)
    (ha : isCRLF a = false) (hne : t ≠ [])
    (hlast : isCRLF (t.getLast hne) = false) :
    bytesTrim (l ++ [13, 10]) = l := by
  subst hl
  have ht : t = t.dropLast ++ [t.getLast hne] := (List.dropLast_append_getLast hne).symm
  have := bytesTrim_line a (t.getLast hne) t.dropLast ha hlast
  rw [← ht] at this
  exact this

/-! ## C17: replies to `get` and `gets` -/

theorem keyToken_ne_nil {k : Bytes} (h : keyToken k = true) : k ≠ [] := by
  intro h0
  rw [h0] at h
  simp [keyToken] at h

theorem keyToken_no_space {k : Bytes} (h : keyToken k = true) : ∀ c ∈ k, c ≠ space := by
  intro c hc
  simp only [keyToken, Bool.and_eq_true, List.all_eq_true, bne_iff_ne, ne_eq] at h
  exact (h.2 c hc).1.1

theorem keyToken_concat {k0 : Bytes} {z : UInt8} (h : keyToken (k0 ++ [z]) = true) :
    isCRLF z = false := by
  simp only [keyToken, Bool.and_eq_true, List.all_eq_true, bne_iff_ne, ne_eq] at h
  have hz := h.2 z (by simp)
  simp [isCRLF, hz.1.2, hz.2]

theorem field_zero_of_key (k : Bytes) (h : keyToken k = true) : field (splitSpaces k) 0 = k := by
  rw [splitSpaces_no_space k (keyToken_no_space h)]
  rfl

/-- The trimmed line and the key field of `<pre><k>\r\n` where `pre` is a
command name followed by a space. -/
theorem key_line (pre k : Bytes) (a : UInt8) (t : Bytes) (hpre : pre = a :: t)
    (ha : isCRLF a = false) (hk : keyToken k = true) :
    bytesTrim (pre ++ k ++ [13, 10]) = pre ++ k := by
  subst hpre
  rcases List.eq_nil_or_concat k with h0 | ⟨k0, z, hkz⟩
  · exact absurd h0 (keyToken_ne_nil hk)
  · rw [List.concat_eq_append] at hkz
    subst hkz
    have hz := keyToken_concat hk
    have := bytesTrim_line a z (t ++ k0) ha hz
    simpa [List.append_assoc] using this

theorem runGetCmd_key (srv : Server) (k : Bytes) (hk : keyToken k = true)
    (hcmd : field (fieldsOf cmdGet srv.parser.cmd) 0 = k) :
    ∃ srv2, runGetCmd srv = some srv2 ∧ srv2.cache = srv.cache ∧
      srv2.response =
        if (Get srv.cache (goString k)).ok = true then
          ascii "VALUE " ++ k ++ ascii " " ++ decimal (Get srv.cache (goString k)).flags ++
            ascii " " ++ decimal (Get srv.cache (goString k)).size ++ ascii " \r\n" ++
            (Get srv.cache (goString k)).value ++ ascii "\r\nEND\r\n"
        else strEnd := by
  have hne : ¬ field (fieldsOf cmdGet srv.parser.cmd) 0 = [] := by
    rw [hcmd]
    exact keyToken_ne_nil hk
  unfold runGetCmd ParseGetCmd
  rw [parseKeyCmd_eq, if_neg hne]
  simp only [Option.some_bind, Bool.true_eq_false, if_false, Option.getD_some, hcmd]
  by_cases hok : (Get srv.cache (goString k)).ok = true
  · simp only [hok, if_true]
    exact ⟨_, rfl, rfl, rfl⟩
  · simp only [hok, if_false]
    exact ⟨_, rfl, rfl, rfl⟩

theorem runGetsCmd_key (srv : Server) (k : Bytes) (hk : keyToken k = true)
    (hcmd : field (fieldsOf cmdGets srv.parser.cmd) 0 = k) :
    ∃ srv2, runGetsCmd srv = some srv2 ∧ srv2.cache = srv.cache ∧
      srv2.response =
        if (Gets srv.cache (goString k)).ok = true then
          ascii "VALUE " ++ k ++ ascii " " ++ decimal (Gets srv.cache (goString k)).flags ++
            ascii " " ++ decimal (Gets srv.cache (goString k)).size ++ ascii " " ++
            decimal (Gets srv.cache (goString k)).casid ++ ascii " \r\n" ++
            (Gets srv.cache (goString k)).value ++ ascii "\r\nEND\r\n"
        else srv.response := by
  have hne : ¬ field (fieldsOf cmdGets srv.parser.cmd) 0 = [] := by
    rw [hcmd]
    exact keyToken_ne_nil hk
  unfold runGetsCmd ParseGetsCmd
  rw [parseKeyCmd_eq, if_neg hne]
  simp only [Option.some_bind, Bool.true_eq_false, if_false, Option.getD_some, hcmd]
  by_cases hok : (Gets srv.cache (goString k)).ok = true
  · simp only [hok, if_true]
    exact ⟨_, rfl, rfl, rfl⟩
  · simp only [hok, if_false]
    exact ⟨_, rfl, rfl, rfl⟩

/-- Retrieval replies, for every server state and every key `k` (not empty,
without space, carriage return or line feed): the command line `get k`
stages exactly `VALUE <k> <flags> <size> \r\n<value>\r\nEND\r\n` when `k` is
present, with the flags, size `len(value)` and value the cache holds, and
exactly `END\r\n` when `k` is absent; the command line `gets k` stages
exactly `VALUE <k> <flags> <size> <casid> \r\n<value>\r\nEND\r\n` when present
and assigns nothing when absent, so that the response stays what it was
before the line was dispatched.  Neither command changes the cache or reads
from the input. -/
theorem retrieval_reply (srv : Server) (k rw : Bytes) (hk : keyToken k = true) :
    (∃ srv2, handle srv (ascii "get " ++ k ++ ascii "\r\n") rw = some (srv2, rw, true) ∧
      srv2.cache = srv.cache ∧
      srv2.response =
        if (Get srv.cache (goString k)).ok = true then
          ascii "VALUE " ++ k ++ ascii " " ++ decimal (Get srv.cache (goString k)).flags ++
            ascii " " ++ decimal (Get srv.cache (goString k)).value.length ++ ascii " \r\n" ++
            (Get srv.cache (goString k)).value ++ ascii "\r\nEND\r\n"
        else ascii "END\r\n") ∧
    (∃ srv2, handle srv (ascii "gets " ++ k ++ ascii "\r\n") rw = some (srv2, rw, true) ∧
      srv2.cache = srv.cache ∧
      srv2.response =
        if (Gets srv.cache (goString k)).ok = true then
          ascii "VALUE " ++ k ++ ascii " " ++ decimal (Gets srv.cache (goString k)).flags ++
            ascii " " ++ decimal (Gets srv.cache (goString k)).value.length ++ ascii " " ++
            decimal (Gets srv.cache (goString k)).casid ++ ascii " \r\n" ++
            (Gets srv.cache (goString k)).value ++ ascii "\r\nEND\r\n"
        else srv.response) := by
  have hget : ascii "get " = [103, 101, 116, 32] := by decide
  have hgets : ascii "gets " = [103, 101, 116, 115, 32] := by decide
  have hcrlf : ascii "\r\n" = [13, 10] := by decide
  have hend : ascii "END\r\n" = strEnd := by decide
  rw [hget, hgets, hcrlf]
  obtain ⟨c, cs, hkc⟩ : ∃ c cs, k = c :: cs := by
    cases k with
    | nil => exact absurd rfl (keyToken_ne_nil hk)
    | cons c cs => exact ⟨c, cs, rfl⟩
  have hc : c ≠ space := keyToken_no_space hk c (by rw [hkc]; exact List.mem_cons_self _ _)
  refine ⟨?_, ?_⟩
  · have htrim := key_line [103, 101, 116, 32] k 103 [101, 116, 32] rfl (by decide) hk
    have hd : dispatch ([103, 101, 116, 32] ++ k ++ [13, 10]) = .get := by
      rw [hkc]
      rfl
    have hf : field (fieldsOf cmdGet ([103, 101, 116, 32] ++ k)) 0 = k := field_zero_of_key k hk
    obtain ⟨srv2, h1, h2, h3⟩ := runGetCmd_key
      { srv with parser := { srv.parser with cmd := bytesTrim ([103, 101, 116, 32] ++ k ++ [13, 10]) } }
      k hk (by rw [htrim]; exact hf)
    refine ⟨srv2, ?_, h2, ?_⟩
    · simp only [handle, hd, h1, Option.map_some']
    · rw [h3, hend]
      have hsize : (Get srv.cache (goString k)).size = (Get srv.cache (goString k)).value.length := by
        unfold Get
        split <;> rfl
      rw [hsize]
  · have htrim := key_line [103, 101, 116, 115, 32] k 103 [101, 116, 115, 32] rfl (by decide) hk
    have hd : dispatch ([103, 101, 116, 115, 32] ++ k ++ [13, 10]) = .gets := rfl
    have hf : field (fieldsOf cmdGets ([103, 101, 116, 115, 32] ++ k)) 0 = k :=
      field_zero_of_key k hk
    obtain ⟨srv2, h1, h2, h3⟩ := runGetsCmd_key
      { srv with parser := { srv.parser with cmd := bytesTrim ([103, 101, 116, 115, 32] ++ k ++ [13, 10]) } }
      k hk (by rw [htrim]; exact hf)
    refine ⟨srv2, ?_, h2, ?_⟩
    · simp only [handle, hd, h1, Option.map_some']
    · rw [h3]
      have hsize : (Gets srv.cache (goString k)).size =
          (Gets srv.cache (goString k)).value.length := by
        unfold Gets
        split <;> rfl
      rw [hsize]

/-- Retrieval replies on a fresh server: after `Set("k", "abc", flags = 7)`
the line `get k` is answered `VALUE k 7 3 \r\nabc\r\nEND\r\n`, `gets k` adds
the casid 0, `get z` is answered `END\r\n` and `gets z` leaves the response
empty, as it was. -/
theorem retrieval_reply_witness :
    (∃ srv2, handle { NewServer 100 with cache := Set (NewCache 100) "k" (ascii "abc") 1 7 0 }
        (ascii "get " ++ ascii "k" ++ ascii "\r\n") [] = some (srv2, [], true) ∧
      srv2.response = ascii "VALUE k 7 3 \r\nabc\r\nEND\r\n") ∧
    (∃ srv2, handle { NewServer 100 with cache := Set (NewCache 100) "k" (ascii "abc") 1 7 0 }
        (ascii "gets " ++ ascii "k" ++ ascii "\r\n") [] = some (srv2, [], true) ∧
      srv2.response = ascii "VALUE k 7 3 0 \r\nabc\r\nEND\r\n") ∧
    (∃ srv2, handle { NewServer 100 with cache := Set (NewCache 100) "k" (ascii "abc") 1 7 0 }
        (ascii "get " ++ ascii "z" ++ ascii "\r\n") [] = some (srv2, [], true) ∧
      srv2.response = ascii "END\r\n") ∧
    (∃ srv2, handle { NewServer 100 with cache := Set (NewCache 100) "k" (ascii "abc") 1 7 0 }
        (ascii "gets " ++ ascii "z" ++ ascii "\r\n") [] = some (srv2, [], true) ∧
      srv2.response = []) := by
  have hk := retrieval_reply
    { NewServer 100 with cache := Set (NewCache 100) "k" (ascii "abc") 1 7 0 }
    (ascii "k") [] (by decide)
  have hz := retrieval_reply
    { NewServer 100 with cache := Set (NewCache 100) "k" (ascii "abc") 1 7 0 }
    (ascii "z") [] (by decide)
  obtain ⟨⟨a, ha1, _, ha3⟩, ⟨b, hb1, _, hb3⟩⟩ := hk
  obtain ⟨⟨c, hc1, _, hc3⟩, ⟨d, hd1, _, hd3⟩⟩ := hz
  refine ⟨⟨a, ha1, ?_⟩, ⟨b, hb1, ?_⟩, ⟨c, hc1, ?_⟩, ⟨d, hd1, ?_⟩⟩
  · rw [ha3]
    decide
  · rw [hb3]
    decide
  · rw [hc3]
    decide
  · rw [hd3]
    decide

/-- The response is empty at dispatch in every pass that follows a pass
whose reply was written: the loop clears it. -/
theorem writeReply_clears (srv : Server) :
    (writeReply srv true).1.response = [] ∧ (writeReply srv true).2.1 = srv.response ∧
    (writeReply srv false).1.response = srv.response ∧ (writeReply srv false).2.2 = false :=
  ⟨rfl, rfl, rfl, rfl⟩

/-- C17 (retrieval reply format) evaluated on the code: a `gets` miss assigns
no response, so what is sent is whatever the response held at dispatch.  On a
server holding `k` (value `abc`, flags 7) a handler stages the reply to
`get k`, its write fails and it returns without clearing the response; the
next handler receives `gets z`, `z` is absent, and the bytes written are
`VALUE k 7 3 \r\nabc\r\nEND\r\n` instead of none.  When the first write
succeeds the same `gets z` is answered with no bytes. -/
theorem gets_miss_sends_stale_reply :
    ((handle { NewServer 100 with cache := Set (NewCache 100) "k" (ascii "abc") 1 7 0 }
        (ascii "get k\r\n") []).bind fun r1 =>
      (handle (writeReply r1.1 false).1 (ascii "gets z\r\n") []).map fun r2 =>
        ((writeReply r1.1 false).2.2, (Gets r2.1.cache "z").ok, (writeReply r2.1 true).2.1)) =
      some (false, false, ascii "VALUE k 7 3 \r\nabc\r\nEND\r\n") ∧
    ((handle { NewServer 100 with cache := Set (NewCache 100) "k" (ascii "abc") 1 7 0 }
        (ascii "get k\r\n") []).bind fun r1 =>
      (handle (writeReply r1.1 true).1 (ascii "gets z\r\n") []).map fun r2 =>
        ((Gets r2.1.cache "z").ok, (writeReply r2.1 true).2.1)) = some (false, []) := by
  decide

/-! ## C13: reading the payload -/

theorem readAllLimit_exact (rw : Bytes) (n : Nat) (hn : n < 2 ^ 63) (hlen : n ≤ rw.length) :
    (readAllLimit rw (toInt64 n)).1 = rw.take n ∧
    (readAllLimit rw (toInt64 n)).1.length = n ∧
    (readAllLimit rw (toInt64 n)).2 = rw.drop n := by
  have hmod : n % u64 = n := Nat.mod_eq_of_lt (Nat.lt_trans hn (by decide))
  have h64 : toInt64 n = (n : Int) := by
    unfold toInt64
    rw [hmod, if_pos hn]
  rw [h64]
  unfold readAllLimit
  by_cases h0 : n = 0
  · subst h0
    simp
  · have hpos : ¬ ((n : Int) ≤ 0) := by omega
    simp only [hpos, if_false, Int.toNat_ofNat, List.length_take]
    exact ⟨trivial, Nat.min_eq_left hlen, trivial⟩

/-- The part of the payload contract that holds: when the header of a `set`
line parses with size `N < 2^63` and at least `N` bytes of input follow, the
handler passes to the cache exactly the next `N` bytes and leaves the input
after them.  The key is the parsed token, that is, the pass is one in which
the payload read does not refill the buffer under the key window. -/
theorem runSetCmd_full_payload (srv : Server) (rw : Bytes)
    (hgood : firstBadStoreField false (fieldsOf cmdSet srv.parser.cmd) = none)
    (hn : digitsValue (field (fieldsOf cmdSet srv.parser.cmd) 4) < 2 ^ 63)
    (hlen : digitsValue (field (fieldsOf cmdSet srv.parser.cmd) 4) ≤ rw.length) :
    ∃ srv2, runSetCmd srv rw =
        some (srv2, rw.drop (digitsValue (field (fieldsOf cmdSet srv.parser.cmd) 4))) ∧
      srv2.response = msgStored ∧
      srv2.cache = Set srv.cache (goString (field (fieldsOf cmdSet srv.parser.cmd) 0))
        (rw.take (digitsValue (field (fieldsOf cmdSet srv.parser.cmd) 4)))
        (digitsValue (field (fieldsOf cmdSet srv.parser.cmd) 1))
        (digitsValue (field (fieldsOf cmdSet srv.parser.cmd) 2))
        (digitsValue (field (fieldsOf cmdSet srv.parser.cmd) 3)) ∧
      (rw.take (digitsValue (field (fieldsOf cmdSet srv.parser.cmd) 4))).length =
        digitsValue (field (fieldsOf cmdSet srv.parser.cmd) 4) := by
  have hdec : decide (cmdSet = cmdCas) = false := by decide
  obtain ⟨p2, hp, _, _⟩ := parseStoreCmd_good srv.parser cmdSet (by rw [hdec]; exact hgood)
  obtain ⟨e1, e2, e3⟩ := readAllLimit_exact rw _ hn hlen
  refine ⟨{ srv with
      parser := p2
      cache := Set srv.cache (goString (field (fieldsOf cmdSet srv.parser.cmd) 0))
        (rw.take (digitsValue (field (fieldsOf cmdSet srv.parser.cmd) 4)))
        (digitsValue (field (fieldsOf cmdSet srv.parser.cmd) 1))
        (digitsValue (field (fieldsOf cmdSet srv.parser.cmd) 2))
        (digitsValue (field (fieldsOf cmdSet srv.parser.cmd) 3))
      response := msgStored }, ?_, rfl, rfl, ?_⟩
  · unfold runSetCmd ParseSetCmd
    rw [hp]
    simp only [Option.some_bind, Bool.true_eq_false, if_false, Option.getD_some, e1, e3]
  · rw [← e1]
    exact e2

/-- C13 (exact payload consumption) evaluated on the code: the header
`set k 1 0 0 5` announces 5 payload bytes but the input ends after `ab`.
`ReadAll` reports no error at the end of the input, so the handler calls
`Set("k", "ab", …)` with the 2 bytes it got, stages `STORED\r\n` and goes on
with its loop. -/
theorem short_payload_is_stored :
    (handle (NewServer 100) (ascii "set k 1 0 0 5\r\n") (ascii "ab")).map
      (fun r => (r.1.response, r.2.1, r.2.2, Get r.1.cache "k")) =
    some (ascii "STORED\r\n", [], true,
      { value := ascii "ab", flags := 0, size := 2, ok := true }) := by
  decide

/-! ## Decimal rendering and its inverse -/

theorem digit_toNat (d : Nat) (h : d < 10) : (UInt8.ofNat (48 + d)).toNat = 48 + d := by
  interval_cases d <;> rfl

theorem isDigit_digit (d : Nat) (h : d < 10) : isDigit (UInt8.ofNat (48 + d)) = true := by
  interval_cases d <;> rfl

theorem digitsValue_cons (c : UInt8) (s : Bytes) :
    digitsValue (c :: s) = (c.toNat - 48) * 10 ^ s.length + digitsValue s := by
  have key : ∀ (s : Bytes) (a : Nat),
      s.foldl (fun acc c => 10 * acc + (c.toNat - 48)) a =
        a * 10 ^ s.length + s.foldl (fun acc c => 10 * acc + (c.toNat - 48)) 0 := by
    intro s
    induction s with
    | nil => intro a; simp
    | cons x xs ih =>
      intro a
      simp only [List.foldl_cons, List.length_cons]
      rw [ih (10 * a + (x.toNat - 48)), ih (10 * 0 + (x.toNat - 48))]
      ring
  unfold digitsValue
  simp only [List.foldl_cons]
  rw [key s (10 * 0 + (c.toNat - 48))]
  simp

theorem decimalCore_all_digits (fuel n : Nat) (acc : Bytes) (hacc : acc.all isDigit = true) :
    (decimalCore fuel n acc).all isDigit = true := by
  induction fuel generalizing n acc with
  | zero => exact hacc
  | succ fuel ih =>
    have hd : isDigit (UInt8.ofNat (48 + n % 10)) = true :=
      isDigit_digit _ (Nat.mod_lt _ (by decide))
    have hacc2 : (UInt8.ofNat (48 + n % 10) :: acc).all isDigit = true := by
      simp only [List.all_cons, hd, hacc, Bool.and_self]
    unfold decimalCore
    split
    · exact hacc2
    · exact ih _ _ hacc2

theorem decimalCore_ne_nil (fuel n : Nat) (acc : Bytes) (h : acc ≠ [] ∨ 0 < fuel) :
    decimalCore fuel n acc ≠ [] := by
  induction fuel generalizing n acc with
  | zero =>
    rcases h with h | h
    · exact h
    · exact absurd h (Nat.lt_irrefl 0)
  | succ fuel ih =>
    unfold decimalCore
    split
    · simp
    · exact ih _ _ (Or.inl (by simp))

theorem decimalCore_value (fuel n : Nat) (acc : Bytes) (hfuel : n < fuel) :
    digitsValue (decimalCore fuel n acc) = n * 10 ^ acc.length + digitsValue acc := by
  induction fuel generalizing n acc with
  | zero => exact absurd hfuel (Nat.not_lt_zero n)
  | succ fuel ih =>
    have hd : (UInt8.ofNat (48 + n % 10)).toNat - 48 = n % 10 := by
      rw [digit_toNat _ (Nat.mod_lt _ (by decide))]
      omega
    unfold decimalCore
    split
    · next h0 =>
      rw [digitsValue_cons, hd]
      have : n % 10 = n := by omega
      rw [this]
    · next h0 =>
      have hlt : n / 10 < fuel := by omega
      rw [ih (n / 10) _ hlt, digitsValue_cons, hd]
      simp only [List.length_cons, pow_succ]
      have hn : n = 10 * (n / 10) + n % 10 := (Nat.div_add_mod n 10).symm
      generalize hq : n / 10 = q at hn ⊢
      generalize hr : n % 10 = r at hn ⊢
      rw [hn]
      ring

theorem decimal_all_digits (n : Nat) : (decimal n).all isDigit = true :=
  decimalCore_all_digits _ _ _ rfl

theorem decimal_ne_nil (n : Nat) : decimal n ≠ [] :=
  decimalCore_ne_nil _ _ _ (Or.inr (Nat.succ_pos n))

theorem digitsValue_decimal (n : Nat) : digitsValue (decimal n) = n := by
  unfold decimal
  rw [decimalCore_value _ _ _ (Nat.lt_succ_self n)]
  simp [digitsValue]

theorem decimal_no_space (n : Nat) : ∀ c ∈ decimal n, c ≠ space := by
  intro c hc
  have h := decimal_all_digits n
  rw [List.all_eq_true] at h
  have hd := h c hc
  intro hs
  rw [hs] at hd
  exact absurd hd (by decide)

theorem validUint_decimal (n : Nat) (h : n < u64) : validUint (decimal n) = true := by
  unfold validUint
  have h1 : (decimal n).isEmpty = false := by
    cases hd : decimal n with
    | nil => exact absurd hd (decimal_ne_nil n)
    | cons c cs => rfl
  simp only [h1, Bool.not_false, decimal_all_digits, Bool.and_self, Bool.true_and,
    digitsValue_decimal, decide_eq_true_eq]
  exact h

/-! ## C15: the store header round trip -/

theorem drop_name (name rest : Bytes) :
    (name ++ space :: rest).drop (name.length + 1) = rest := by
  induction name with
  | nil => rfl
  | cons c cs ih => exact ih

theorem keyToken_isEmpty {k : Bytes} (h : keyToken k = true) : k.isEmpty = false := by
  cases k with
  | nil => simp [keyToken] at h
  | cons c cs => rfl

/-- A line whose first six fields are a key and decimal numbers parses to
those values. -/
theorem parseStoreCmd_of_fields (p : Parser) (name k : Bytes)
    (priority flags exptime size casid : Nat)
    (hk : keyToken k = true) (h1 : priority < u64) (h2 : flags < u64) (h3 : exptime < u64)
    (h4 : size < u64) (h5 : casid < u64)
    (f0 : field (fieldsOf name p.cmd) 0 = k)
    (f1 : field (fieldsOf name p.cmd) 1 = decimal priority)
    (f2 : field (fieldsOf name p.cmd) 2 = decimal flags)
    (f3 : field (fieldsOf name p.cmd) 3 = decimal exptime)
    (f4 : field (fieldsOf name p.cmd) 4 = decimal size)
    (f5 : name = cmdCas → field (fieldsOf name p.cmd) 5 = decimal casid) :
    ∃ p2, parseStoreCmd p name = some (p2, ⟨some k, priority, flags, exptime, size,
      if name = cmdCas then casid else 0, true⟩) := by
  have hgood : firstBadStoreField (decide (name = cmdCas)) (fieldsOf name p.cmd) = none := by
    unfold firstBadStoreField
    rw [f0, f1, f2, f3, f4]
    simp only [keyToken_isEmpty hk, validUint_decimal _ h1, validUint_decimal _ h2,
      validUint_decimal _ h3, validUint_decimal _ h4, Bool.not_true, Bool.false_eq_true,
      if_false]
    by_cases hc : name = cmdCas
    · rw [f5 hc, validUint_decimal _ h5]
      simp
    · simp [hc]
  obtain ⟨p2, hp, _, _⟩ := parseStoreCmd_good p name hgood
  refine ⟨p2, ?_⟩
  rw [hp, f0, f1, f2, f3, f4]
  simp only [digitsValue_decimal]
  by_cases hc : name = cmdCas
  · rw [f5 hc]
    simp only [digitsValue_decimal]
  · simp only [hc, if_false]

theorem roundTrips_parseStoreCmd (name : Bytes) (a : UInt8) (t : Bytes) (hname : name = a :: t)
    (ha : isCRLF a = false) : RoundTrips (fun p => parseStoreCmd p name) name := by
  intro p k priority flags exptime size casid hk h1 h2 h3 h4 h5
  have nk := keyToken_no_space hk
  have n1 := decimal_no_space priority
  have n2 := decimal_no_space flags
  have n3 := decimal_no_space exptime
  have n4 := decimal_no_space size
  have n5 := decimal_no_space casid
  have hsp : isCRLF space = false := by decide
  by_cases hc : name = cmdCas
  · have hh : storeHeader name k priority flags exptime size casid =
        name ++ space :: (k ++ space :: (decimal priority ++ space :: (decimal flags ++
          space :: (decimal exptime ++ space :: (decimal size ++ space :: decimal casid))))) := by
      simp only [storeHeader, if_pos hc]
    have htrim : bytesTrim (clientStoreLine name k priority flags exptime size casid) =
        name ++ space :: (k ++ space :: (decimal priority ++ space :: (decimal flags ++
          space :: (decimal exptime ++ space :: (decimal size ++ space ::
            (decimal casid ++ space :: [])))))) := by
      unfold clientStoreLine
      rw [hh, hname]
      have := bytesTrim_line a space (t ++ space :: (k ++ space :: (decimal priority ++
        space :: (decimal flags ++ space :: (decimal exptime ++ space :: (decimal size ++
          space :: decimal casid)))))) ha hsp
      simpa [List.append_assoc] using this
    refine ⟨?_, ?_⟩
    · apply parseStoreCmd_of_fields _ name k priority flags exptime size casid hk h1 h2 h3 h4 h5
      all_goals
        simp only [fieldsOf, htrim, drop_name, splitSpaces_append_space _ _ nk,
          splitSpaces_append_space _ _ n1, splitSpaces_append_space _ _ n2,
          splitSpaces_append_space _ _ n3, splitSpaces_append_space _ _ n4,
          splitSpaces_append_space _ _ n5]
      all_goals first
        | rfl
        | (intro _; rfl)
    · apply parseStoreCmd_of_fields _ name k priority flags exptime size casid hk h1 h2 h3 h4 h5
      all_goals
        simp only [fieldsOf, hh, drop_name, splitSpaces_append_space _ _ nk,
          splitSpaces_append_space _ _ n1, splitSpaces_append_space _ _ n2,
          splitSpaces_append_space _ _ n3, splitSpaces_append_space _ _ n4,
          splitSpaces_no_space _ n5]
      all_goals first
        | rfl
        | (intro _; rfl)
  · have hh : storeHeader name k priority flags exptime size casid =
        name ++ space :: (k ++ space :: (decimal priority ++ space :: (decimal flags ++
          space :: (decimal exptime ++ space :: decimal size)))) := by
      simp only [storeHeader, if_neg hc]
    have htrim : bytesTrim (clientStoreLine name k priority flags exptime size casid) =
        name ++ space :: (k ++ space :: (decimal priority ++ space :: (decimal flags ++
          space :: (decimal exptime ++ space :: (decimal size ++ space :: []))))) := by
      unfold clientStoreLine
      rw [hh, hname]
      have := bytesTrim_line a space (t ++ space :: (k ++ space :: (decimal priority ++
        space :: (decimal flags ++ space :: (decimal exptime ++ space :: decimal size)))))
        ha hsp
      simpa [List.append_assoc] using this
    refine ⟨?_, ?_⟩
    · apply parseStoreCmd_of_fields _ name k priority flags exptime size casid hk h1 h2 h3 h4 h5
      all_goals
        simp only [fieldsOf, htrim, drop_name, splitSpaces_append_space _ _ nk,
          splitSpaces_append_space _ _ n1, splitSpaces_append_space _ _ n2,
          splitSpaces_append_space _ _ n3, splitSpaces_append_space _ _ n4]
      all_goals first
        | rfl
        | (intro h; exact absurd h hc)
    · apply parseStoreCmd_of_fields _ name k priority flags exptime size casid hk h1 h2 h3 h4 h5
      all_goals
        simp only [fieldsOf, hh, drop_name, splitSpaces_append_space _ _ nk,
          splitSpaces_append_space _ _ n1, splitSpaces_append_space _ _ n2,
          splitSpaces_append_space _ _ n3, splitSpaces_no_space _ n4]
      all_goals first
        | rfl
        | (intro h; exact absurd h hc)

/-- C15 (store-header round trip): for each of the six store commands, every
key that is not empty and has no space, carriage return or line feed, and all
64-bit unsigned priority, flags, exptime, size (and casid for `cas`), the
parse entry point of the command applied to the header line the client emits
(`<cmd> <key> <priority> <flags> <exptime> <size> [<casid>] \r\n`, trimmed of
its line terminator as the handler does) succeeds and returns exactly that
key and those numbers, and the same holds for the line without the trailing
space.  In particular `set k 1 0 0 3 ` parses with `size = 3`. -/
theorem store_header_round_trip :
    RoundTrips ParseSetCmd cmdSet ∧ RoundTrips ParseAddCmd cmdAdd ∧
    RoundTrips ParseReplaceCmd cmdReplace ∧ RoundTrips ParseAppendCmd cmdAppend ∧
    RoundTrips ParsePrependCmd cmdPrepend ∧ RoundTrips ParseCasCmd cmdCas ∧
    (ParseSetCmd ⟨bytesTrim (ascii "set k 1 0 0 3 \r\n"), [], 0⟩).map (fun r => r.2) =
      some ⟨some (ascii "k"), 1, 0, 0, 3, 0, true⟩ :=
  ⟨roundTrips_parseStoreCmd cmdSet 115 [101, 116] rfl (by decide),
   roundTrips_parseStoreCmd cmdAdd 97 [100, 100] rfl (by decide),
   roundTrips_parseStoreCmd cmdReplace 114 [101, 112, 108, 97, 99, 101] rfl (by decide),
   roundTrips_parseStoreCmd cmdAppend 97 [112, 112, 101, 110, 100] rfl (by decide),
   roundTrips_parseStoreCmd cmdPrepend 112 [114, 101, 112, 101, 110, 100] rfl (by decide),
   roundTrips_parseStoreCmd cmdCas 99 [97, 115] rfl (by decide),
   by decide⟩

/-- C15, instance: the header the client emits for
`cas key 7 9 0 <5 bytes> casid 12345678901234567890` parses back to exactly
these values. -/
theorem store_header_round_trip_witness :
    clientStoreLine cmdCas (ascii "key") 7 9 0 5 12345678901234567890 =
      ascii "cas key 7 9 0 5 12345678901234567890 \r\n" ∧
    ∃ p2, ParseCasCmd { (⟨[], [], 0⟩ : Parser) with
        cmd := bytesTrim (clientStoreLine cmdCas (ascii "key") 7 9 0 5 12345678901234567890) } =
      some (p2, ⟨some (ascii "key"), 7, 9, 0, 5,
        if cmdCas = cmdCas then 12345678901234567890 else 0, true⟩) :=
  ⟨by decide,
   (store_header_round_trip.2.2.2.2.2.1 ⟨[], [], 0⟩ (ascii "key") 7 9 0 5 12345678901234567890
     (by decide) (by decide) (by decide) (by decide) (by decide) (by decide)).1⟩

/-! ## In-place writes keep the position -/

theorem keepsPosition_store (s : Cache) (h : Handle) (ent : Entry) (len : Int)
    (hk : ent.key = (s.heap h).key) (hf : ent.flags = (s.heap h).flags)
    (hc : ent.casid = s.counter) :
    KeepsPosition s h ent.priority
      (bump { s with heap := heapStore s.heap h ent, length := len }) := by
  refine ⟨rfl, ?_, rfl, ?_, ?_, ?_, ?_, ?_⟩
  · unfold keys
    apply List.map_congr_left
    intro x _
    show (heapStore s.heap h ent x).key = (s.heap x).key
    unfold heapStore
    by_cases hx : x = h
    · rw [if_pos hx, hk, hx]
    · rw [if_neg hx]
  · show (heapStore s.heap h ent h).priority = ent.priority
    simp [heapStore]
  · show (heapStore s.heap h ent h).casid = s.counter
    simp [heapStore, hc]
  · show (heapStore s.heap h ent h).key = (s.heap h).key
    simp [heapStore, hk]
  · show (heapStore s.heap h ent h).flags = (s.heap h).flags
    simp [heapStore, hf]
  · intro x hx
    show heapStore s.heap h ent x = s.heap x
    simp [heapStore, hx]

theorem keepsPosition_overwrite (s : Cache) (h : Handle) (v : Bytes) (p : Nat) :
    KeepsPosition s h p (bump (overwrite s h v p)) :=
  keepsPosition_store s h
    { s.heap h with value := v, priority := p, casid := s.counter } _ rfl rfl rfl

/-! ## Index and sequence name the same entries -/

theorem keys_nodup_of_inv {s : Cache} (hs : Inv s) : (keys s).Nodup := by
  unfold keys
  refine List.Nodup.map_on ?_ hs.nodup
  intro x hx y hy hxy
  have h1 := hs.listIn x hx
  have h2 := hs.listIn y hy
  rw [hxy, h2] at h1
  exact (Option.some.inj h1).symm

theorem mem_keys_iff_of_inv {s : Cache} (hs : Inv s) (k : String) :
    k ∈ keys s ↔ (s.m k).isSome = true := by
  unfold keys
  constructor
  · intro hk
    obtain ⟨h, hh, rfl⟩ := List.mem_map.mp hk
    rw [hs.listIn h hh]
    rfl
  · intro hk
    obtain ⟨h, hh⟩ := Option.isSome_iff_exists.mp hk
    obtain ⟨h1, h2⟩ := hs.mapIn k h hh
    exact List.mem_map.mpr ⟨h, h1, h2⟩

/-- C22: in every state reached from `NewCache` by a sequence of public
operations, a key is in the index map exactly when it is the key of an entry
of the list, no key occurs twice in the list, the entry pointer the map
holds for a key is an element of the list whose entry carries that key, and
every element of the list is the one the map holds for its key. -/
theorem index_sequence_consistent (n : Int) (ops : List Op) :
    (∀ k, (run (NewCache n) ops).m k ≠ none ↔ k ∈ keys (run (NewCache n) ops)) ∧
    (keys (run (NewCache n) ops)).Nodup ∧
    (∀ k h, (run (NewCache n) ops).m k = some h →
      h ∈ (run (NewCache n) ops).l ∧ ((run (NewCache n) ops).heap h).key = k) ∧
    (∀ h ∈ (run (NewCache n) ops).l,
      (run (NewCache n) ops).m ((run (NewCache n) ops).heap h).key = some h) := by
  have hs := inv_run (inv_NewCache n) ops
  refine ⟨fun k => ?_, keys_nodup_of_inv hs, hs.mapIn, hs.listIn⟩
  rw [mem_keys_iff_of_inv hs k, Option.isSome_iff_ne_none]

/-! ## One eviction pass removes at most the front entry -/

theorem mem_listInsertAfter_of_mem (e mark : Handle) {l : List Handle} {h : Handle}
    (hh : h ∈ l) : h ∈ listInsertAfter e mark l := by
  induction l with
  | nil => exact hh
  | cons x xs ih =>
    unfold listInsertAfter
    by_cases hx : x = mark
    · rw [if_pos hx]
      rcases List.mem_cons.mp hh with rfl | h2
      · exact List.mem_cons_self _ _
      · exact List.mem_cons_of_mem _ (List.mem_cons_of_mem _ h2)
    · rw [if_neg hx]
      rcases List.mem_cons.mp hh with rfl | h2
      · exact List.mem_cons_self _ _
      · exact List.mem_cons_of_mem _ (ih h2)

theorem mem_insertNew_of_mem (s : Cache) (k : String) (v : Bytes) (p f : Nat) {h : Handle}
    (hh : h ∈ s.l) : h ∈ (insertNew s k v p f).l := by
  rw [insertNew_l]
  unfold place
  cases findPosition s.heap p s.l none with
  | none => exact List.mem_cons_of_mem _ hh
  | some position => exact mem_listInsertAfter_of_mem _ _ hh

/-- The body of a write operation unlinks nothing. -/
theorem mem_body_of_mem (s : Cache) (op : Op) (hop : evicts op = true) {h : Handle}
    (hh : h ∈ s.l) : h ∈ (body s op).l := by
  cases op with
  | set k v p f e =>
    show h ∈ (setBody s k v p f e).l
    unfold setBody
    cases s.m k with
    | none => exact mem_insertNew_of_mem s k v p f hh
    | some el => exact hh
  | add k v p f e =>
    show h ∈ (addBody s k v p f e).1.l
    unfold addBody
    cases s.m k with
    | none => exact mem_insertNew_of_mem s k v p f hh
    | some el => exact hh
  | replace k v p f e =>
    show h ∈ (replaceBody s k v p f e).1.l
    unfold replaceBody
    cases s.m k <;> exact hh
  | append k v p f e =>
    show h ∈ (appendBody s k v p f e).1.l
    unfold appendBody
    cases s.m k <;> exact hh
  | prepend k v p f e =>
    show h ∈ (prependBody s k v p f e).1.l
    unfold prependBody
    cases s.m k <;> exact hh
  | cas k v p f e c =>
    show h ∈ (checkAndStoreBody s k v p f e c).1.l
    unfold checkAndStoreBody
    cases s.m k with
    | none => exact hh
    | some el =>
      show h ∈ (if (s.heap el).casid = c then (bump (overwrite s el v p), some el, true)
        else (s, some el, false)).1.l
      by_cases hc : (s.heap el).casid = c
      · rw [if_pos hc]; exact hh
      · rw [if_neg hc]; exact hh
  | get k => exact absurd hop (by simp [evicts])
  | gets k => exact absurd hop (by simp [evicts])
  | delete k => exact absurd hop (by simp [evicts])

/-- An element the eviction pass unlinks is the front element. -/
theorem evict_unlinks_front (b : Cache) {h : Handle} (hh : h ∈ b.l)
    (hn : h ∉ (evict b).l) : b.l.head? = some h := by
  rw [evict_eq_evictStep] at hn
  unfold evictStep at hn
  split at hn
  · exact absurd hh hn
  · next i rest hl =>
    by_cases hlen : b.length > b.maxLength
    · rw [if_pos hlen] at hn
      have : ¬ (h ∈ b.l ∧ h ≠ i) := fun hc => hn (mem_listRemove.mpr hc)
      have hi : h = i := by
        by_contra hne
        exact this ⟨hh, hne⟩
      rw [hl, hi]
      rfl
    · rw [if_neg hlen] at hn
      exact absurd hh hn

/-- An element a public operation unlinks is determined by the state before
its eviction pass (for `Delete`, by the map). -/
theorem step_unlinks_one (s : Cache) (op : Op) {h1 h2 : Handle} (m1 : h1 ∈ s.l)
    (m2 : h2 ∈ s.l) (n1 : h1 ∉ (step s op).l) (n2 : h2 ∉ (step s op).l) : h1 = h2 := by
  by_cases hop : evicts op = true
  · rw [step_eq_body, if_pos hop] at n1 n2
    have e1 := evict_unlinks_front (body s op) (mem_body_of_mem s op hop m1) n1
    have e2 := evict_unlinks_front (body s op) (mem_body_of_mem s op hop m2) n2
    rw [e1] at e2
    exact Option.some.inj e2
  · cases op with
    | get k => exact absurd m1 n1
    | gets k => exact absurd m1 n1
    | delete k =>
      have key : ∀ h, h ∈ s.l → h ∉ (Delete s k).1.l → s.m k = some h := by
        intro h hm hn
        unfold Delete at hn
        cases hk : s.m k with
        | none => rw [hk] at hn; exact absurd hm hn
        | some el =>
          rw [hk] at hn
          have : ¬ (h ∈ s.l ∧ h ≠ el) := fun hc => hn (mem_listRemove.mpr hc)
          have hi : h = el := by
            by_contra hne
            exact this ⟨hm, hne⟩
          rw [hi]
      have a1 := key h1 m1 n1
      have a2 := key h2 m2 n2
      rw [a1] at a2
      exact Option.some.inj a2
    | set k v p f e => exact absurd rfl hop
    | add k v p f e => exact absurd rfl hop
    | replace k v p f e => exact absurd rfl hop
    | append k v p f e => exact absurd rfl hop
    | prepend k v p f e => exact absurd rfl hop
    | cas k v p f e c => exact absurd rfl hop

/-- C25: in every cache state one eviction pass changes nothing when
`length <= max_length` or the list is empty; otherwise it runs the loop body
once, on the front element `i`: it unlinks `i` (leaving exactly the rest of
the list when `i` does not occur again), subtracts the size of its value and
deletes its key from the map, and stops there, whatever the iteration bound
and however far `length` exceeds `max_length`.  Hence any two entries of the
list that a public operation unlinks are the same entry. -/
theorem single_step_eviction (s : Cache) :
    ((s.length ≤ s.maxLength ∨ s.l = []) → evict s = s) ∧
    (∀ i rest, s.l = i :: rest → s.length > s.maxLength →
      evict s = evictBody s i ∧ (evict s).l = listRemove s.l i ∧
      (i ∉ rest → (evict s).l = rest) ∧
      (evict s).length = s.length - ((s.heap i).value.length : Int) ∧
      (evict s).m = mapDelete s.m (s.heap i).key) ∧
    (∀ fuel, evictLoop (fuel + 2) (listFront s.l) s = evict s) ∧
    (∀ op h1 h2, h1 ∈ s.l → h2 ∈ s.l →
      h1 ∉ (step s op).l → h2 ∉ (step s op).l → h1 = h2) := by
  refine ⟨?_, ?_, ?_, ?_⟩
  · rintro (h | h)
    · exact evict_of_within_bound s h
    · rw [evict_eq_evictStep]
      unfold evictStep
      rw [h]
  · intro i rest hl hlen
    have he : evict s = evictBody s i := by
      rw [evict_eq_evictStep]
      unfold evictStep
      rw [hl]
      exact if_pos hlen
    refine ⟨he, ?_, ?_, ?_, ?_⟩
    · rw [he]; rfl
    · intro hi
      rw [he]
      show listRemove s.l i = rest
      rw [hl]
      exact listRemove_cons_self i rest hi
    · rw [he]; rfl
    · rw [he]; rfl
  · intro fuel
    rw [evictLoop_eq_evictStep, evict_eq_evictStep]
  · intro op h1 h2 m1 m2 n1 n2
    exact step_unlinks_one s op m1 m2 n1 n2

/-! ## What `parseUint64` accepts -/

theorem validUint_iff (t : Bytes) :
    validUint t = true ↔ t ≠ [] ∧ (∀ c ∈ t, isDigit c = true) ∧ digitsValue t < u64 := by
  unfold validUint
  cases t with
  | nil => simp
  | cons c cs =>
    simp only [List.isEmpty_cons, Bool.not_false, Bool.true_and, Bool.and_eq_true,
      List.all_eq_true, decide_eq_true_eq, ne_eq, reduceCtorEq, not_false_eq_true, true_and]

theorem parseUint64_tok (p : Parser) :
    parseUint64 p = some (advance p, (ParseUint (tok (p.cmd.drop (p.position + 1)))).1,
      validUint (tok (p.cmd.drop (p.position + 1)))) := by
  have h := parseUint64_eq p
  have ht : field (fieldsAt p) 0 = tok (p.cmd.drop (p.position + 1)) :=
    field_zero_splitSpaces _
  rw [ht] at h
  exact h

/-- C23: `parseUint64` always returns, and with the next token being the
bytes after the separator under the cursor up to the next space (empty when
there is none): it returns `(n, true)` exactly when that token is not empty,
consists of ASCII decimal digits only and denotes `n` with `n < 2^64`; it
returns `ok = false` when the token is empty, contains a byte that is not a
digit, or denotes a value of `2^64` or more.  The signs `-` and `+` are not
digits. -/
theorem parseUint64_acceptance (p : Parser) :
    (∀ n, (∃ p2, parseUint64 p = some (p2, n, true)) ↔
      (tok (p.cmd.drop (p.position + 1)) ≠ [] ∧
       (∀ c ∈ tok (p.cmd.drop (p.position + 1)), isDigit c = true) ∧
       digitsValue (tok (p.cmd.drop (p.position + 1))) = n ∧ n < u64)) ∧
    ((tok (p.cmd.drop (p.position + 1)) = [] ∨
      (∃ c ∈ tok (p.cmd.drop (p.position + 1)), isDigit c = false) ∨
      u64 ≤ digitsValue (tok (p.cmd.drop (p.position + 1)))) →
      ∃ p2 n, parseUint64 p = some (p2, n, false)) ∧
    isDigit 45 = false ∧ isDigit 43 = false := by
  have h := parseUint64_tok p
  refine ⟨fun n => ⟨?_, ?_⟩, ?_, by decide, by decide⟩
  · rintro ⟨p2, hp⟩
    rw [h] at hp
    have hp2 := Option.some.inj hp
    have hv : validUint (tok (p.cmd.drop (p.position + 1))) = true :=
      congrArg (fun x => x.2.2) hp2
    have hn : (ParseUint (tok (p.cmd.drop (p.position + 1)))).1 = n :=
      congrArg (fun x => x.2.1) hp2
    rw [ParseUint_value _ hv] at hn
    obtain ⟨h1, h2, h3⟩ := (validUint_iff _).mp hv
    exact ⟨h1, h2, hn, hn ▸ h3⟩
  · rintro ⟨h1, h2, h3, h4⟩
    have hv : validUint (tok (p.cmd.drop (p.position + 1))) = true :=
      (validUint_iff _).mpr ⟨h1, h2, h3 ▸ h4⟩
    refine ⟨advance p, ?_⟩
    rw [h, hv, ParseUint_value _ hv, h3]
  · intro hbad
    have hv : validUint (tok (p.cmd.drop (p.position + 1))) = false := by
      cases hvv : validUint (tok (p.cmd.drop (p.position + 1))) with
      | false => rfl
      | true =>
        obtain ⟨h1, h2, h3⟩ := (validUint_iff _).mp hvv
        rcases hbad with hb | ⟨c, hc, hd⟩ | hb
        · exact absurd hb h1
        · rw [h2 c hc] at hd
          exact absurd hd (by decide)
        · exact absurd h3 (Nat.not_lt.mpr hb)
    exact ⟨advance p, _, by rw [h, hv]⟩

/-! ## The header line of a retrieval reply parses back -/

/-- The reply `runGetCmd` stages on a hit starts with `getHeader`. -/
theorem runGetCmd_header (srv : Server) (k : Bytes) (hk : keyToken k = true)
    (hcmd : field (fieldsOf cmdGet srv.parser.cmd) 0 = k)
    (hok : (Get srv.cache (goString k)).ok = true) :
    ∃ srv2, runGetCmd srv = some srv2 ∧
      srv2.response =
        getHeader k (Get srv.cache (goString k)).flags (Get srv.cache (goString k)).size ++
          (Get srv.cache (goString k)).value ++ ascii "\r\nEND\r\n" := by
  obtain ⟨srv2, h1, _, h3⟩ := runGetCmd_key srv k hk hcmd
  rw [if_pos hok] at h3
  exact ⟨srv2, h1, h3⟩

/-- The reply `runGetsCmd` stages on a hit starts with `getsHeader`. -/
theorem runGetsCmd_header (srv : Server) (k : Bytes) (hk : keyToken k = true)
    (hcmd : field (fieldsOf cmdGets srv.parser.cmd) 0 = k)
    (hok : (Gets srv.cache (goString k)).ok = true) :
    ∃ srv2, runGetsCmd srv = some srv2 ∧
      srv2.response =
        getsHeader k (Gets srv.cache (goString k)).flags (Gets srv.cache (goString k)).size
            (Gets srv.cache (goString k)).casid ++
          (Gets srv.cache (goString k)).value ++ ascii "\r\nEND\r\n" := by
  obtain ⟨srv2, h1, _, h3⟩ := runGetsCmd_key srv k hk hcmd
  rw [if_pos hok] at h3
  exact ⟨srv2, h1, h3⟩

/-- A reply line whose fields after `VALUE` are a key and decimal numbers
parses to those numbers. -/
theorem ParseGetResponse_of_fields (p : Parser) (cmd : Bytes) (flags size casid : Nat)
    (h1 : flags < u64) (h2 : size < u64) (h3 : casid < u64)
    (f0 : field (fieldsOf strValue p.cmd) 0 ≠ [])
    (f1 : field (fieldsOf strValue p.cmd) 1 = decimal flags)
    (f2 : field (fieldsOf strValue p.cmd) 2 = decimal size)
    (f3 : cmd = cmdGets → field (fieldsOf strValue p.cmd) 3 = decimal casid) :
    ∃ p2, ParseGetResponse p cmd =
      some (p2, ⟨flags, size, if cmd = cmdGets then casid else 0, true⟩) := by
  have a0 := aligned_start p strValue
  have v1 : validUint (field (fieldsOf strValue p.cmd) 1) = true := by
    rw [f1]; exact validUint_decimal _ h1
  have v2 : validUint (field (fieldsOf strValue p.cmd) 2) = true := by
    rw [f2]; exact validUint_decimal _ h2
  have a1 : AlignedAt (advance { p with position := strValue.length })
      (fieldsOf strValue p.cmd) 1 := aligned_advance a0 f0
  have a2 : AlignedAt (advance (advance { p with position := strValue.length }))
      (fieldsOf strValue p.cmd) 2 := aligned_advance a1 (validUint_ne_nil v1)
  have a3 : AlignedAt (advance (advance (advance { p with position := strValue.length })))
      (fieldsOf strValue p.cmd) 3 := aligned_advance a2 (validUint_ne_nil v2)
  unfold ParseGetResponse
  rw [getNextToken_aligned a0]
  simp only [Option.some_bind, f0, if_false]
  rw [parseUint64_aligned a1]
  simp only [Option.some_bind, v1, Bool.true_eq_false, if_false]
  rw [parseUint64_aligned a2]
  simp only [Option.some_bind, v2, Bool.true_eq_false, if_false]
  by_cases hc : cmd = cmdGets
  · have v3 : validUint (field (fieldsOf strValue p.cmd) 3) = true := by
      rw [f3 hc]; exact validUint_decimal _ h3
    rw [if_pos hc, parseUint64_aligned a3]
    simp only [Option.some_bind, v3, Bool.true_eq_false, if_false, if_pos hc,
      ParseUint_value _ v1, ParseUint_value _ v2, ParseUint_value _ v3]
    rw [f1, f2, f3 hc]
    simp only [digitsValue_decimal]
    exact ⟨_, rfl⟩
  · rw [if_neg hc]
    simp only [if_neg hc, ParseUint_value _ v1, ParseUint_value _ v2]
    rw [f1, f2]
    simp only [digitsValue_decimal]
    exact ⟨_, rfl⟩

theorem getHeader_eq (k : Bytes) (flags size : Nat) :
    getHeader k flags size = strValue ++ space :: (k ++ space :: (decimal flags ++
      space :: (decimal size ++ space :: [13, 10]))) := by
  have hv : ascii "VALUE " = strValue ++ [space] := by decide
  have hs : ascii " " = [space] := by decide
  have he : ascii " \r\n" = [space, 13, 10] := by decide
  unfold getHeader
  rw [hv, hs, he]
  simp only [List.append_assoc, List.singleton_append, List.cons_append, List.nil_append]

theorem getsHeader_eq (k : Bytes) (flags size casid : Nat) :
    getsHeader k flags size casid = strValue ++ space :: (k ++ space :: (decimal flags ++
      space :: (decimal size ++ space :: (decimal casid ++ space :: [13, 10])))) := by
  have hv : ascii "VALUE " = strValue ++ [space] := by decide
  have hs : ascii " " = [space] := by decide
  have he : ascii " \r\n" = [space, 13, 10] := by decide
  unfold getsHeader
  rw [hv, hs, he]
  simp only [List.append_assoc, List.singleton_append, List.cons_append, List.nil_append]

/-- C24: for every key that is not empty and contains no space and all
flags, size and casid below `2^64`, `ParseGetResponse` with the command `get`
applied to the untrimmed header line the server formats for a `get` hit
(`VALUE <key> <flags> <size> \r\n`) returns `flags`, `size` and `ok = true`
(the casid result is zero), and with the command `gets` applied to the header
line of a `gets` hit (`VALUE <key> <flags> <size> <casid> \r\n`) it returns
`flags`, `size`, `casid` and `ok = true`. -/
theorem value_line_round_trip (p : Parser) (k : Bytes) (flags size casid : Nat)
    (hk : k ≠ []) (hsp : ∀ c ∈ k, c ≠ space)
    (h1 : flags < u64) (h2 : size < u64) (h3 : casid < u64) :
    (∃ p2, ParseGetResponse { p with cmd := getHeader k flags size } cmdGet =
      some (p2, ⟨flags, size, 0, true⟩)) ∧
    (∃ p2, ParseGetResponse { p with cmd := getsHeader k flags size casid } cmdGets =
      some (p2, ⟨flags, size, casid, true⟩)) := by
  have n1 := decimal_no_space flags
  have n2 := decimal_no_space size
  have n3 := decimal_no_space casid
  have hne : cmdGet ≠ cmdGets := by decide
  refine ⟨?_, ?_⟩
  · have h := ParseGetResponse_of_fields { p with cmd := getHeader k flags size } cmdGet
      flags size casid h1 h2 h3
      (by
        simp only [fieldsOf, getHeader_eq, drop_name, splitSpaces_append_space _ _ hsp]
        exact hk)
      (by
        simp only [fieldsOf, getHeader_eq, drop_name, splitSpaces_append_space _ _ hsp,
          splitSpaces_append_space _ _ n1]
        rfl)
      (by
        simp only [fieldsOf, getHeader_eq, drop_name, splitSpaces_append_space _ _ hsp,
          splitSpaces_append_space _ _ n1, splitSpaces_append_space _ _ n2]
        rfl)
      (fun hc => absurd hc hne)
    rw [if_neg hne] at h
    exact h
  · have h := ParseGetResponse_of_fields { p with cmd := getsHeader k flags size casid } cmdGets
      flags size casid h1 h2 h3
      (by
        simp only [fieldsOf, getsHeader_eq, drop_name, splitSpaces_append_space _ _ hsp]
        exact hk)
      (by
        simp only [fieldsOf, getsHeader_eq, drop_name, splitSpaces_append_space _ _ hsp,
          splitSpaces_append_space _ _ n1]
        rfl)
      (by
        simp only [fieldsOf, getsHeader_eq, drop_name, splitSpaces_append_space _ _ hsp,
          splitSpaces_append_space _ _ n1, splitSpaces_append_space _ _ n2]
        rfl)
      (fun _ => by
        simp only [fieldsOf, getsHeader_eq, drop_name, splitSpaces_append_space _ _ hsp,
          splitSpaces_append_space _ _ n1, splitSpaces_append_space _ _ n2,
          splitSpaces_append_space _ _ n3]
        rfl)
    rw [if_pos rfl] at h
    exact h

/-- C24, instance: the header lines `VALUE key 7 3 \r\n` and
`VALUE key 7 3 18446744073709551615 \r\n` parse back to their numbers. -/
theorem value_line_round_trip_witness :
    getHeader (ascii "key") 7 3 = ascii "VALUE key 7 3 \r\n" ∧
    getsHeader (ascii "key") 7 3 18446744073709551615 =
      ascii "VALUE key 7 3 18446744073709551615 \r\n" ∧
    (∃ p2, ParseGetResponse { (⟨[], [], 0⟩ : Parser) with cmd := getHeader (ascii "key") 7 3 }
        cmdGet = some (p2, ⟨7, 3, 0, true⟩)) ∧
    (∃ p2, ParseGetResponse { (⟨[], [], 0⟩ : Parser) with
        cmd := getsHeader (ascii "key") 7 3 18446744073709551615 } cmdGets =
      some (p2, ⟨7, 3, 18446744073709551615, true⟩)) :=
  ⟨by decide, by decide,
   value_line_round_trip ⟨[], [], 0⟩ (ascii "key") 7 3 18446744073709551615
     (by decide) (by decide) (by decide) (by decide) (by decide)⟩

/-! ## The eviction pass and the lock -/

/-- The eviction pass is its loop head followed by one run of the loop
body. -/
theorem evict_eq_head_body (s : Cache) :
    evict s = match evictHead s with
      | none => s
      | some i => evictBody s i := by
  rw [evict_eq_evictStep]
  unfold evictStep evictHead listFront
  cases hl : s.l with
  | nil => rfl
  | cons i rest =>
    by_cases hlen : s.length > s.maxLength
    · simp only [List.head?_cons, if_pos hlen]
    · simp only [List.head?_cons, if_neg hlen]

/-- C26 (locking discipline) evaluated on the code.  In every method the
body runs with the mutex held, and `Get`, `Gets` and `Delete` do nothing
after `Unlock`.  In the six write methods `defer this.evict()` is registered
before `defer this.mutex.Unlock()`, so at the return `Unlock` runs first and
the eviction pass runs with the mutex not held.  Another call can therefore
run between the loop head and the loop body of the pass: on a cache with
`max_length = 10` holding `k` and `a`, `Delete("a")` scheduled there during
the eviction pass of `Set("b", …)` makes the pass subtract the size of `a` a
second time, leaving the keys `k`, `b` (15 bytes) with `length = 10`, which
neither order of the two calls run one after the other produces. -/
theorem evict_runs_after_unlock :
    (∀ op, heldDuring false (exec (method op) []) =
      if evicts op = true then
        [(.lock, false), (.work, true), (.unlock, true), (.evict, false)]
      else [(.lock, false), (.work, true), (.unlock, true)]) ∧
    keys twoEntries = ["a", "k"] ∧ twoEntries.length = 10 ∧
    keys interleaved = ["k", "b"] ∧ valueSum interleaved = 15 ∧ interleaved.length = 10 ∧
    keys (run twoEntries
      [.set "b" [121, 121, 121, 121, 121, 121, 121, 121, 121, 121] 9 0 0, .delete "a"]) =
        ["k", "b"] ∧
    (run twoEntries
      [.set "b" [121, 121, 121, 121, 121, 121, 121, 121, 121, 121] 9 0 0, .delete "a"]).length =
        15 ∧
    keys (run twoEntries
      [.delete "a", .set "b" [121, 121, 121, 121, 121, 121, 121, 121, 121, 121] 9 0 0]) =
        ["b"] ∧
    (run twoEntries
      [.delete "a", .set "b" [121, 121, 121, 121, 121, 121, 121, 121, 121, 121] 9 0 0]).length =
        10 := by
  refine ⟨fun op => ?_, ?_⟩
  · cases op <;> rfl
  · decide

/-! ## The cursor arithmetic of `getNextToken` -/

theorem intAdd_of_range (a b : Int) (h1 : -(2 ^ 63) ≤ a + b) (h2 : a + b < 2 ^ 63) :
    intAdd a b = a + b := by
  unfold intAdd
  omega

theorem sliceInt_cast (b : Bytes) (lo hi : Nat) :
    sliceInt b (lo : Int) (hi : Int) = slice b lo hi := by
  unfold sliceInt slice
  by_cases h : lo ≤ hi ∧ hi ≤ b.length
  · have h2 : (0 : Int) ≤ (lo : Int) ∧ (lo : Int) ≤ (hi : Int) ∧ (hi : Int) ≤ (b.length : Int) := by
      omega
    rw [if_pos h, if_pos h2, Int.toNat_natCast, Int.toNat_natCast]
  · have h2 : ¬ ((0 : Int) ≤ (lo : Int) ∧ (lo : Int) ≤ (hi : Int) ∧
        (hi : Int) ≤ (b.length : Int)) := by
      omega
    rw [if_neg h, if_neg h2]

theorem indexByte_lt {l : Bytes} {c : UInt8} {i : Nat} (h : indexByte l c = some i) :
    i < l.length := by
  induction l generalizing i with
  | nil => simp [indexByte] at h
  | cons x xs ih =>
    unfold indexByte at h
    by_cases hx : x = c
    · rw [if_pos hx] at h
      have := Option.some.inj h
      subst this
      exact Nat.succ_pos _
    · rw [if_neg hx] at h
      cases hi : indexByte xs c with
      | none => rw [hi] at h; simp at h
      | some j =>
        rw [hi] at h
        have := Option.some.inj h
        subst this
        exact Nat.succ_lt_succ (ih hi)

/-- For a cursor below the largest `int` and a command a slice can hold, the
method with `int` arithmetic returns what `getNextToken` returns. -/
theorem getNextTokenInt_eq (p : Parser) (hp : p.position < 2 ^ 63 - 1)
    (hc : p.cmd.length < 2 ^ 63) :
    getNextTokenInt p.cmd (p.position : Int) =
      (getNextToken p).map fun r => ((r.1.position : Int), r.2) := by
  have hfirst : intAdd (p.position : Int) 1 = ((p.position + 1 : Nat) : Int) := by
    rw [intAdd_of_range _ _ (by omega) (by omega)]
    rfl
  unfold getNextTokenInt getNextToken
  simp only [hfirst]
  by_cases h1 : p.position + 1 > p.cmd.length
  · have h1i : ((p.position + 1 : Nat) : Int) > (p.cmd.length : Int) := by omega
    rw [if_pos h1, if_pos h1i]
    rfl
  · have h1i : ¬ ((p.position + 1 : Nat) : Int) > (p.cmd.length : Int) := by omega
    rw [if_neg h1, if_neg h1i, sliceInt_cast]
    cases hs : slice p.cmd (p.position + 1) p.cmd.length with
    | none => rfl
    | some rest =>
      have hrest : rest.length ≤ p.cmd.length - (p.position + 1) := by
        unfold slice at hs
        split at hs
        · have := Option.some.inj hs
          subst this
          simp
        · cases hs
      simp only [Option.some_bind]
      cases hi : indexByte rest space with
      | none =>
        simp only []
        by_cases h2 : p.position + 1 = p.cmd.length
        · have h2i : ((p.position + 1 : Nat) : Int) = (p.cmd.length : Int) := by omega
          rw [if_pos h2, if_pos h2i]
          rfl
        · have h2i : ¬ ((p.position + 1 : Nat) : Int) = (p.cmd.length : Int) := by omega
          rw [if_neg h2, if_neg h2i, sliceInt_cast]
          cases slice p.cmd (p.position + 1) p.cmd.length <;> rfl
      | some i =>
        have hil := indexByte_lt hi
        have hlast : intAdd (i : Int) ((p.position + 1 : Nat) : Int) =
            ((i + (p.position + 1) : Nat) : Int) := by
          rw [intAdd_of_range _ _ (by omega) (by omega)]
          push_cast
          rfl
        simp only [hlast]
        by_cases h2 : p.position + 1 = i + (p.position + 1)
        · have h2i : ((p.position + 1 : Nat) : Int) = ((i + (p.position + 1) : Nat) : Int) := by
            omega
          rw [if_pos h2, if_pos h2i]
          rfl
        · have h2i : ¬ ((p.position + 1 : Nat) : Int) = ((i + (p.position + 1) : Nat) : Int) := by
            omega
          rw [if_neg h2, if_neg h2i, sliceInt_cast]
          cases slice p.cmd (p.position + 1) (i + (p.position + 1)) <;> rfl

/-- The cursor never passes the end of the command: `getNextToken` leaves it
where it is or moves it to an index of `cmd`. -/
theorem advance_position_le (p : Parser) :
    (advance p).position ≤ max p.position p.cmd.length := by
  have hf : field (fieldsAt p) 0 = tok (p.cmd.drop (p.position + 1)) :=
    field_zero_splitSpaces _
  have hle := tok_length_le (p.cmd.drop (p.position + 1))
  rw [List.length_drop] at hle
  unfold advance
  by_cases h : field (fieldsAt p) 0 = []
  · rw [if_pos h]
    exact le_max_left _ _
  · rw [if_neg h]
    have hpos : 0 < (field (fieldsAt p) 0).length := List.length_pos.mpr h
    rw [hf] at hpos ⊢
    show p.position + 1 + (tok (p.cmd.drop (p.position + 1))).length ≤ max p.position p.cmd.length
    have : p.position + 1 + (tok (p.cmd.drop (p.position + 1))).length ≤ p.cmd.length := by
      omega
    exact le_trans this (le_max_right _ _)

/-- C16 (parser totality), with the cursor bound made explicit: every parse
entry point returns, for every byte string `cmd` (lines shorter than the
command name included), either a success (`ok = true` with the fields) or a
failure (`ok = false`) with `failedToken` set to the name of a field, without
an out-of-range slice access.  `getNextToken`, with the arithmetic of Go's
`int`, returns for every cursor position from 0 up to but not including the
largest `int` (on a command a slice can hold); there it is the function
`getNextToken` of the entry points, `parseUint64` returns as well, and the
cursor it leaves is the old one or an index of `cmd`, so the entry points,
which start from the length of a command name, never bring the cursor to the
largest `int` on such a command. -/
theorem parser_total (p : Parser) (cmd : Bytes) :
    (p.position < 2 ^ 63 - 1 → p.cmd.length < 2 ^ 63 →
      (∃ r, getNextTokenInt p.cmd (p.position : Int) = some r) ∧
      getNextTokenInt p.cmd (p.position : Int) =
        (getNextToken p).map (fun r => ((r.1.position : Int), r.2)) ∧
      (∃ r, parseUint64 p = some r) ∧
      (∀ r, getNextToken p = some r → r.1.position ≤ max p.position p.cmd.length)) ∧
    StoreOutcome (ParseSetCmd p) ∧ StoreOutcome (ParseAddCmd p) ∧
    StoreOutcome (ParseReplaceCmd p) ∧ StoreOutcome (ParseAppendCmd p) ∧
    StoreOutcome (ParsePrependCmd p) ∧ StoreOutcome (ParseCasCmd p) ∧
    KeyOutcome (ParseGetCmd p) ∧ KeyOutcome (ParseGetsCmd p) ∧
    KeyOutcome (ParseDeleteCmd p) ∧ ResponseOutcome (ParseGetResponse p cmd) := by
  refine ⟨fun hp hc => ⟨?_, getNextTokenInt_eq p hp hc, ⟨_, parseUint64_eq p⟩, ?_⟩,
   storeOutcome_parseStoreCmd p cmdSet, storeOutcome_parseStoreCmd p cmdAdd,
   storeOutcome_parseStoreCmd p cmdReplace, storeOutcome_parseStoreCmd p cmdAppend,
   storeOutcome_parseStoreCmd p cmdPrepend, storeOutcome_parseStoreCmd p cmdCas,
   keyOutcome_parseKeyCmd p cmdGet, keyOutcome_parseKeyCmd p cmdGets,
   keyOutcome_parseKeyCmd p cmdDelete, responseOutcome_ParseGetResponse p cmd⟩
  · rw [getNextTokenInt_eq p hp hc, getNextToken_eq p]
    exact ⟨_, rfl⟩
  · intro r hr
    rw [getNextToken_eq p] at hr
    have := Option.some.inj hr
    rw [← this]
    exact advance_position_le p

/-- C16, instance: on the line `set k 12` with the cursor on the separator
after the command name, `getNextToken` with `int` arithmetic returns the
token `k` and the cursor 5. -/
theorem parser_total_witness :
    getNextTokenInt [115, 101, 116, 32, 107, 32, 49, 50] 3 = some (5, some [107]) ∧
    ∃ r, getNextTokenInt [115, 101, 116, 32, 107, 32, 49, 50] ((3 : Nat) : Int) = some r :=
  ⟨by decide,
   ((parser_total ⟨[115, 101, 116, 32, 107, 32, 49, 50], [], 3⟩ []).1
     (by decide) (by decide)).1⟩

/-- C16 as first stated fails at the largest cursor: with
`position = 2^63 - 1` the increment `first += 1` wraps to `-2^63`, the test
`first > len(this.cmd)` is false, and the slice expression `this.cmd[first:]`
panics. -/
theorem parser_total_counterexample :
    intAdd (2 ^ 63 - 1) 1 = -(2 ^ 63) ∧
    getNextTokenInt [115, 101, 116, 32, 107, 32, 49, 50] (2 ^ 63 - 1) = none := by
  decide

/-! ## In-place writes with the values as slices -/

theorem readSlice_length (mem : Mem) (s : Slice) : (readSlice mem s).length = s.len := by
  simp [readSlice]

/-- Bytes stored in an array do not show through a window that contains
none of the cells written. -/
theorem readSlice_writeAt (mem : Mem) (a i : Nat) (w : Bytes) (x : Slice)
    (hc : x.arr ≠ a ∨ x.off + x.len ≤ i ∨ i + w.length ≤ x.off) :
    readSlice (writeAt mem a i w) x = readSlice mem x := by
  unfold readSlice
  apply List.map_congr_left
  intro j hj
  have hjl : j < x.len := List.mem_range.mp hj
  unfold writeAt
  have hno : ¬ (x.arr = a ∧ i ≤ x.off + j ∧ x.off + j < i + w.length) := by
    rintro ⟨h1, h2, h3⟩
    rcases hc with hc | hc | hc
    · exact hc h1
    · omega
    · omega
  rw [if_neg hno]

/-- The built-in `append` does not change the bytes seen through a window
that contains none of the cells it writes. -/
theorem readSlice_goAppend (mem : Mem) (fresh spare : Nat) (dst : Slice) (w : Bytes)
    (x : Slice) (hc : Clear (appendCells fresh dst w.length) x) :
    readSlice (goAppend mem fresh spare dst w).1 x = readSlice mem x := by
  unfold goAppend
  unfold appendCells at hc
  by_cases hfit : dst.len + w.length ≤ dst.cap
  · rw [if_pos hfit] at hc ⊢
    exact readSlice_writeAt mem dst.arr (dst.off + dst.len) w x hc
  · rw [if_neg hfit] at hc ⊢
    refine readSlice_writeAt mem fresh 0 _ x ?_
    rw [List.length_append, readSlice_length, Nat.zero_add]
    exact hc

theorem keepsPosition_overwriteSlice (s : SliceCache) (h : Handle) (v : Slice) (p : Nat) :
    KeepsPosition (view s) h p (view (bumpSlice (overwriteSlice s h v p))) := by
  refine ⟨rfl, ?_, rfl, ?_, ?_, ?_, ?_, ?_⟩
  · unfold keys
    apply List.map_congr_left
    intro x _
    show (sliceStore s.heap h _ x).key = (s.heap x).key
    unfold sliceStore
    by_cases hx : x = h
    · rw [if_pos hx, hx]
    · rw [if_neg hx]
  · show (sliceStore s.heap h _ h).priority = p
    simp [sliceStore]
  · show (sliceStore s.heap h _ h).casid = s.counter
    simp [sliceStore]
  · show (sliceStore s.heap h _ h).key = (s.heap h).key
    simp [sliceStore]
  · show (sliceStore s.heap h _ h).flags = (s.heap h).flags
    simp [sliceStore]
  · intro x hx
    simp [view, bumpSlice, overwriteSlice, sliceStore, hx]

theorem keepsPositionSlice_grow (s : SliceCache) (h : Handle) (dst added : Slice) (w : Bytes)
    (p spare : Nat) :
    KeepsPositionSlice s h p (appendCells s.fresh dst w.length)
      (bumpSlice (growSlice s h (goAppend s.mem s.fresh spare dst w) added p)) := by
  refine ⟨rfl, ?_, rfl, ?_, ?_, ?_, ?_, ?_⟩
  · unfold keys
    apply List.map_congr_left
    intro x _
    show (sliceStore s.heap h _ x).key = (s.heap x).key
    unfold sliceStore
    by_cases hx : x = h
    · rw [if_pos hx, hx]
    · rw [if_neg hx]
  · show (sliceStore s.heap h _ h).priority = p
    simp [sliceStore]
  · show (sliceStore s.heap h _ h).casid = s.counter
    simp [sliceStore]
  · show (sliceStore s.heap h _ h).key = (s.heap h).key
    simp [sliceStore]
  · show (sliceStore s.heap h _ h).flags = (s.heap h).flags
    simp [sliceStore]
  · intro x hx
    have hst : sliceStore s.heap h
        { s.heap h with value := (goAppend s.mem s.fresh spare dst w).2, priority := p,
                        casid := s.counter } x = s.heap x := by
      unfold sliceStore
      rw [if_neg hx]
    refine ⟨?_, ?_, ?_, ?_, ?_⟩
    · show (sliceStore s.heap h _ x).priority = (s.heap x).priority
      rw [hst]
    · show (sliceStore s.heap h _ x).flags = (s.heap x).flags
      rw [hst]
    · show (sliceStore s.heap h _ x).casid = (s.heap x).casid
      rw [hst]
    · show (sliceStore s.heap h _ x).key = (s.heap x).key
      rw [hst]
    · intro hclear
      show readSlice (goAppend s.mem s.fresh spare dst w).1 (sliceStore s.heap h _ x).value =
        readSlice s.mem (s.heap x).value
      rw [hst]
      exact readSlice_goAppend s.mem s.fresh spare dst w _ hclear

/-- C21, with the proviso on shared backing arrays: when key `k` is present
(the map gives the entry pointer `h`), the body of `Set`, and of a successful
`Replace`, `CheckAndStore`, `Append` or `Prepend`, on `k` with priority `p`
leaves the list and the order of its keys exactly as they were, sets the
entry priority to `p` and its casid to the counter at the call, keeps its
key and flags, and leaves the priority, flags and casid of every other entry
unchanged.  `Set`, `Replace` and `CheckAndStore` write no byte, so every
other value is unchanged as well.  `Append` and `Prepend` leave the value of
another entry unchanged when its slice contains none of the cells that
`append` writes (for `Append` it extends the entry value by the argument,
for `Prepend` the argument by the entry value).  `Replace`, `Append` and
`Prepend` always succeed on a present key, and `CheckAndStore` succeeds
exactly when the casid matches. -/
theorem in_place_keeps_position (s : SliceCache) (k : String) (h : Handle)
    (hm : s.m k = some h) (v : Slice) (p f spare : Nat) :
    KeepsPosition (view s) h p (view (setBodySlice s k v p f)) ∧
    ((replaceBodySlice s k v p).2 = true ∧
      KeepsPosition (view s) h p (view (replaceBodySlice s k v p).1)) ∧
    (∀ c, ((checkAndStoreBodySlice s k v p c).2.2 = true ↔ (s.heap h).casid = c) ∧
      ((checkAndStoreBodySlice s k v p c).2.2 = true →
        KeepsPosition (view s) h p (view (checkAndStoreBodySlice s k v p c).1))) ∧
    ((appendBodySlice s k v p spare).2 = true ∧
      KeepsPositionSlice s h p (appendCells s.fresh (s.heap h).value v.len)
        (appendBodySlice s k v p spare).1) ∧
    ((prependBodySlice s k v p spare).2 = true ∧
      KeepsPositionSlice s h p (appendCells s.fresh v (s.heap h).value.len)
        (prependBodySlice s k v p spare).1) := by
  refine ⟨?_, ⟨?_, ?_⟩, ?_, ⟨?_, ?_⟩, ⟨?_, ?_⟩⟩
  · simp only [setBodySlice, hm]
    exact keepsPosition_overwriteSlice s h v p
  · simp only [replaceBodySlice, hm]
  · simp only [replaceBodySlice, hm]
    exact keepsPosition_overwriteSlice s h v p
  · intro c
    by_cases hc : (s.heap h).casid = c
    · simp only [checkAndStoreBodySlice, hm, if_pos hc]
      exact ⟨⟨fun _ => hc, fun _ => trivial⟩, fun _ => keepsPosition_overwriteSlice s h v p⟩
    · simp only [checkAndStoreBodySlice, hm, if_neg hc]
      exact ⟨⟨fun x => absurd x (by simp), fun x => absurd x hc⟩, fun x => absurd x (by simp)⟩
  · simp only [appendBodySlice, hm]
  · simp only [appendBodySlice, hm]
    have := keepsPositionSlice_grow s h (s.heap h).value v (readSlice s.mem v) p spare
    rw [readSlice_length] at this
    exact this
  · simp only [prependBodySlice, hm]
  · simp only [prependBodySlice, hm]
    have := keepsPositionSlice_grow s h v v (readSlice s.mem (s.heap h).value) p spare
    rw [readSlice_length] at this
    exact this

/-- C21, instance: in `apartValues` the values of `k` (`abcde`) and `j`
(`XY`) are on different arrays; `Append("j", buf[:3], 7)` allocates a new
array for `XYabc`, the slice of `k` contains none of its cells, and `k` still
reads `abcde`. -/
theorem in_place_keeps_position_witness :
    apartValues.m "j" = some 1 ∧
    (Get (view (appendBodySlice apartValues "j" ⟨0, 0, 3, 16⟩ 7 0).1) "j").value =
      [88, 89, 97, 98, 99] ∧
    (Get (view (appendBodySlice apartValues "j" ⟨0, 0, 3, 16⟩ 7 0).1) "k").value =
      [97, 98, 99, 100, 101] ∧
    Clear (appendCells apartValues.fresh (apartValues.heap 1).value 3)
      (apartValues.heap 0).value ∧
    ((appendBodySlice apartValues "j" ⟨0, 0, 3, 16⟩ 7 0).2 = true ∧
      KeepsPositionSlice apartValues 1 7
        (appendCells apartValues.fresh (apartValues.heap 1).value 3)
        (appendBodySlice apartValues "j" ⟨0, 0, 3, 16⟩ 7 0).1) :=
  ⟨by decide, by decide, by decide, Or.inl (by decide),
   (in_place_keeps_position apartValues "j" 1 (by decide) ⟨0, 0, 3, 16⟩ 7 0 0).2.2.2.1⟩

/-- C21 as first stated fails when two values share a backing array: in
`sharedValues` the value of `k` is `buf[:5]` (`abcde`) and the value of `j` is
`buf[:3]` (`abc`) of one array of capacity 16.  `Append("j", "XY", 1)` is
within the capacity of `buf[:3]`, writes `XY` at the indices 3 and 4 of the
array, and returns `true`; `j` now reads `abcXY`, and so does `k`, an entry
the call did not name. -/
theorem in_place_counterexample :
    sharedValues.m "j" = some 1 ∧ sharedValues.m "k" = some 0 ∧
    (Get (view sharedValues) "k").value = [97, 98, 99, 100, 101] ∧
    (Get (view sharedValues) "j").value = [97, 98, 99] ∧
    (appendBodySlice sharedValues "j" ⟨1, 0, 2, 2⟩ 1 0).2 = true ∧
    (Get (view (appendBodySlice sharedValues "j" ⟨1, 0, 2, 2⟩ 1 0).1) "j").value =
      [97, 98, 99, 88, 89] ∧
    (Get (view (appendBodySlice sharedValues "j" ⟨1, 0, 2, 2⟩ 1 0).1) "k").value =
      [97, 98, 99, 88, 89] ∧
    ¬ ((view (appendBodySlice sharedValues "j" ⟨1, 0, 2, 2⟩ 1 0).1).heap 0 =
      (view sharedValues).heap 0) := by
  decide

end Whatever
